import Mathlib

/-!
# Cursor trail effect (`src/App.js`): effect kinematics, registry loops, colour model

A shallow embedding of the animation engine of `src/App.js` and the properties
its specification states about it.

## Numbers

JavaScript numbers are IEEE-754 binary64 values.  They are modelled by `JSNum`:
a finite value (a rational), `+Infinity`, `-Infinity` or `NaN`.  Every
arithmetic operation takes a `Rounding`, the map applied to the exact result of
an operation on finite operands:

* `exact`    : no rounding (arithmetic over the rationals).
* `binary64` : round to nearest, ties to even, onto the binary64 grid (53-bit
  significand, subnormals below `2^-1022`, overflow to an infinity): the
  arithmetic of a JavaScript engine.

Statements about the structure of the computation (the frame loop, the spawn
batch, the wrap of the reflective line, the division by zero at speed `0`) are
proved under both roundings.  The order properties of sizes and opacities
(monotone sizes, non-increasing opacity, the range of the opacity) are proved
for `exact` and, from the laws of the rounding (monotone, odd, idempotent,
compatible with scaling by powers of two), for `binary64` at every double
speed.  The closed forms of size and opacity are proved for `exact`.  The
lifetimes, which rest on the quotients `1/11` and `1/15`, are proved for
`binary64` at every normal double speed by following the rounding error of each
operation of the constructors on the grid of the speed; they differ from the
lifetimes in `exact` arithmetic (a `Flame` lives 16 updates, not 15).

Division by zero, `Infinity - Infinity`, `0 * Infinity` and comparisons with
`NaN` follow IEEE-754 under both roundings.  The sign of zero is not modelled:
a zero denominator is taken as `+0`.

## State

Objects mutated in place become values passed through the functions.  Drawing
is modelled by the list of drawing commands issued on a context.
-/

namespace CursorTrail

/-! ## JavaScript numbers -/

/-- A JavaScript number: finite, `+Infinity`, `-Infinity` or `NaN`. -/
inductive JSNum where
  | fin (q : ℚ)
  | pinf
  | ninf
  | nan
deriving DecidableEq

/-- The rounding applied to the exact result of an operation on finite operands. -/
abbrev Rounding := ℚ → JSNum

/-- Arithmetic without rounding. -/
def exact : Rounding := JSNum.fin

/-- The number of binary digits of `n`, by halving; `fuel` bounds the number
of halvings and `n` itself is always enough. -/
def bitLength : Nat → Nat → Nat
  | 0, _ => 0
  | fuel + 1, n => if n = 0 then 0 else bitLength fuel (n / 2) + 1

/-- The floor of the binary logarithm of `n / d`, for positive `n` and `d`:
the difference of the bit lengths, less one when `n / d` is below that power
of two. -/
def ilog2 (n d : Nat) : Int :=
  let e0 : Int := (bitLength n n : Int) - (bitLength d d : Int)
  let below : Bool :=
    if 0 ≤ e0 then decide (n < d * 2 ^ e0.toNat) else decide (n * 2 ^ (-e0).toNat < d)
  if below then e0 - 1 else e0

/-- The integer nearest to `N / D`, the even one on a tie. -/
def roundHalfEven (N D : Nat) : Nat :=
  if 2 * (N % D) < D then N / D
  else if D < 2 * (N % D) then N / D + 1
  else if (N / D) % 2 = 0 then N / D else N / D + 1

/-- The power `2^e` as a rational. -/
def pow2 (e : Int) : ℚ :=
  if e < 0 then mkRat 1 (2 ^ (-e).toNat) else ((2 ^ e.toNat : Nat) : ℚ)

/-- The exponent of the binary64 quantum at `n / d`: 52 below the binade of
`n / d`, and `-1074` in the subnormal range. -/
def quantum (n d : Nat) : Int := max (ilog2 n d) (-1022) - 52

/-- The significand of the rounding of `n / d`: `n / d` measured in quanta,
rounded to the nearest integer, ties to even. -/
def mantissa (n d : Nat) : Nat :=
  if quantum n d < 0 then roundHalfEven (n * 2 ^ (-quantum n d).toNat) d
  else roundHalfEven n (d * 2 ^ (quantum n d).toNat)

/-- The absolute value of `q ≠ 0` rounded onto the unbounded binary64 grid. -/
def magnitude (q : ℚ) : ℚ :=
  mantissa q.num.natAbs q.den * pow2 (quantum q.num.natAbs q.den)

/-- Whether the rounded magnitude of `q` reaches `2^1024`. -/
def overflows (q : ℚ) : Bool :=
  decide (971 < quantum q.num.natAbs q.den) ||
    (decide (quantum q.num.natAbs q.den = 971) && decide (2 ^ 53 ≤ mantissa q.num.natAbs q.den))

/-- Round to nearest, ties to even, onto the IEEE-754 binary64 grid: a 53-bit
significand times a power of two, subnormal below `2^-1022`, an infinity from
`2^1024` on. -/
def round64 (q : ℚ) : JSNum :=
  if q = 0 then .fin 0
  else if 0 < q then (if overflows q then .pinf else .fin (magnitude q))
  else (if overflows q then .ninf else .fin (-magnitude q))

/-- IEEE-754 binary64 arithmetic, round to nearest even. -/
def binary64 : Rounding := round64

namespace JSNum

/-- A numeric literal of the source text. -/
def lit (r : Rounding) (q : ℚ) : JSNum := r q

/-- Unary minus. -/
def neg : JSNum → JSNum
  | fin a => fin (-a)
  | pinf => ninf
  | ninf => pinf
  | nan => nan

/-- The `+` operator. -/
def add (r : Rounding) : JSNum → JSNum → JSNum
  | fin a, fin b => r (a + b)
  | nan, _ => nan
  | _, nan => nan
  | pinf, ninf => nan
  | ninf, pinf => nan
  | pinf, _ => pinf
  | _, pinf => pinf
  | ninf, _ => ninf
  | _, ninf => ninf

/-- The `-` operator. -/
def sub (r : Rounding) (a b : JSNum) : JSNum := add r a (neg b)

/-- The sign rule for a product or quotient with an infinite factor:
the infinity carrying the sign of `a`, or of `-a` when `flip` is set. -/
def signedInf (a : ℚ) (flip : Bool) : JSNum :=
  if flip then (if 0 < a then ninf else pinf) else (if 0 < a then pinf else ninf)

/-- The `*` operator. -/
def mul (r : Rounding) : JSNum → JSNum → JSNum
  | fin a, fin b => r (a * b)
  | nan, _ => nan
  | _, nan => nan
  | fin a, pinf => if a = 0 then nan else signedInf a false
  | fin a, ninf => if a = 0 then nan else signedInf a true
  | pinf, fin b => if b = 0 then nan else signedInf b false
  | ninf, fin b => if b = 0 then nan else signedInf b true
  | pinf, pinf => pinf
  | ninf, ninf => pinf
  | pinf, ninf => ninf
  | ninf, pinf => ninf

/-- The `/` operator.  A zero denominator is `+0`: `0 / 0` is `NaN` and
`a / 0` is the infinity with the sign of `a`. -/
def div (r : Rounding) : JSNum → JSNum → JSNum
  | fin a, fin b =>
      if b = 0 then (if a = 0 then nan else signedInf a false) else r (a / b)
  | nan, _ => nan
  | _, nan => nan
  | fin _, pinf => fin 0
  | fin _, ninf => fin 0
  | pinf, fin b => if 0 ≤ b then pinf else ninf
  | ninf, fin b => if 0 ≤ b then ninf else pinf
  | pinf, pinf => nan
  | pinf, ninf => nan
  | ninf, pinf => nan
  | ninf, ninf => nan

/-- The `<` operator: false as soon as an operand is `NaN`. -/
def lt : JSNum → JSNum → Bool
  | fin a, fin b => decide (a < b)
  | nan, _ => false
  | _, nan => false
  | ninf, ninf => false
  | ninf, _ => true
  | _, ninf => false
  | pinf, _ => false
  | _, pinf => true

/-- The `<=` operator: false as soon as an operand is `NaN`. -/
def le : JSNum → JSNum → Bool
  | fin a, fin b => decide (a ≤ b)
  | nan, _ => false
  | _, nan => false
  | ninf, _ => true
  | _, pinf => true
  | pinf, _ => false
  | _, ninf => false

/-- The `>` operator. -/
def gt (a b : JSNum) : Bool := lt b a

end JSNum

open JSNum

/-! ## Colour model (`App.js`, lines 19-38) -/

/-- A colour `{ hue, saturation, lightness }`. -/
structure Color where
  hue : JSNum
  saturation : JSNum
  lightness : JSNum
deriving DecidableEq

/-- The palette `colors`. -/
def colors : List Color :=
  [ ⟨fin 0, fin 100, fin 50⟩,
    ⟨fin 60, fin 100, fin 50⟩,
    ⟨fin 120, fin 100, fin 50⟩,
    ⟨fin 180, fin 100, fin 30⟩,
    ⟨fin 240, fin 100, fin 50⟩,
    ⟨fin 300, fin 100, fin 50⟩ ]

/-- One channel of `interpolateColor`: `c1 + (c2 - c1) * factor`. -/
def interpolateChannel (r : Rounding) (c1 c2 factor : JSNum) : JSNum :=
  add r c1 (mul r (sub r c2 c1) factor)

/-- The function `interpolateColor(color1, color2, factor)`. -/
def interpolateColor (r : Rounding) (color1 color2 : Color) (factor : JSNum) : Color :=
  { hue := interpolateChannel r color1.hue color2.hue factor
    saturation := interpolateChannel r color1.saturation color2.saturation factor
    lightness := interpolateChannel r color1.lightness color2.lightness factor }

/-! ## Effects (`App.js`, lines 11-17 and 40-145) -/

/-- The class `Coords`. -/
structure Coords where
  x : JSNum
  y : JSNum
deriving DecidableEq

/-- The class an effect object was created with; it selects the `update` and
`draw` methods a call dispatches to. -/
inductive Cls where
  | Ripple
  | Flame
  | WaterRipple
deriving DecidableEq

/-- The fields of an `Effect` instance.  The drawing context `ctx` is not a
field here: it is the canvas the drawing commands are issued on. -/
structure Effect where
  cls : Cls
  position : Coords
  size : JSNum
  minSize : JSNum
  maxSize : JSNum
  opacity : JSNum
  animationSpeed : JSNum
  opacityStep : JSNum
  color : Color
deriving DecidableEq

/-- A line drawn on the buffer canvas. -/
structure LineCmd where
  fromX : JSNum
  fromY : JSNum
  toX : JSNum
  toY : JSNum
deriving DecidableEq

/-- A drawing command on the visible canvas: a stroked arc, a filled arc (both
from angle `0` to `turns * Math.PI`), or the copy of the buffer canvas. -/
inductive DrawCmd where
  | stroke (color : Color) (alpha lineWidth : JSNum) (center : Coords) (radius turns : JSNum)
  | fill (color : Color) (alpha : JSNum) (center : Coords) (radius turns : JSNum)
  | image (buffer : List LineCmd)
deriving DecidableEq

/-- The constructor of the base class `Effect`, run by `super(...)`. -/
def Effect.new (r : Rounding) (cls : Cls) (x y speed : JSNum) (color : Color) : Effect :=
  let size := mul r speed (lit r 4)
  let minSize := mul r speed (lit r (9 / 10))
  let animationSpeed := div r speed (lit r 5)
  { cls := cls
    position := ⟨x, y⟩
    size := size
    minSize := minSize
    maxSize := lit r 10
    opacity := lit r 1
    animationSpeed := animationSpeed
    opacityStep := div r (div r animationSpeed (sub r size minSize)) (lit r 2)
    color := color }

/-- The constructor of `Ripple`. -/
def Ripple.new (r : Rounding) (x y speed : JSNum) (color : Color) : Effect :=
  let e := Effect.new r .Ripple x y speed color
  let size := mul r speed (lit r 2)
  let animationSpeed := div r speed (lit r 10)
  { e with
    size := size
    maxSize := lit r 35
    animationSpeed := animationSpeed
    opacityStep := div r (div r animationSpeed (sub r size e.minSize)) (lit r 1) }

/-- The constructor of `Flame`. -/
def Flame.new (r : Rounding) (x y speed : JSNum) (color : Color) : Effect :=
  let e := Effect.new r .Flame x y speed color
  let size := mul r speed (lit r (5 / 2))
  let maxSize := mul r speed (lit r 4)
  let animationSpeed := div r speed (lit r 5)
  { e with
    size := size
    maxSize := maxSize
    animationSpeed := animationSpeed
    opacityStep := div r (div r animationSpeed (sub r maxSize size)) (lit r 2) }

/-- The constructor of `WaterRipple`. -/
def WaterRipple.new (r : Rounding) (x y speed : JSNum) (color : Color) : Effect :=
  let e := Effect.new r .WaterRipple x y speed color
  let size := mul r speed (lit r 2)
  let maxSize := mul r speed (lit r 20)
  let animationSpeed := lit r (33 / 100)
  { e with
    size := size
    maxSize := maxSize
    animationSpeed := animationSpeed
    opacityStep := div r (div r animationSpeed (sub r maxSize size)) (lit r (3 / 2)) }

/-- The method `Effect.update`, inherited by `Ripple`. -/
def Effect.update (r : Rounding) (e : Effect) : Effect :=
  let size := sub r e.size e.animationSpeed
  let size := if lt size e.minSize then e.minSize else size
  { e with size := size, opacity := sub r e.opacity e.opacityStep }

/-- The method `Flame.update`. -/
def Flame.update (r : Rounding) (e : Effect) : Effect :=
  { e with size := add r e.size e.animationSpeed, opacity := sub r e.opacity e.opacityStep }

/-- The method `WaterRipple.update`. -/
def WaterRipple.update (r : Rounding) (e : Effect) : Effect :=
  { e with size := add r e.size e.animationSpeed, opacity := sub r e.opacity e.opacityStep }

/-- A call `effect.update()`, dispatched on the class of the object. -/
def Effect.callUpdate (r : Rounding) (e : Effect) : Effect :=
  match e.cls with
  | .Ripple => Effect.update r e
  | .Flame => Flame.update r e
  | .WaterRipple => WaterRipple.update r e

/-- The method `Effect.draw`, inherited by `Ripple`: a stroked arc of line
width `size / 30` from angle `0` to `3 * Math.PI`.  The context `ctx` is bound
for every effect the application creates, so the early return on a missing
context is not taken. -/
def Effect.draw (r : Rounding) (e : Effect) : DrawCmd :=
  .stroke e.color e.opacity (div r e.size (lit r 30)) e.position e.size (lit r 3)

/-- The method `Flame.draw`: a filled disc. -/
def Flame.draw (r : Rounding) (e : Effect) : DrawCmd :=
  .fill e.color e.opacity e.position e.size (lit r 2)

/-- The method `WaterRipple.draw`: a stroked circle of line width `2`. -/
def WaterRipple.draw (r : Rounding) (e : Effect) : DrawCmd :=
  .stroke e.color e.opacity (lit r 2) e.position e.size (lit r 2)

/-- A call `effect.draw()`, dispatched on the class of the object. -/
def Effect.callDraw (r : Rounding) (e : Effect) : DrawCmd :=
  match e.cls with
  | .Ripple => Effect.draw r e
  | .Flame => Flame.draw r e
  | .WaterRipple => WaterRipple.draw r e

/-! ## Reflective line (`App.js`, lines 147-184) -/

/-- The fields of a `ReflectiveLineEffect` instance. -/
structure ReflectiveLineEffect where
  angle : JSNum
  speed : JSNum
  offset : JSNum
  width : JSNum
  height : JSNum
deriving DecidableEq

/-- The constructor of `ReflectiveLineEffect`; `width` and `height` are those of
the canvas of the context, `speed` is the argument (the application leaves it
to its default `2`). -/
def ReflectiveLineEffect.new (r : Rounding) (width height speed : JSNum) :
    ReflectiveLineEffect :=
  { angle := neg (lit r 45)
    speed := sub r speed (lit r 1)
    offset := lit r 0
    width := width
    height := height }

/-- The method `ReflectiveLineEffect.update`. -/
def ReflectiveLineEffect.update (r : Rounding) (l : ReflectiveLineEffect) :
    ReflectiveLineEffect :=
  let offset := add r l.offset l.speed
  if gt offset (add r l.width l.height) then
    { l with offset := neg l.width }
  else
    { l with offset := offset }

/-- The method `ReflectiveLineEffect.draw`: a line from `(-offset, height)` to
`(width - offset, -height)`. -/
def ReflectiveLineEffect.draw (r : Rounding) (l : ReflectiveLineEffect) : LineCmd :=
  { fromX := neg l.offset
    fromY := l.height
    toX := sub r l.width l.offset
    toY := neg l.height }

/-! ## Registry and frame loop (`App.js`, lines 186-319) -/

/-- The mutable state of the `App` component that the animation uses: the
three effect arrays, the reflective line, and what has been drawn on the
visible canvas and on the buffer canvas since they were last cleared. -/
structure AppState where
  ripples : List Effect
  flames : List Effect
  waterRipples : List Effect
  reflectiveLine : Option ReflectiveLineEffect
  canvas : List DrawCmd
  buffer : List LineCmd
deriving DecidableEq

/-- The state when the component mounts: empty arrays, the reflective line
built on the buffer canvas of the given size. -/
def AppState.init (r : Rounding) (width height : JSNum) : AppState :=
  { ripples := []
    flames := []
    waterRipples := []
    reflectiveLine := some (ReflectiveLineEffect.new r width height (lit r 2))
    canvas := []
    buffer := [] }

/-- An index into the palette, the value of
`Math.floor(Math.random() * colors.length)`. -/
abbrev ColorIndex := Fin colors.length

/-- The palette entry `colors[(colorIndex + 1) % colors.length]`. -/
def nextColor (colorIndex : ColorIndex) : Color :=
  colors.get ⟨(colorIndex.val + 1) % colors.length, Nat.mod_lt _ (by decide)⟩

/-- The colour computed in iteration `i` of the spawn loop of
`canvasMouseMove` (the same expression for all three effects). -/
def spawnColor (r : Rounding) (colorIndex : ColorIndex) (i : Nat) : Color :=
  let colorFactor := div r (lit r i) (lit r 10)
  interpolateColor r (colors.get colorIndex) (nextColor colorIndex) colorFactor

/-- The body of the loop `for (let i = 0; i < 10; i++)` of `canvasMouseMove`;
`random i` is the palette index drawn in iteration `i`. -/
def spawnStep (r : Rounding) (currentX currentY speed : JSNum) (random : Nat → ColorIndex)
    (s : AppState) (i : Nat) : AppState :=
  let colorIndex := random i
  let rippleColor := spawnColor r colorIndex i
  let flameColor := spawnColor r colorIndex i
  let waterRippleColor := spawnColor r colorIndex i
  { s with
    ripples := Ripple.new r currentX currentY speed rippleColor :: s.ripples
    flames := Flame.new r currentX currentY speed flameColor :: s.flames
    waterRipples :=
      WaterRipple.new r currentX currentY speed waterRippleColor :: s.waterRipples }

/-- The handler `canvasMouseMove` from the point where the pointer position
and `speed` are known (lines 243-271): ten iterations of the spawn loop.  The
position, the speed (a distance over a time difference, lines 228-240) and
the random palette indices are inputs. -/
def canvasMouseMove (r : Rounding) (currentX currentY speed : JSNum)
    (random : Nat → ColorIndex) (s : AppState) : AppState :=
  (List.range 10).foldl (spawnStep r currentX currentY speed random) s

/-- The steps of `Array.prototype.forEach` from index `k`, `n` indices left to
visit, on an array that the callback may change: an index that is no longer
in the array is skipped.  The state is the array and the visible canvas. -/
def forEachLoop (callback : Effect → Nat → List Effect × List DrawCmd →
      List Effect × List DrawCmd) :
    Nat → Nat → List Effect × List DrawCmd → List Effect × List DrawCmd
  | 0, _, st => st
  | n + 1, k, st =>
    match st.1.get? k with
    | some effect => forEachLoop callback n (k + 1) (callback effect k st)
    | none => forEachLoop callback n (k + 1) st

/-- The call `array.forEach(callback)`: the indices visited are those below the
length the array has when the call starts. -/
def forEach (callback : Effect → Nat → List Effect × List DrawCmd →
      List Effect × List DrawCmd)
    (st : List Effect × List DrawCmd) : List Effect × List DrawCmd :=
  forEachLoop callback st.1.length 0 st

/-- The callback of the three loops of `animateEffects`:
`effect.update(); effect.draw(); if (effect.opacity <= 0) array.splice(i, 1)`.
The object at index `i` is updated in place, so the array holds its new
state. -/
def effectCallback (r : Rounding) (effect : Effect) (i : Nat)
    (st : List Effect × List DrawCmd) : List Effect × List DrawCmd :=
  let effect := effect.callUpdate r
  let array := st.1.set i effect
  let canvas := st.2 ++ [effect.callDraw r]
  if le effect.opacity (lit r 0) then (array.eraseIdx i, canvas) else (array, canvas)

/-- The function `animateEffects`, one frame: clear both canvases, run the
three loops, move and draw the reflective line on the buffer, copy the buffer
onto the visible canvas.  The request for the next frame is the caller. -/
def animateEffects (r : Rounding) (s : AppState) : AppState :=
  let canvas : List DrawCmd := []
  let buffer : List LineCmd := []
  let (ripples, canvas) := forEach (effectCallback r) (s.ripples, canvas)
  let (flames, canvas) := forEach (effectCallback r) (s.flames, canvas)
  let (waterRipples, canvas) := forEach (effectCallback r) (s.waterRipples, canvas)
  let reflectiveLine := s.reflectiveLine.map (ReflectiveLineEffect.update r)
  let buffer := match reflectiveLine with
    | some l => buffer ++ [l.draw r]
    | none => buffer
  { ripples := ripples
    flames := flames
    waterRipples := waterRipples
    reflectiveLine := reflectiveLine
    canvas := canvas ++ [.image buffer]
    buffer := buffer }

/-- The reference frame step of the specification for one array: update every
member once, then keep, in order, those whose opacity is not `<= 0`. -/
def tickReference (r : Rounding) (array : List Effect) : List Effect :=
  (array.map (Effect.callUpdate r)).filter (fun e => !le e.opacity (lit r 0))

/-- The constructor call `new C(x, y, speed, ctx, color)` for the class `C`. -/
def Effect.create (r : Rounding) (cls : Cls) (x y speed : JSNum) (color : Color) : Effect :=
  match cls with
  | .Ripple => Ripple.new r x y speed color
  | .Flame => Flame.new r x y speed color
  | .WaterRipple => WaterRipple.new r x y speed color

/-- The states the application reaches from its initial state (three empty
arrays) by pointer moves at a speed `>= 0` and by animation frames. -/
inductive Reachable (r : Rounding) (width height : JSNum) : AppState → Prop where
  | init : Reachable r width height (AppState.init r width height)
  | move {s : AppState} (currentX currentY speed : JSNum) (random : Nat → ColorIndex) :
      Reachable r width height s → le (lit r 0) speed = true →
      Reachable r width height (canvasMouseMove r currentX currentY speed random s)
  | frame {s : AppState} :
      Reachable r width height s → Reachable r width height (animateEffects r s)

/-! ## Sample inputs -/

/-- The colour of the sample effects: the first palette entry. -/
def sampleColor : Color := ⟨fin 0, fin 100, fin 50⟩

/-- The effect of class `cls` spawned at the origin at the finite speed
`speed`, under the rounding `r`. -/
def spawnAt (r : Rounding) (cls : Cls) (speed : ℚ) : Effect :=
  Effect.create r cls (fin 0) (fin 0) (fin speed) sampleColor

/-- The sample effect after `n` calls of `update()`. -/
def spawnAtAfter (r : Rounding) (cls : Cls) (speed : ℚ) (n : Nat) : Effect :=
  (Effect.callUpdate r)^[n] (spawnAt r cls speed)

/-- The application state `n` frames after one pointer move at the origin at
the finite speed `speed`, on a 300 by 150 canvas, every random palette index
being `0`. -/
def framesAfterMove (r : Rounding) (speed : ℚ) (n : Nat) : AppState :=
  (animateEffects r)^[n]
    (canvasMouseMove r (fin 0) (fin 0) (fin speed) (fun _ => ⟨0, by decide⟩)
      (AppState.init r (fin 300) (fin 150)))

/-! ## Arithmetic lemmas -/

/-- The rounding `round64` on known values: the double nearest `0.1`; the sum
`0.1 + 0.2`, which is `0.30000000000000004` and not the double nearest `0.3`;
a tie (`2^53 + 1`) going to the even neighbour; the largest double and the
overflow threshold; the smallest subnormal and the ties around it. -/
theorem round64_examples :
    round64 (1 / 10) = fin (3602879701896397 / 2 ^ 55) ∧
    add binary64 (lit binary64 (1 / 10)) (lit binary64 (2 / 10))
      = fin (1351079888211149 / 2 ^ 52) ∧
    add binary64 (lit binary64 (1 / 10)) (lit binary64 (2 / 10)) ≠ lit binary64 (3 / 10) ∧
    round64 (2 ^ 53 + 1) = fin (2 ^ 53) ∧
    round64 (2 ^ 53 + 3) = fin (2 ^ 53 + 4) ∧
    round64 (2 ^ 1024 - 2 ^ 970 - 1) = fin (2 ^ 1024 - 2 ^ 971) ∧
    round64 (2 ^ 1024 - 2 ^ 970) = pinf ∧
    round64 (-(2 ^ 1024)) = ninf ∧
    round64 (1 / 2 ^ 1074) = fin (1 / 2 ^ 1074) ∧
    round64 (1 / 2 ^ 1075) = fin 0 ∧
    round64 (3 / 2 ^ 1075) = fin (1 / 2 ^ 1073) := by
  decide!

/-! ## Laws of the binary64 rounding -/

theorem bitLength_spec : ∀ (fuel n : Nat), n ≤ fuel → 0 < n →
    2 ^ (bitLength fuel n - 1) ≤ n ∧ n < 2 ^ bitLength fuel n ∧ 0 < bitLength fuel n := by
  intro fuel
  induction fuel with
  | zero => intro n h1 h2; omega
  | succ f ih =>
    intro n hn hpos
    have hne : n ≠ 0 := by omega
    simp only [bitLength, hne, if_false]
    by_cases h2 : n / 2 = 0
    · have : n = 1 := by omega
      subst this
      cases f <;> simp [bitLength]
    · obtain ⟨a, b, c⟩ := ih (n / 2) (by omega) (by omega)
      refine ⟨?_, ?_, by omega⟩
      · simp only [Nat.add_sub_cancel]
        obtain ⟨k, hk⟩ : ∃ k, bitLength f (n / 2) = k + 1 := ⟨bitLength f (n / 2) - 1, by omega⟩
        rw [hk] at a ⊢
        simp only [Nat.add_sub_cancel] at a
        rw [pow_succ]
        omega
      · rw [pow_succ]
        omega

theorem zpow_two_of_nonneg (e : ℤ) (h : 0 ≤ e) : (2 : ℚ) ^ e = ((2 ^ e.toNat : ℕ) : ℚ) := by
  lift e to ℕ using h
  simp

theorem zpow_two_of_neg (e : ℤ) (h : e < 0) :
    (2 : ℚ) ^ e = 1 / ((2 ^ (-e).toNat : ℕ) : ℚ) := by
  obtain ⟨k, hk⟩ : ∃ k : ℕ, e = -(k : ℤ) := ⟨(-e).toNat, by omega⟩
  subst hk
  simp

theorem pow2_eq (e : ℤ) : pow2 e = (2 : ℚ) ^ e := by
  unfold pow2
  split_ifs with h
  · rw [zpow_two_of_neg e h, Rat.mkRat_eq_div]
    simp
  · rw [zpow_two_of_nonneg e (by omega)]

theorem two_zpow_pos (e : ℤ) : (0 : ℚ) < 2 ^ e := zpow_pos (by norm_num) e

/-- `ilog2 n d` is the floor of the binary logarithm of `n / d`. -/
theorem ilog2_spec (n d : Nat) (hn : 0 < n) (hd : 0 < d) :
    (2 : ℚ) ^ ilog2 n d ≤ (n : ℚ) / d ∧ (n : ℚ) / d < (2 : ℚ) ^ (ilog2 n d + 1) := by
  obtain ⟨n1, n2, n3⟩ := bitLength_spec n n le_rfl hn
  obtain ⟨d1, d2, d3⟩ := bitLength_spec d d le_rfl hd
  have hdq : (0 : ℚ) < d := by exact_mod_cast hd
  obtain ⟨a, ha⟩ : ∃ a, bitLength n n = a + 1 := ⟨bitLength n n - 1, by omega⟩
  obtain ⟨b, hb⟩ : ∃ b, bitLength d d = b + 1 := ⟨bitLength d d - 1, by omega⟩
  rw [ha] at n1 n2
  rw [hb] at d1 d2
  simp only [Nat.add_sub_cancel] at n1 d1
  have n1q : (2 : ℚ) ^ a ≤ n := by exact_mod_cast n1
  have n2q : (n : ℚ) < 2 ^ (a + 1) := by exact_mod_cast n2
  have d1q : (2 : ℚ) ^ b ≤ d := by exact_mod_cast d1
  have d2q : (d : ℚ) < 2 ^ (b + 1) := by exact_mod_cast d2
  have he0 : ((bitLength n n : ℤ) - (bitLength d d : ℤ)) = (a : ℤ) - b := by
    rw [ha, hb]; push_cast; ring
  -- strict bounds around e0 = a - b
  have hzab : (2 : ℚ) ^ ((a : ℤ) - b) = 2 ^ a / 2 ^ b := by
    rw [zpow_sub₀ (by norm_num), zpow_natCast, zpow_natCast]
  have hlow : (2 : ℚ) ^ ((a : ℤ) - b - 1) < (n : ℚ) / d := by
    rw [zpow_sub₀ (by norm_num), hzab, zpow_one, lt_div_iff₀ hdq]
    have h2b : (0 : ℚ) < 2 ^ b := by positivity
    calc (2 : ℚ) ^ a / 2 ^ b / 2 * d < 2 ^ a / 2 ^ b / 2 * 2 ^ (b + 1) := by
          apply mul_lt_mul_of_pos_left d2q
          positivity
      _ = 2 ^ a := by
          rw [pow_succ]
          field_simp
      _ ≤ n := n1q
  have hhigh : (n : ℚ) / d < (2 : ℚ) ^ ((a : ℤ) - b + 1) := by
    rw [zpow_add₀ (by norm_num), hzab, zpow_one, div_lt_iff₀ hdq]
    have h2b : (0 : ℚ) < 2 ^ b := by positivity
    calc (n : ℚ) < 2 ^ (a + 1) := n2q
      _ = 2 ^ a / 2 ^ b * 2 * 2 ^ b := by
          rw [pow_succ]
          field_simp
      _ ≤ 2 ^ a / 2 ^ b * 2 * d := by
          apply mul_le_mul_of_nonneg_left d1q
          positivity
  -- the comparison made by `ilog2`
  have hbelow : (if 0 ≤ (a : ℤ) - b then decide (n < d * 2 ^ ((a : ℤ) - b).toNat)
      else decide (n * 2 ^ (-((a : ℤ) - b)).toNat < d)) = true ↔
      (n : ℚ) / d < (2 : ℚ) ^ ((a : ℤ) - b) := by
    by_cases h0 : 0 ≤ (a : ℤ) - b
    · rw [if_pos h0, decide_eq_true_eq, zpow_two_of_nonneg _ h0, div_lt_iff₀ hdq]
      constructor
      · intro h
        rw [mul_comm]
        exact_mod_cast h
      · intro h
        rw [mul_comm] at h
        exact_mod_cast h
    · rw [if_neg h0, decide_eq_true_eq, zpow_two_of_neg _ (by omega), div_lt_iff₀ hdq]
      have hp : (0 : ℚ) < ((2 ^ (-((a : ℤ) - b)).toNat : ℕ) : ℚ) := by positivity
      rw [one_div, inv_mul_eq_div, lt_div_iff₀ hp]
      constructor
      · intro h
        exact_mod_cast h
      · intro h
        exact_mod_cast h
  unfold ilog2
  simp only [he0]
  by_cases hb' : (if 0 ≤ (a : ℤ) - b then decide (n < d * 2 ^ ((a : ℤ) - b).toNat)
      else decide (n * 2 ^ (-((a : ℤ) - b)).toNat < d)) = true
  · rw [if_pos hb']
    refine ⟨hlow.le, ?_⟩
    rw [sub_add_cancel]
    exact hbelow.mp hb'
  · rw [if_neg hb']
    refine ⟨?_, hhigh⟩
    exact not_lt.mp (fun h => hb' (hbelow.mpr h))

/-- `roundHalfEven N D` is a nearest integer to `N / D`, the even one on a tie. -/
theorem roundHalfEven_spec (N D : Nat) (hD : 0 < D) :
    |(roundHalfEven N D : ℚ) - (N : ℚ) / D| ≤ 1 / 2 ∧
    (|(roundHalfEven N D : ℚ) - (N : ℚ) / D| = 1 / 2 → Even (roundHalfEven N D)) := by
  have hDq : (0 : ℚ) < D := by exact_mod_cast hD
  have hsplit : (N : ℚ) / D = (N / D : ℕ) + ((N % D : ℕ) : ℚ) / D := by
    have h := Nat.div_add_mod N D
    have hq : (D : ℚ) * ((N / D : ℕ) : ℚ) + ((N % D : ℕ) : ℚ) = N := by exact_mod_cast h
    rw [← hq]
    field_simp
    ring
  have hr : N % D < D := Nat.mod_lt N hD
  have hrq : ((N % D : ℕ) : ℚ) < D := by exact_mod_cast hr
  have hr0 : (0 : ℚ) ≤ ((N % D : ℕ) : ℚ) := by positivity
  unfold roundHalfEven
  by_cases h1 : 2 * (N % D) < D
  · rw [if_pos h1, hsplit]
    have h1q : 2 * ((N % D : ℕ) : ℚ) < D := by exact_mod_cast h1
    have hlt : ((N % D : ℕ) : ℚ) / D < 1 / 2 := by
      rw [div_lt_iff₀ hDq]; linarith
    have hge : (0 : ℚ) ≤ ((N % D : ℕ) : ℚ) / D := by positivity
    have habs : |((N / D : ℕ) : ℚ) - (((N / D : ℕ) : ℚ) + ((N % D : ℕ) : ℚ) / D)|
        = ((N % D : ℕ) : ℚ) / D := by
      rw [sub_add_cancel_left, abs_neg, abs_of_nonneg hge]
    rw [habs]
    exact ⟨hlt.le, fun h => absurd h hlt.ne⟩
  · rw [if_neg h1]
    by_cases h2 : D < 2 * (N % D)
    · rw [if_pos h2, hsplit]
      have h2q : (D : ℚ) < 2 * ((N % D : ℕ) : ℚ) := by exact_mod_cast h2
      have hgt : 1 / 2 < ((N % D : ℕ) : ℚ) / D := by
        rw [lt_div_iff₀ hDq]; linarith
      have hle : ((N % D : ℕ) : ℚ) / D ≤ 1 := by
        rw [div_le_one hDq]; exact hrq.le
      have habs : |((N / D + 1 : ℕ) : ℚ) - (((N / D : ℕ) : ℚ) + ((N % D : ℕ) : ℚ) / D)|
          = 1 - ((N % D : ℕ) : ℚ) / D := by
        push_cast
        rw [show ((N / D : ℕ) : ℚ) + 1 - (((N / D : ℕ) : ℚ) + ((N % D : ℕ) : ℚ) / D)
          = 1 - ((N % D : ℕ) : ℚ) / D by ring]
        exact abs_of_nonneg (by linarith)
      rw [habs]
      exact ⟨by linarith, fun h => absurd h (by linarith)⟩
    · rw [if_neg h2]
      have heq : 2 * (N % D) = D := by omega
      have heqq : 2 * ((N % D : ℕ) : ℚ) = D := by exact_mod_cast heq
      have hhalf : ((N % D : ℕ) : ℚ) / D = 1 / 2 := by
        rw [div_eq_iff hDq.ne']; linarith
      by_cases h3 : (N / D) % 2 = 0
      · rw [if_pos h3, hsplit, sub_add_cancel_left, abs_neg, hhalf]
        refine ⟨by norm_num [abs_of_pos], fun _ => Nat.even_iff.mpr h3⟩
      · rw [if_neg h3, hsplit, hhalf]
        push_cast
        rw [show ((N / D : ℕ) : ℚ) + 1 - (((N / D : ℕ) : ℚ) + 1 / 2) = 1 / 2 by ring]
        refine ⟨by norm_num [abs_of_pos], fun _ => ?_⟩
        rw [Nat.even_iff]
        omega

/-- Two roundings to nearest, ties to even, are ordered like their arguments. -/
theorem nearestEven_mono (x1 x2 : ℚ) (m1 m2 : ℕ)
    (h1 : |(m1 : ℚ) - x1| ≤ 1 / 2) (t1 : |(m1 : ℚ) - x1| = 1 / 2 → Even m1)
    (h2 : |(m2 : ℚ) - x2| ≤ 1 / 2) (t2 : |(m2 : ℚ) - x2| = 1 / 2 → Even m2)
    (hx : x1 ≤ x2) : m1 ≤ m2 := by
  by_contra hcon
  have hlt : m2 + 1 ≤ m1 := by omega
  have hltq : (m2 : ℚ) + 1 ≤ m1 := by exact_mod_cast hlt
  have a1 := abs_le.mp h1
  have a2 := abs_le.mp h2
  have e1 : (m1 : ℚ) - x1 = 1 / 2 := by linarith [a1.2, a2.1]
  have e2 : (m2 : ℚ) - x2 = -(1 / 2) := by linarith [a1.2, a2.1]
  have hm : (m1 : ℚ) = m2 + 1 := by linarith [a1.2, a2.1]
  have hm' : m1 = m2 + 1 := by exact_mod_cast hm
  have ev1 := t1 (by rw [e1]; norm_num [abs_of_pos])
  have ev2 := t2 (by rw [e2, abs_neg]; norm_num [abs_of_pos])
  rw [Nat.even_iff] at ev1 ev2
  omega

/-- The mantissa is the rounding of `n / d` measured in quanta. -/
theorem mantissa_spec (n d : Nat) (hd : 0 < d) :
    |(mantissa n d : ℚ) - (n : ℚ) / d / 2 ^ quantum n d| ≤ 1 / 2 ∧
    (|(mantissa n d : ℚ) - (n : ℚ) / d / 2 ^ quantum n d| = 1 / 2 → Even (mantissa n d)) := by
  have hdq : (0 : ℚ) < d := by exact_mod_cast hd
  unfold mantissa
  by_cases he : quantum n d < 0
  · rw [if_pos he]
    have hx : (n : ℚ) / d / 2 ^ quantum n d
        = ((n * 2 ^ (-quantum n d).toNat : ℕ) : ℚ) / d := by
      rw [zpow_two_of_neg _ he]
      push_cast
      field_simp
    rw [hx]
    exact roundHalfEven_spec _ _ hd
  · rw [if_neg he]
    have hx : (n : ℚ) / d / 2 ^ quantum n d
        = (n : ℚ) / ((d * 2 ^ (quantum n d).toNat : ℕ) : ℚ) := by
      rw [zpow_two_of_nonneg _ (by omega)]
      push_cast
      field_simp
    rw [hx]
    exact roundHalfEven_spec _ _ (by positivity)

theorem quantum_ge (n d : Nat) : -1074 ≤ quantum n d := by
  unfold quantum
  have := le_max_right (ilog2 n d) (-1022)
  omega

theorem quantum_ge_ilog2 (n d : Nat) : ilog2 n d - 52 ≤ quantum n d := by
  unfold quantum
  have := le_max_left (ilog2 n d) (-1022)
  omega

theorem quantum_eq_of_gt (n d : Nat) (h : -1074 < quantum n d) :
    quantum n d = ilog2 n d - 52 := by
  unfold quantum at h ⊢
  rcases max_cases (ilog2 n d) (-1022) with ⟨h1, _⟩ | ⟨h1, _⟩
  · rw [h1]
  · rw [h1] at h
    omega

theorem quantum_mono (n1 d1 n2 d2 : Nat) (h : ilog2 n1 d1 ≤ ilog2 n2 d2) :
    quantum n1 d1 ≤ quantum n2 d2 := by
  unfold quantum
  have := max_le_max h (le_refl (-1022 : ℤ))
  omega

/-- The floor of the binary logarithm is monotone. -/
theorem ilog2_mono (n1 d1 n2 d2 : Nat) (hn1 : 0 < n1) (hd1 : 0 < d1) (hn2 : 0 < n2)
    (hd2 : 0 < d2) (h : (n1 : ℚ) / d1 ≤ (n2 : ℚ) / d2) : ilog2 n1 d1 ≤ ilog2 n2 d2 := by
  have a := (ilog2_spec n1 d1 hn1 hd1).1
  have b := (ilog2_spec n2 d2 hn2 hd2).2
  have hlt : (2 : ℚ) ^ ilog2 n1 d1 < 2 ^ (ilog2 n2 d2 + 1) := lt_of_le_of_lt (a.trans h) b
  have := (zpow_lt_zpow_iff_right₀ (by norm_num : (1 : ℚ) < 2)).mp hlt
  omega

/-- Measured in quanta, `n / d` is below `2^53`. -/
theorem scaled_lt (n d : Nat) (hn : 0 < n) (hd : 0 < d) :
    (n : ℚ) / d / 2 ^ quantum n d < 2 ^ 53 := by
  have b := (ilog2_spec n d hn hd).2
  have hq := quantum_ge_ilog2 n d
  have hle : (2 : ℚ) ^ (ilog2 n d + 1) ≤ 2 ^ (quantum n d + 53) :=
    zpow_le_zpow_right₀ (by norm_num) (by omega)
  rw [div_lt_iff₀ (two_zpow_pos _)]
  calc (n : ℚ) / d < 2 ^ (ilog2 n d + 1) := b
    _ ≤ 2 ^ (quantum n d + 53) := hle
    _ = 2 ^ 53 * 2 ^ quantum n d := by
        rw [zpow_add₀ (by norm_num), mul_comm]
        norm_cast

/-- Above the subnormal quantum, `n / d` measured in quanta is at least `2^52`. -/
theorem scaled_ge (n d : Nat) (hn : 0 < n) (hd : 0 < d) (h : -1074 < quantum n d) :
    (2 : ℚ) ^ 52 ≤ (n : ℚ) / d / 2 ^ quantum n d := by
  have a := (ilog2_spec n d hn hd).1
  have hq := quantum_eq_of_gt n d h
  rw [le_div_iff₀ (two_zpow_pos _)]
  calc (2 : ℚ) ^ 52 * 2 ^ quantum n d = 2 ^ ilog2 n d := by
        rw [hq, zpow_sub₀ (by norm_num)]
        norm_cast
        field_simp
    _ ≤ (n : ℚ) / d := a

theorem mantissa_le (n d : Nat) (hn : 0 < n) (hd : 0 < d) : mantissa n d ≤ 2 ^ 53 := by
  have h1 := abs_le.mp (mantissa_spec n d hd).1
  have h2 := scaled_lt n d hn hd
  by_contra hcon
  have : 2 ^ 53 + 1 ≤ mantissa n d := by omega
  have hq : ((2 ^ 53 + 1 : ℕ) : ℚ) ≤ mantissa n d := by exact_mod_cast this
  push_cast at hq
  linarith [h1.2]

theorem mantissa_ge (n d : Nat) (hn : 0 < n) (hd : 0 < d) (h : -1074 < quantum n d) :
    2 ^ 52 ≤ mantissa n d := by
  have h1 := abs_le.mp (mantissa_spec n d hd).1
  have h2 := scaled_ge n d hn hd h
  by_contra hcon
  have : mantissa n d + 1 ≤ 2 ^ 52 := by omega
  have hq : ((mantissa n d + 1 : ℕ) : ℚ) ≤ ((2 ^ 52 : ℕ) : ℚ) := by exact_mod_cast this
  push_cast at hq
  linarith [h1.1]

/-- The rounded magnitude `mantissa * 2^quantum` is monotone in `n / d`. -/
theorem magnitude_mono (n1 d1 n2 d2 : Nat) (hn1 : 0 < n1) (hd1 : 0 < d1) (hn2 : 0 < n2)
    (hd2 : 0 < d2) (h : (n1 : ℚ) / d1 ≤ (n2 : ℚ) / d2) :
    (mantissa n1 d1 : ℚ) * 2 ^ quantum n1 d1 ≤ (mantissa n2 d2 : ℚ) * 2 ^ quantum n2 d2 := by
  have hL := ilog2_mono n1 d1 n2 d2 hn1 hd1 hn2 hd2 h
  have he := quantum_mono n1 d1 n2 d2 hL
  rcases he.lt_or_eq with hlt | heq
  · have hm1 : (mantissa n1 d1 : ℚ) ≤ 2 ^ 53 := by
      exact_mod_cast mantissa_le n1 d1 hn1 hd1
    have hm2 : (2 : ℚ) ^ 52 ≤ mantissa n2 d2 := by
      have := quantum_ge n1 d1
      exact_mod_cast mantissa_ge n2 d2 hn2 hd2 (by omega)
    have hpow : (2 : ℚ) ^ (quantum n1 d1 + 1) ≤ 2 ^ quantum n2 d2 :=
      zpow_le_zpow_right₀ (by norm_num) (by omega)
    calc (mantissa n1 d1 : ℚ) * 2 ^ quantum n1 d1 ≤ 2 ^ 53 * 2 ^ quantum n1 d1 :=
          mul_le_mul_of_nonneg_right hm1 (two_zpow_pos _).le
      _ = 2 ^ 52 * 2 ^ (quantum n1 d1 + 1) := by
          rw [zpow_add₀ (by norm_num)]
          ring
      _ ≤ 2 ^ 52 * 2 ^ quantum n2 d2 := mul_le_mul_of_nonneg_left hpow (by positivity)
      _ ≤ (mantissa n2 d2 : ℚ) * 2 ^ quantum n2 d2 :=
          mul_le_mul_of_nonneg_right hm2 (two_zpow_pos _).le
  · have s1 := mantissa_spec n1 d1 hd1
    have s2 := mantissa_spec n2 d2 hd2
    have hx : (n1 : ℚ) / d1 / 2 ^ quantum n1 d1 ≤ (n2 : ℚ) / d2 / 2 ^ quantum n2 d2 := by
      rw [heq]
      exact div_le_div_of_nonneg_right h (two_zpow_pos _).le
    have hm := nearestEven_mono _ _ _ _ s1.1 s1.2 s2.1 s2.2 hx
    have hmq : (mantissa n1 d1 : ℚ) ≤ mantissa n2 d2 := by exact_mod_cast hm
    rw [heq]
    exact mul_le_mul_of_nonneg_right hmq (two_zpow_pos _).le

theorem two_zpow_mul (a b : ℤ) : (2 : ℚ) ^ a * 2 ^ b = 2 ^ (a + b) :=
  (zpow_add₀ (by norm_num) a b).symm

/-- The overflow test of `round64` says that the rounded magnitude reaches
`2^1024`. -/
theorem overflow_iff (n d : Nat) (hn : 0 < n) (hd : 0 < d) :
    (971 < quantum n d ∨ (quantum n d = 971 ∧ 2 ^ 53 ≤ mantissa n d)) ↔
      (2 : ℚ) ^ (1024 : ℤ) ≤ (mantissa n d : ℚ) * 2 ^ quantum n d := by
  have hm1 : (mantissa n d : ℚ) ≤ 2 ^ (53 : ℤ) := by
    have := mantissa_le n d hn hd
    exact_mod_cast this
  constructor
  · rintro (h | ⟨h1, h2⟩)
    · have hm2 : (2 : ℚ) ^ (52 : ℤ) ≤ mantissa n d := by
        have := mantissa_ge n d hn hd (by omega)
        exact_mod_cast this
      have hpow : (2 : ℚ) ^ (972 : ℤ) ≤ 2 ^ quantum n d :=
        zpow_le_zpow_right₀ (by norm_num) (by omega)
      calc (2 : ℚ) ^ (1024 : ℤ) = 2 ^ (52 : ℤ) * 2 ^ (972 : ℤ) := by
            rw [two_zpow_mul]; norm_num
        _ ≤ 2 ^ (52 : ℤ) * 2 ^ quantum n d :=
            mul_le_mul_of_nonneg_left hpow (two_zpow_pos _).le
        _ ≤ (mantissa n d : ℚ) * 2 ^ quantum n d :=
            mul_le_mul_of_nonneg_right hm2 (two_zpow_pos _).le
    · have hm2 : (2 : ℚ) ^ (53 : ℤ) ≤ mantissa n d := by exact_mod_cast h2
      rw [h1]
      calc (2 : ℚ) ^ (1024 : ℤ) = 2 ^ (53 : ℤ) * 2 ^ (971 : ℤ) := by
            rw [two_zpow_mul]; norm_num
        _ ≤ (mantissa n d : ℚ) * 2 ^ (971 : ℤ) :=
            mul_le_mul_of_nonneg_right hm2 (two_zpow_pos _).le
  · intro h
    by_contra hcon
    push_neg at hcon
    obtain ⟨c1, c2⟩ := hcon
    rcases c1.lt_or_eq with hlt | heq
    · have hpow : (2 : ℚ) ^ quantum n d ≤ 2 ^ (970 : ℤ) :=
        zpow_le_zpow_right₀ (by norm_num) (by omega)
      have h1 : (mantissa n d : ℚ) * 2 ^ quantum n d ≤ 2 ^ (53 : ℤ) * 2 ^ (970 : ℤ) :=
        mul_le_mul hm1 hpow (two_zpow_pos _).le (two_zpow_pos _).le
      have h3 : (2 : ℚ) ^ (53 : ℤ) * 2 ^ (970 : ℤ) < 2 ^ (1024 : ℤ) := by
        rw [two_zpow_mul]
        exact (zpow_lt_zpow_iff_right₀ (by norm_num)).mpr (by norm_num)
      linarith
    · have hm3 : (mantissa n d : ℚ) + 1 ≤ 2 ^ (53 : ℤ) := by
        have := c2 heq
        have h' : mantissa n d + 1 ≤ 2 ^ 53 := by omega
        exact_mod_cast h'
      rw [heq] at h
      have h4 : (mantissa n d : ℚ) * 2 ^ (971 : ℤ) ≤ ((2 : ℚ) ^ (53 : ℤ) - 1) * 2 ^ (971 : ℤ) :=
        mul_le_mul_of_nonneg_right (by linarith) (two_zpow_pos _).le
      have h5 : ((2 : ℚ) ^ (53 : ℤ) - 1) * 2 ^ (971 : ℤ)
          = 2 ^ (1024 : ℤ) - 2 ^ (971 : ℤ) := by
        rw [sub_mul, one_mul, two_zpow_mul]; norm_num
      have h6 := two_zpow_pos (971 : ℤ)
      linarith

theorem natAbs_div_den (q : ℚ) : ((q.num.natAbs : ℕ) : ℚ) / q.den = |q| := by
  have h := Rat.num_div_den q
  have hden : (0 : ℚ) < q.den := by exact_mod_cast q.den_pos
  rw [Nat.cast_natAbs]
  conv_rhs => rw [← h]
  rw [abs_div, abs_of_pos hden]
  push_cast
  rfl

theorem natAbs_num_pos (q : ℚ) (hq : q ≠ 0) : 0 < q.num.natAbs :=
  Int.natAbs_pos.mpr (Rat.num_ne_zero.mpr hq)

theorem magnitude_eq (q : ℚ) :
    magnitude q = (mantissa q.num.natAbs q.den : ℚ) * 2 ^ quantum q.num.natAbs q.den := by
  unfold magnitude
  rw [pow2_eq]

theorem magnitude_nonneg (q : ℚ) : 0 ≤ magnitude q := by
  rw [magnitude_eq]
  exact mul_nonneg (by positivity) (two_zpow_pos _).le

theorem magnitude_mono_abs (a b : ℚ) (ha : a ≠ 0) (hb : b ≠ 0) (h : |a| ≤ |b|) :
    magnitude a ≤ magnitude b := by
  rw [magnitude_eq, magnitude_eq]
  apply magnitude_mono _ _ _ _ (natAbs_num_pos a ha) a.den_pos (natAbs_num_pos b hb) b.den_pos
  rw [natAbs_div_den, natAbs_div_den]
  exact h

theorem overflows_iff (q : ℚ) (hq : q ≠ 0) :
    overflows q = true ↔ (2 : ℚ) ^ (1024 : ℤ) ≤ magnitude q := by
  rw [magnitude_eq, ← overflow_iff _ _ (natAbs_num_pos q hq) q.den_pos]
  simp [overflows]

/-- Rounding to binary64 is monotone. -/
theorem round64_mono (a b : ℚ) (h : a ≤ b) : le (round64 a) (round64 b) = true := by
  have ma := magnitude_nonneg a
  have mb := magnitude_nonneg b
  unfold round64
  rcases lt_trichotomy a 0 with ha | ha | ha
  · rw [if_neg ha.ne, if_neg (not_lt.mpr ha.le)]
    rcases lt_trichotomy b 0 with hb | hb | hb
    · rw [if_neg hb.ne, if_neg (not_lt.mpr hb.le)]
      have hmono := magnitude_mono_abs b a hb.ne ha.ne
        (by rw [abs_of_neg hb, abs_of_neg ha]; linarith)
      by_cases oa : overflows a = true
      · rw [if_pos oa]
        split_ifs <;> rfl
      · rw [if_neg oa]
        have ob : ¬ overflows b = true := by
          intro ob
          apply oa
          rw [overflows_iff a ha.ne]
          exact ((overflows_iff b hb.ne).mp ob).trans hmono
        rw [if_neg ob]
        simp only [le, decide_eq_true_eq]
        linarith
    · rw [if_pos hb]
      split_ifs
      · rfl
      · simp only [le, decide_eq_true_eq]
        linarith
    · rw [if_neg hb.ne', if_pos hb]
      split_ifs
      · rfl
      · rfl
      · rfl
      · simp only [le, decide_eq_true_eq]
        linarith
  · rw [if_pos ha]
    rcases h.lt_or_eq with hb | hb
    · rw [ha] at hb
      rw [if_neg hb.ne', if_pos hb]
      split_ifs
      · rfl
      · simp only [le, decide_eq_true_eq]
        exact mb
    · rw [← hb, if_pos ha]
      simp [le]
  · have hb : 0 < b := lt_of_lt_of_le ha h
    rw [if_neg ha.ne', if_pos ha, if_neg hb.ne', if_pos hb]
    have hmono := magnitude_mono_abs a b ha.ne' hb.ne'
      (by rw [abs_of_pos ha, abs_of_pos hb]; exact h)
    by_cases ob : overflows b = true
    · rw [if_pos ob]
      split_ifs <;> rfl
    · rw [if_neg ob]
      have oa : ¬ overflows a = true := by
        intro oa
        apply ob
        rw [overflows_iff b hb.ne']
        exact ((overflows_iff a ha.ne').mp oa).trans hmono
      rw [if_neg oa]
      simp only [le, decide_eq_true_eq]
      exact hmono

theorem nat_eq_of_abs_sub_le_half (a b : ℕ) (h : |(a : ℚ) - b| ≤ 1 / 2) : a = b := by
  have h' := abs_le.mp h
  have h1 : (a : ℚ) < b + 1 := by linarith [h'.2]
  have h2 : (b : ℚ) < a + 1 := by linarith [h'.1]
  have h3 : a < b + 1 := by exact_mod_cast h1
  have h4 : b < a + 1 := by exact_mod_cast h2
  omega

/-- A positive number of the binary64 grid is its own rounding. -/
theorem round64_grid_pos (m : ℕ) (e : ℤ) (hm0 : 0 < m) (hm : m ≤ 2 ^ 53) (he : -1074 ≤ e)
    (hlt : (m : ℚ) * 2 ^ e < 2 ^ (1024 : ℤ)) :
    round64 ((m : ℚ) * 2 ^ e) = fin ((m : ℚ) * 2 ^ e) := by
  set v : ℚ := (m : ℚ) * 2 ^ e with hv
  have hmq : (0 : ℚ) < m := by exact_mod_cast hm0
  have hvpos : 0 < v := mul_pos hmq (two_zpow_pos e)
  have hn := natAbs_num_pos v hvpos.ne'
  have hd := v.den_pos
  have hr : ((v.num.natAbs : ℕ) : ℚ) / v.den = v := by
    rw [natAbs_div_den, abs_of_pos hvpos]
  obtain ⟨l1, l2⟩ := ilog2_spec _ _ hn hd
  rw [hr] at l1 l2
  have hspec := (mantissa_spec v.num.natAbs v.den hd).1
  rw [hr] at hspec
  -- the scaled value is a natural number
  have hk : ∃ k : ℕ, v / 2 ^ quantum v.num.natAbs v.den = k := by
    rcases hm.lt_or_eq with hlt53 | heq53
    · have hmq53 : (m : ℚ) < 2 ^ (53 : ℤ) := by exact_mod_cast hlt53
      have hv53 : v < 2 ^ (53 + e) := by
        rw [← two_zpow_mul]
        exact mul_lt_mul_of_pos_right hmq53 (two_zpow_pos e)
      have hL : ilog2 v.num.natAbs v.den < 53 + e :=
        (zpow_lt_zpow_iff_right₀ (by norm_num : (1 : ℚ) < 2)).mp (lt_of_le_of_lt l1 hv53)
      have hq : quantum v.num.natAbs v.den ≤ e := by
        unfold quantum
        rcases max_cases (ilog2 v.num.natAbs v.den) (-1022) with ⟨h1, _⟩ | ⟨h1, _⟩ <;>
          rw [h1] <;> omega
      obtain ⟨j, hj⟩ : ∃ j : ℕ, e = quantum v.num.natAbs v.den + j :=
        ⟨(e - quantum v.num.natAbs v.den).toNat, by omega⟩
      refine ⟨m * 2 ^ j, ?_⟩
      rw [hv, div_eq_iff (two_zpow_pos _).ne']
      conv_lhs => rw [hj]
      rw [zpow_add₀ (by norm_num), zpow_natCast]
      push_cast
      ring
    · have hveq : v = 2 ^ (53 + e) := by
        rw [hv, heq53, ← two_zpow_mul]
        norm_cast
      have hL1 : ilog2 v.num.natAbs v.den ≤ 53 + e :=
        (zpow_le_zpow_iff_right₀ (by norm_num : (1 : ℚ) < 2)).mp (le_of_le_of_eq l1 hveq)
      have hL2 : 53 + e < ilog2 v.num.natAbs v.den + 1 :=
        (zpow_lt_zpow_iff_right₀ (by norm_num : (1 : ℚ) < 2)).mp
          (lt_of_eq_of_lt hveq.symm l2)
      have hq : quantum v.num.natAbs v.den = e + 1 := by
        unfold quantum
        rcases max_cases (ilog2 v.num.natAbs v.den) (-1022) with ⟨h1, _⟩ | ⟨h1, _⟩ <;>
          rw [h1] <;> omega
      refine ⟨2 ^ 52, ?_⟩
      have h52 : ((2 ^ 52 : ℕ) : ℚ) = 2 ^ (52 : ℤ) := by norm_cast
      rw [hq, hveq, div_eq_iff (two_zpow_pos _).ne', h52, two_zpow_mul]
      congr 1
      ring
  obtain ⟨k, hk⟩ := hk
  rw [hk] at hspec
  have hmk := nat_eq_of_abs_sub_le_half _ _ hspec
  have hmag : magnitude v = v := by
    rw [magnitude_eq, hmk, ← hk]
    field_simp
  have hov : ¬ overflows v = true := by
    rw [overflows_iff v hvpos.ne', hmag]
    exact not_le.mpr hlt
  unfold round64
  rw [if_neg hvpos.ne', if_pos hvpos, if_neg hov, hmag]

theorem magnitude_neg (q : ℚ) : magnitude (-q) = magnitude q := by
  unfold magnitude
  rw [Rat.num_neg_eq_neg_num, Rat.den_neg_eq_den, Int.natAbs_neg]

theorem overflows_neg (q : ℚ) : overflows (-q) = overflows q := by
  unfold overflows
  rw [Rat.num_neg_eq_neg_num, Rat.den_neg_eq_den, Int.natAbs_neg]

/-- Rounding to binary64 commutes with the change of sign. -/
theorem round64_neg (q : ℚ) : round64 (-q) = neg (round64 q) := by
  unfold round64
  rcases lt_trichotomy q 0 with h | h | h
  · have h' : 0 < -q := by linarith
    rw [if_neg h'.ne', if_pos h', if_neg h.ne, if_neg (not_lt.mpr h.le), magnitude_neg,
      overflows_neg]
    split_ifs
    · rfl
    · simp [neg]
  · subst h
    simp [neg]
  · have h' : -q < 0 := by linarith
    rw [if_neg h'.ne, if_neg (not_lt.mpr h'.le), if_neg h.ne', if_pos h, magnitude_neg,
      overflows_neg]
    split_ifs <;> rfl

/-- A finite result of `round64` on a positive number is a number of the
grid. -/
theorem round64_pos_eq (q v : ℚ) (hq : 0 < q) (h : round64 q = fin v) :
    v = magnitude q ∧ magnitude q < 2 ^ (1024 : ℤ) := by
  unfold round64 at h
  rw [if_neg hq.ne', if_pos hq] at h
  by_cases ho : overflows q = true
  · rw [if_pos ho] at h
    cases h
  · rw [if_neg ho] at h
    refine ⟨(JSNum.fin.inj h).symm, ?_⟩
    rw [overflows_iff q hq.ne'] at ho
    exact not_le.mp ho

/-- The results of `round64` are fixed by `round64`. -/
theorem round64_idem (q v : ℚ) (h : round64 q = fin v) : round64 v = fin v := by
  have key : ∀ q v : ℚ, 0 < q → round64 q = fin v → round64 v = fin v := by
    intro q v hq h
    obtain ⟨hv, hlt⟩ := round64_pos_eq q v hq h
    subst hv
    rw [magnitude_eq] at hlt ⊢
    by_cases hm0 : mantissa q.num.natAbs q.den = 0
    · rw [hm0]
      simp [round64]
    · exact round64_grid_pos _ _ (Nat.pos_of_ne_zero hm0)
        (mantissa_le _ _ (natAbs_num_pos q hq.ne') q.den_pos) (quantum_ge _ _) hlt
  rcases lt_trichotomy q 0 with hq | hq | hq
  · have h' : round64 (-q) = fin (-v) := by
      rw [round64_neg, h]
      rfl
    have := key (-q) (-v) (by linarith) h'
    have h2 := round64_neg (-v)
    rw [neg_neg, this] at h2
    rw [h2]
    simp [neg]
  · subst hq
    have : v = 0 := by
      have h0 : round64 0 = fin 0 := by simp [round64]
      rw [h0] at h
      exact (JSNum.fin.inj h).symm
    subst this
    simp [round64]
  · exact key q v hq h

namespace JSNum

@[simp] theorem lit_exact (q : ℚ) : lit exact q = fin q := rfl

@[simp] theorem add_exact_fin (a b : ℚ) : add exact (fin a) (fin b) = fin (a + b) := rfl

@[simp] theorem sub_exact_fin (a b : ℚ) : sub exact (fin a) (fin b) = fin (a - b) := by
  simp [sub, neg, add, exact, sub_eq_add_neg]

@[simp] theorem mul_exact_fin (a b : ℚ) : mul exact (fin a) (fin b) = fin (a * b) := rfl

theorem div_exact_fin (a b : ℚ) (hb : b ≠ 0) : div exact (fin a) (fin b) = fin (a / b) := by
  simp [div, exact, hb]

@[simp] theorem lt_fin (a b : ℚ) : lt (fin a) (fin b) = decide (a < b) := rfl

@[simp] theorem le_fin (a b : ℚ) : le (fin a) (fin b) = decide (a ≤ b) := rfl

@[simp] theorem le_nan_left (a : JSNum) : le nan a = false := by cases a <;> rfl

@[simp] theorem sub_nan_right (r : Rounding) (a : JSNum) : sub r a nan = nan := by
  cases a <;> rfl

end JSNum

/-! ## Fields after `n` calls of `update()` -/

section Fields

variable (r : Rounding)

theorem callUpdate_cls (e : Effect) : (e.callUpdate r).cls = e.cls := by
  obtain ⟨cls, _, _, _, _, _, _, _, _⟩ := e
  cases cls <;> rfl

theorem callUpdate_minSize (e : Effect) : (e.callUpdate r).minSize = e.minSize := by
  obtain ⟨cls, _, _, _, _, _, _, _, _⟩ := e
  cases cls <;> rfl

theorem callUpdate_animationSpeed (e : Effect) :
    (e.callUpdate r).animationSpeed = e.animationSpeed := by
  obtain ⟨cls, _, _, _, _, _, _, _, _⟩ := e
  cases cls <;> rfl

theorem callUpdate_opacityStep (e : Effect) :
    (e.callUpdate r).opacityStep = e.opacityStep := by
  obtain ⟨cls, _, _, _, _, _, _, _, _⟩ := e
  cases cls <;> rfl

theorem callUpdate_opacity (e : Effect) :
    (e.callUpdate r).opacity = sub r e.opacity e.opacityStep := by
  obtain ⟨cls, _, _, _, _, _, _, _, _⟩ := e
  cases cls <;> rfl

theorem callUpdate_size_ripple (e : Effect) (h : e.cls = .Ripple) :
    (e.callUpdate r).size =
      if lt (sub r e.size e.animationSpeed) e.minSize then e.minSize
      else sub r e.size e.animationSpeed := by
  obtain ⟨cls, _, _, _, _, _, _, _, _⟩ := e
  subst h
  rfl

theorem callUpdate_size_grow (e : Effect) (h : e.cls ≠ .Ripple) :
    (e.callUpdate r).size = add r e.size e.animationSpeed := by
  obtain ⟨cls, _, _, _, _, _, _, _, _⟩ := e
  cases cls
  · exact absurd rfl h
  · rfl
  · rfl

theorem iterate_cls (e : Effect) (n : Nat) : ((Effect.callUpdate r)^[n] e).cls = e.cls := by
  induction n with
  | zero => rfl
  | succ n ih => rw [Function.iterate_succ_apply', callUpdate_cls, ih]

theorem iterate_minSize (e : Effect) (n : Nat) :
    ((Effect.callUpdate r)^[n] e).minSize = e.minSize := by
  induction n with
  | zero => rfl
  | succ n ih => rw [Function.iterate_succ_apply', callUpdate_minSize, ih]

theorem iterate_animationSpeed (e : Effect) (n : Nat) :
    ((Effect.callUpdate r)^[n] e).animationSpeed = e.animationSpeed := by
  induction n with
  | zero => rfl
  | succ n ih => rw [Function.iterate_succ_apply', callUpdate_animationSpeed, ih]

theorem iterate_opacityStep (e : Effect) (n : Nat) :
    ((Effect.callUpdate r)^[n] e).opacityStep = e.opacityStep := by
  induction n with
  | zero => rfl
  | succ n ih => rw [Function.iterate_succ_apply', callUpdate_opacityStep, ih]

end Fields

/-- In exact arithmetic, an effect with finite opacity `o` and finite step `d`
has opacity `o - n * d` after `n` updates. -/
theorem iterate_opacity_exact (e : Effect) (o d : ℚ) (ho : e.opacity = fin o)
    (hd : e.opacityStep = fin d) (n : Nat) :
    ((Effect.callUpdate exact)^[n] e).opacity = fin (o - n * d) := by
  induction n with
  | zero => simp [ho]
  | succ n ih =>
    rw [Function.iterate_succ_apply', callUpdate_opacity, ih, iterate_opacityStep, hd,
      sub_exact_fin]
    congr 1
    push_cast
    ring

/-- In exact arithmetic, a `Ripple` with finite size `a`, floor `m <= a` and
speed `v >= 0` has size `max (a - n * v) m` after `n` updates. -/
theorem iterate_size_ripple_exact (e : Effect) (a m v : ℚ) (hc : e.cls = .Ripple)
    (ha : e.size = fin a) (hm : e.minSize = fin m) (hv : e.animationSpeed = fin v)
    (hma : m ≤ a) (hv0 : 0 ≤ v) (n : Nat) :
    ((Effect.callUpdate exact)^[n] e).size = fin (max (a - n * v) m) := by
  induction n with
  | zero => simp [ha, hma]
  | succ n ih =>
    rw [Function.iterate_succ_apply', callUpdate_size_ripple _ _ (by rw [iterate_cls, hc]), ih,
      iterate_minSize, iterate_animationSpeed, hm, hv, sub_exact_fin, lt_fin]
    have hstep : a - ((n + 1 : ℕ) : ℚ) * v = a - n * v - v := by push_cast; ring
    rw [hstep]
    by_cases hlt : max (a - n * v) m - v < m
    · rw [decide_eq_true hlt, if_pos rfl]
      congr 1
      rw [max_eq_right]
      have := le_max_left (a - n * v) m
      linarith
    · rw [decide_eq_false hlt, if_neg (by simp)]
      congr 1
      push_neg at hlt
      rcases le_total (a - n * v) m with h | h
      · rw [max_eq_right h] at hlt
        have hv' : v = 0 := by linarith
        subst hv'
        simp
      · rw [max_eq_left h] at hlt ⊢
        rw [max_eq_left hlt]

/-- In exact arithmetic, a `Flame` or `WaterRipple` with finite size `a` and
speed `v` has size `a + n * v` after `n` updates. -/
theorem iterate_size_grow_exact (e : Effect) (a v : ℚ) (hc : e.cls ≠ .Ripple)
    (ha : e.size = fin a) (hv : e.animationSpeed = fin v) (n : Nat) :
    ((Effect.callUpdate exact)^[n] e).size = fin (a + n * v) := by
  induction n with
  | zero => simp [ha]
  | succ n ih =>
    rw [Function.iterate_succ_apply', callUpdate_size_grow _ _ (by rw [iterate_cls]; exact hc),
      ih, iterate_animationSpeed, hv, add_exact_fin]
    congr 1
    push_cast
    ring

/-! ## Fields at construction, exact arithmetic -/

section Construction

variable (x y : JSNum) (color : Color) (s : ℚ)

theorem Ripple_new_cls (r : Rounding) (speed : JSNum) :
    (Ripple.new r x y speed color).cls = .Ripple := rfl

theorem Flame_new_cls (r : Rounding) (speed : JSNum) :
    (Flame.new r x y speed color).cls = .Flame := rfl

theorem WaterRipple_new_cls (r : Rounding) (speed : JSNum) :
    (WaterRipple.new r x y speed color).cls = .WaterRipple := rfl

theorem Ripple_new_size : (Ripple.new exact x y (fin s) color).size = fin (s * 2) := rfl

theorem Ripple_new_minSize :
    (Ripple.new exact x y (fin s) color).minSize = fin (s * (9 / 10)) := rfl

theorem Ripple_new_animationSpeed :
    (Ripple.new exact x y (fin s) color).animationSpeed = fin (s / 10) := by
  simp [Ripple.new, div_exact_fin]

theorem Ripple_new_opacity : (Ripple.new exact x y (fin s) color).opacity = fin 1 := rfl

theorem Ripple_new_opacityStep (hs : s ≠ 0) :
    (Ripple.new exact x y (fin s) color).opacityStep = fin (1 / 11) := by
  have h1 : s * 2 - s * (9 / 10) ≠ 0 := by
    intro h
    apply hs
    linarith
  simp only [Ripple.new, Effect.new, lit_exact, mul_exact_fin, sub_exact_fin]
  rw [div_exact_fin _ _ (by norm_num), div_exact_fin _ _ h1, div_exact_fin _ _ (by norm_num)]
  congr 1
  rw [show s * 2 - s * (9 / 10) = s * (11 / 10) by ring]
  field_simp

theorem Flame_new_size : (Flame.new exact x y (fin s) color).size = fin (s * (5 / 2)) := rfl

theorem Flame_new_maxSize : (Flame.new exact x y (fin s) color).maxSize = fin (s * 4) := rfl

theorem Flame_new_animationSpeed :
    (Flame.new exact x y (fin s) color).animationSpeed = fin (s / 5) := by
  simp [Flame.new, div_exact_fin]

theorem Flame_new_opacity : (Flame.new exact x y (fin s) color).opacity = fin 1 := rfl

theorem Flame_new_opacityStep (hs : s ≠ 0) :
    (Flame.new exact x y (fin s) color).opacityStep = fin (1 / 15) := by
  have h1 : s * 4 - s * (5 / 2) ≠ 0 := by
    intro h
    apply hs
    linarith
  simp only [Flame.new, lit_exact, mul_exact_fin, sub_exact_fin]
  rw [div_exact_fin _ _ (by norm_num), div_exact_fin _ _ h1, div_exact_fin _ _ (by norm_num)]
  congr 1
  rw [show s * 4 - s * (5 / 2) = s * (3 / 2) by ring]
  field_simp
  ring

theorem WaterRipple_new_size :
    (WaterRipple.new exact x y (fin s) color).size = fin (s * 2) := rfl

theorem WaterRipple_new_animationSpeed :
    (WaterRipple.new exact x y (fin s) color).animationSpeed = fin (33 / 100) := rfl

theorem WaterRipple_new_opacityStep (hs : s ≠ 0) :
    (WaterRipple.new exact x y (fin s) color).opacityStep = fin (11 / (900 * s)) := by
  have h1 : s * 20 - s * 2 ≠ 0 := by
    intro h
    apply hs
    linarith
  simp only [WaterRipple.new, lit_exact, mul_exact_fin, sub_exact_fin]
  rw [div_exact_fin _ _ h1, div_exact_fin _ _ (by norm_num)]
  congr 1
  field_simp
  ring

end Construction

/-- At a positive finite speed every class starts with opacity `1` and a
positive finite opacity step, in exact arithmetic. -/
theorem create_opacity_exact (cls : Cls) (x y : JSNum) (color : Color) (s : ℚ) (hs : 0 < s) :
    (Effect.create exact cls x y (fin s) color).opacity = fin 1 ∧
      ∃ d : ℚ, 0 < d ∧ (Effect.create exact cls x y (fin s) color).opacityStep = fin d := by
  cases cls
  · exact ⟨rfl, 1 / 11, by norm_num, Ripple_new_opacityStep x y color s hs.ne'⟩
  · exact ⟨rfl, 1 / 15, by norm_num, Flame_new_opacityStep x y color s hs.ne'⟩
  · exact ⟨rfl, 11 / (900 * s), by positivity, WaterRipple_new_opacityStep x y color s hs.ne'⟩

/-! ## Updates in binary64 arithmetic -/

/-- The binary64 rounding of a rational is never `NaN`. -/
theorem round64_ne_nan (q : ℚ) : round64 q ≠ nan := by
  unfold round64
  split_ifs <;> exact fun h => JSNum.noConfusion h

theorem round64_zero : round64 0 = fin 0 := by
  simp [round64]

/-- The rounding of a number `>= 0` is `+Infinity` or a double `>= 0`. -/
theorem round64_nonneg (q : ℚ) (hq : 0 ≤ q) :
    round64 q = pinf ∨ ∃ z, round64 q = fin z ∧ 0 ≤ z ∧ round64 z = fin z := by
  have h := round64_mono 0 q hq
  rw [round64_zero] at h
  cases hr : round64 q with
  | fin z =>
    rw [hr] at h
    exact Or.inr ⟨z, rfl, by simpa [le] using h, round64_idem q z hr⟩
  | pinf => exact Or.inl rfl
  | ninf => rw [hr] at h; simp [le] at h
  | nan => exact absurd hr (round64_ne_nan q)

/-- The rounding of a number between `0` and a double is a double between
them. -/
theorem round64_between (q s : ℚ) (hq : 0 ≤ q) (hqs : q ≤ s) (hs : round64 s = fin s) :
    ∃ z, round64 q = fin z ∧ 0 ≤ z ∧ z ≤ s ∧ round64 z = fin z := by
  have h := round64_mono q s hqs
  rw [hs] at h
  rcases round64_nonneg q hq with hr | ⟨z, hr, hz, hzz⟩
  · rw [hr] at h
    simp [le] at h
  · rw [hr] at h
    exact ⟨z, hr, hz, by simpa [le] using h, hzz⟩

/-- In binary64, one `update()` of a `Ripple` whose animation speed is `>= 0`
and whose size is at least its (finite) minSize: the size does not increase
and stays at least the minSize. -/
theorem ripple_update_binary64 (e : Effect) (hc : e.cls = .Ripple) (a mn : ℚ)
    (ha : e.animationSpeed = fin a) (ha0 : 0 ≤ a) (hmn : e.minSize = fin mn)
    (hmnD : round64 mn = fin mn)
    (hsz : e.size = pinf ∨ ∃ z, e.size = fin z ∧ round64 z = fin z)
    (hle : le e.minSize e.size = true) :
    ((e.callUpdate binary64).size = pinf ∨
        ∃ z, (e.callUpdate binary64).size = fin z ∧ round64 z = fin z) ∧
      le e.minSize (e.callUpdate binary64).size = true ∧
      le (e.callUpdate binary64).size e.size = true := by
  rw [callUpdate_size_ripple _ _ hc, ha, hmn]
  rcases hsz with hs | ⟨z, hs, hz⟩
  · rw [hs]
    simp [sub, neg, add, lt, le]
  · rw [hs] at hle ⊢
    rw [hmn] at hle
    have hmz : mn ≤ z := by simpa [le] using hle
    have hsub : sub binary64 (fin z) (fin a) = round64 (z + -a) := rfl
    rw [hsub]
    have hmono := round64_mono (z + -a) z (by linarith)
    rw [hz] at hmono
    cases hr : round64 (z + -a) with
    | fin t =>
      rw [hr] at hmono
      have htz : t ≤ z := by simpa [le] using hmono
      by_cases hlt : t < mn
      · simp only [lt, hlt, decide_True, if_true]
        exact ⟨Or.inr ⟨mn, rfl, hmnD⟩, by simp [le], by simpa [le] using hmz⟩
      · simp only [lt, hlt, decide_False]
        exact ⟨Or.inr ⟨t, rfl, round64_idem _ _ hr⟩, by simpa [le] using not_lt.mp hlt,
          by simpa [le] using htz⟩
    | pinf => rw [hr] at hmono; simp [le] at hmono
    | ninf =>
      simp only [lt, if_true]
      exact ⟨Or.inr ⟨mn, rfl, hmnD⟩, by simp [le], by simpa [le] using hmz⟩
    | nan => exact absurd hr (round64_ne_nan _)

/-- In binary64, one `update()` of a `Flame` or `WaterRipple` whose animation
speed is `>= 0`: the size does not decrease. -/
theorem grow_update_binary64 (e : Effect) (hc : e.cls ≠ .Ripple) (a : ℚ)
    (ha : e.animationSpeed = fin a) (ha0 : 0 ≤ a)
    (hsz : e.size = pinf ∨ ∃ z, e.size = fin z ∧ round64 z = fin z) :
    ((e.callUpdate binary64).size = pinf ∨
        ∃ z, (e.callUpdate binary64).size = fin z ∧ round64 z = fin z) ∧
      le e.size (e.callUpdate binary64).size = true := by
  rw [callUpdate_size_grow _ _ hc, ha]
  rcases hsz with hs | ⟨z, hs, hz⟩
  · rw [hs]
    simp [add, le]
  · rw [hs]
    have hadd : add binary64 (fin z) (fin a) = round64 (z + a) := rfl
    rw [hadd]
    have hmono := round64_mono z (z + a) (by linarith)
    rw [hz] at hmono
    cases hr : round64 (z + a) with
    | fin t =>
      rw [hr] at hmono
      exact ⟨Or.inr ⟨t, rfl, round64_idem _ _ hr⟩, hmono⟩
    | pinf => exact ⟨Or.inl rfl, by simp [le]⟩
    | ninf => rw [hr] at hmono; simp [le] at hmono
    | nan => exact absurd hr (round64_ne_nan _)

/-- The numeric literals of the effect classes, as binary64 values. -/
theorem lit_binary64_values :
    lit binary64 0 = fin 0 ∧ lit binary64 1 = fin 1 ∧ lit binary64 2 = fin 2 ∧
    lit binary64 4 = fin 4 ∧ lit binary64 5 = fin 5 ∧ lit binary64 10 = fin 10 ∧
    lit binary64 20 = fin 20 ∧ lit binary64 (5 / 2) = fin (5 / 2) ∧
    lit binary64 (3 / 2) = fin (3 / 2) ∧
    lit binary64 (9 / 10) = fin (8106479329266893 / 2 ^ 53) ∧
    lit binary64 (33 / 100) = fin (5944751508129055 / 2 ^ 54) := by
  decide!

/-- In binary64 the size of a `Ripple` in the state of the hypotheses never
increases and never falls below the minSize, whatever the number of updates. -/
theorem ripple_iterate_binary64 (e : Effect) (hc : e.cls = .Ripple) (a mn : ℚ)
    (ha : e.animationSpeed = fin a) (ha0 : 0 ≤ a) (hmn : e.minSize = fin mn)
    (hmnD : round64 mn = fin mn)
    (hsz : e.size = pinf ∨ ∃ z, e.size = fin z ∧ round64 z = fin z)
    (hle : le e.minSize e.size = true) (n : Nat) :
    (((Effect.callUpdate binary64)^[n] e).size = pinf ∨
        ∃ z, ((Effect.callUpdate binary64)^[n] e).size = fin z ∧ round64 z = fin z) ∧
      le e.minSize ((Effect.callUpdate binary64)^[n] e).size = true ∧
      le ((Effect.callUpdate binary64)^[n + 1] e).size
        ((Effect.callUpdate binary64)^[n] e).size = true := by
  have step : ∀ k, (((Effect.callUpdate binary64)^[k] e).size = pinf ∨
        ∃ z, ((Effect.callUpdate binary64)^[k] e).size = fin z ∧ round64 z = fin z) ∧
      le e.minSize ((Effect.callUpdate binary64)^[k] e).size = true := by
    intro k
    induction k with
    | zero => exact ⟨hsz, hle⟩
    | succ k ih =>
      rw [Function.iterate_succ_apply']
      have h := ripple_update_binary64 ((Effect.callUpdate binary64)^[k] e)
        (by rw [iterate_cls, hc]) a mn (by rw [iterate_animationSpeed, ha]) ha0
        (by rw [iterate_minSize, hmn]) hmnD ih.1 (by rw [iterate_minSize]; exact ih.2)
      rw [iterate_minSize] at h
      exact ⟨h.1, h.2.1⟩
  refine ⟨(step n).1, (step n).2, ?_⟩
  rw [Function.iterate_succ_apply']
  exact (ripple_update_binary64 ((Effect.callUpdate binary64)^[n] e)
    (by rw [iterate_cls, hc]) a mn (by rw [iterate_animationSpeed, ha]) ha0
    (by rw [iterate_minSize, hmn]) hmnD (step n).1
    (by rw [iterate_minSize]; exact (step n).2)).2.2

/-- In binary64 the size of a `Flame` or `WaterRipple` with animation speed
`>= 0` never decreases. -/
theorem grow_iterate_binary64 (e : Effect) (hc : e.cls ≠ .Ripple) (a : ℚ)
    (ha : e.animationSpeed = fin a) (ha0 : 0 ≤ a)
    (hsz : e.size = pinf ∨ ∃ z, e.size = fin z ∧ round64 z = fin z) (n : Nat) :
    le ((Effect.callUpdate binary64)^[n] e).size
      ((Effect.callUpdate binary64)^[n + 1] e).size = true := by
  have step : ∀ k, ((Effect.callUpdate binary64)^[k] e).size = pinf ∨
        ∃ z, ((Effect.callUpdate binary64)^[k] e).size = fin z ∧ round64 z = fin z := by
    intro k
    induction k with
    | zero => exact hsz
    | succ k ih =>
      rw [Function.iterate_succ_apply']
      exact (grow_update_binary64 ((Effect.callUpdate binary64)^[k] e)
        (by rw [iterate_cls]; exact hc) a (by rw [iterate_animationSpeed, ha]) ha0 ih).1
  rw [Function.iterate_succ_apply']
  exact (grow_update_binary64 ((Effect.callUpdate binary64)^[n] e)
    (by rw [iterate_cls]; exact hc) a (by rw [iterate_animationSpeed, ha]) ha0 (step n)).2

/-- The fields of a `Ripple` spawned in binary64 at a double speed `s >= 0`. -/
theorem ripple_new_binary64 (x y : JSNum) (color : Color) (s : ℚ) (hs0 : 0 ≤ s)
    (hs : round64 s = fin s) :
    (∃ a, (Ripple.new binary64 x y (fin s) color).animationSpeed = fin a ∧ 0 ≤ a) ∧
    (∃ mn, (Ripple.new binary64 x y (fin s) color).minSize = fin mn ∧ round64 mn = fin mn) ∧
    ((Ripple.new binary64 x y (fin s) color).size = pinf ∨
      ∃ z, (Ripple.new binary64 x y (fin s) color).size = fin z ∧ round64 z = fin z) ∧
    le (Ripple.new binary64 x y (fin s) color).minSize
      (Ripple.new binary64 x y (fin s) color).size = true := by
  obtain ⟨-, -, l2, -, -, l10, -, -, -, l9, -⟩ := lit_binary64_values
  have hsize : (Ripple.new binary64 x y (fin s) color).size = round64 (s * 2) := by
    show mul binary64 (fin s) (lit binary64 2) = _
    rw [l2]; rfl
  have hmin : (Ripple.new binary64 x y (fin s) color).minSize
      = round64 (s * (8106479329266893 / 2 ^ 53)) := by
    show mul binary64 (fin s) (lit binary64 (9 / 10)) = _
    rw [l9]; rfl
  have hspeed : (Ripple.new binary64 x y (fin s) color).animationSpeed = round64 (s / 10) := by
    show div binary64 (fin s) (lit binary64 10) = _
    rw [l10]
    simp [div, binary64]
  rw [hsize, hmin, hspeed]
  obtain ⟨a, ha, ha0, -, -⟩ := round64_between (s / 10) s (by positivity)
    (by linarith) hs
  obtain ⟨mn, hmn, hmn0, -, hmnD⟩ := round64_between (s * (8106479329266893 / 2 ^ 53)) s
    (by positivity) (by nlinarith) hs
  refine ⟨⟨a, ha, ha0⟩, ⟨mn, hmn, hmnD⟩, ?_, ?_⟩
  · rcases round64_nonneg (s * 2) (by positivity) with h | ⟨z, h, -, hz⟩
    · exact Or.inl h
    · exact Or.inr ⟨z, h, hz⟩
  · exact round64_mono _ _ (by nlinarith)

/-- The fields of a `Flame` spawned in binary64 at a double speed `s >= 0`. -/
theorem flame_new_binary64 (x y : JSNum) (color : Color) (s : ℚ) (hs0 : 0 ≤ s)
    (hs : round64 s = fin s) :
    (∃ a, (Flame.new binary64 x y (fin s) color).animationSpeed = fin a ∧ 0 ≤ a) ∧
    ((Flame.new binary64 x y (fin s) color).size = pinf ∨
      ∃ z, (Flame.new binary64 x y (fin s) color).size = fin z ∧ round64 z = fin z) := by
  obtain ⟨-, -, -, -, l5, -, -, l52, -, -, -⟩ := lit_binary64_values
  have hsize : (Flame.new binary64 x y (fin s) color).size = round64 (s * (5 / 2)) := by
    show mul binary64 (fin s) (lit binary64 (5 / 2)) = _
    rw [l52]; rfl
  have hspeed : (Flame.new binary64 x y (fin s) color).animationSpeed = round64 (s / 5) := by
    show div binary64 (fin s) (lit binary64 5) = _
    rw [l5]
    simp [div, binary64]
  rw [hsize, hspeed]
  obtain ⟨a, ha, ha0, -, -⟩ := round64_between (s / 5) s (by positivity) (by linarith) hs
  refine ⟨⟨a, ha, ha0⟩, ?_⟩
  rcases round64_nonneg (s * (5 / 2)) (by positivity) with h | ⟨z, h, -, hz⟩
  · exact Or.inl h
  · exact Or.inr ⟨z, h, hz⟩

/-- The fields of a `WaterRipple` spawned in binary64 at a speed `s >= 0`. -/
theorem waterRipple_new_binary64 (x y : JSNum) (color : Color) (s : ℚ) (hs0 : 0 ≤ s) :
    (∃ a, (WaterRipple.new binary64 x y (fin s) color).animationSpeed = fin a ∧ 0 ≤ a) ∧
    ((WaterRipple.new binary64 x y (fin s) color).size = pinf ∨
      ∃ z, (WaterRipple.new binary64 x y (fin s) color).size = fin z ∧
        round64 z = fin z) := by
  obtain ⟨-, -, l2, -, -, -, -, -, -, -, l33⟩ := lit_binary64_values
  have hsize : (WaterRipple.new binary64 x y (fin s) color).size = round64 (s * 2) := by
    show mul binary64 (fin s) (lit binary64 2) = _
    rw [l2]; rfl
  have hspeed : (WaterRipple.new binary64 x y (fin s) color).animationSpeed
      = fin (5944751508129055 / 2 ^ 54) := l33
  rw [hsize, hspeed]
  refine ⟨⟨_, rfl, by positivity⟩, ?_⟩
  rcases round64_nonneg (s * 2) (by positivity) with h | ⟨z, h, -, hz⟩
  · exact Or.inl h
  · exact Or.inr ⟨z, h, hz⟩

/-- A finite quotient computed in binary64 is a double. -/
theorem div_binary64_fin (a b : JSNum) (d : ℚ) (h : div binary64 a b = fin d) :
    round64 d = fin d := by
  cases a with
  | fin p =>
    cases b with
    | fin q =>
      simp only [div] at h
      by_cases hq : q = 0
      · rw [if_pos hq] at h
        by_cases hp : p = 0
        · rw [if_pos hp] at h; cases h
        · rw [if_neg hp] at h
          unfold signedInf at h
          split_ifs at h
      · rw [if_neg hq] at h
        exact round64_idem _ _ h
    | pinf => cases h; exact round64_zero
    | ninf => cases h; exact round64_zero
    | nan => cases h
  | pinf =>
    cases b with
    | fin q => simp only [div] at h; split_ifs at h
    | pinf => cases h
    | ninf => cases h
    | nan => cases h
  | ninf =>
    cases b with
    | fin q => simp only [div] at h; split_ifs at h
    | pinf => cases h
    | ninf => cases h
    | nan => cases h
  | nan => cases b <;> cases h

/-- A finite opacity step fixed by a constructor in binary64 is a double. -/
theorem create_opacityStep_binary64 (cls : Cls) (x y speed : JSNum) (color : Color) (d : ℚ)
    (h : (Effect.create binary64 cls x y speed color).opacityStep = fin d) :
    round64 d = fin d := by
  cases cls <;> exact div_binary64_fin _ _ _ h

/-- In binary64, one `update()` of an effect whose opacity step is `>= 0`:
the opacity does not increase. -/
theorem opacity_update_binary64 (e : Effect) (hstep : le (fin 0) e.opacityStep = true)
    (ho : e.opacity = ninf ∨ ∃ o, e.opacity = fin o ∧ round64 o = fin o) :
    ((e.callUpdate binary64).opacity = ninf ∨
        ∃ o, (e.callUpdate binary64).opacity = fin o ∧ round64 o = fin o) ∧
      le (e.callUpdate binary64).opacity e.opacity = true := by
  rw [callUpdate_opacity]
  cases hd : e.opacityStep with
  | fin d =>
    rw [hd] at hstep
    have hd0 : 0 ≤ d := by simpa [le] using hstep
    rcases ho with ho | ⟨o, ho, hoD⟩
    · rw [ho]
      exact ⟨Or.inl rfl, rfl⟩
    · rw [ho]
      have hsub : sub binary64 (fin o) (fin d) = round64 (o + -d) := rfl
      rw [hsub]
      have hmono := round64_mono (o + -d) o (by linarith)
      rw [hoD] at hmono
      cases hr : round64 (o + -d) with
      | fin t => rw [hr] at hmono; exact ⟨Or.inr ⟨t, rfl, round64_idem _ _ hr⟩, hmono⟩
      | pinf => rw [hr] at hmono; simp [le] at hmono
      | ninf => exact ⟨Or.inl rfl, rfl⟩
      | nan => exact absurd hr (round64_ne_nan _)
  | pinf =>
    rcases ho with ho | ⟨o, ho, -⟩
    · rw [ho]; exact ⟨Or.inl rfl, rfl⟩
    · rw [ho]; exact ⟨Or.inl rfl, rfl⟩
  | ninf => rw [hd] at hstep; simp [le] at hstep
  | nan => rw [hd] at hstep; simp [le] at hstep

/-- In binary64 the opacity of an effect whose opacity step is `>= 0` never
increases. -/
theorem opacity_iterate_binary64 (e : Effect) (hstep : le (fin 0) e.opacityStep = true)
    (ho : e.opacity = ninf ∨ ∃ o, e.opacity = fin o ∧ round64 o = fin o) (n : Nat) :
    (((Effect.callUpdate binary64)^[n] e).opacity = ninf ∨
        ∃ o, ((Effect.callUpdate binary64)^[n] e).opacity = fin o ∧ round64 o = fin o) ∧
      le ((Effect.callUpdate binary64)^[n + 1] e).opacity
        ((Effect.callUpdate binary64)^[n] e).opacity = true := by
  have step : ∀ k, ((Effect.callUpdate binary64)^[k] e).opacity = ninf ∨
        ∃ o, ((Effect.callUpdate binary64)^[k] e).opacity = fin o ∧ round64 o = fin o := by
    intro k
    induction k with
    | zero => exact ho
    | succ k ih =>
      rw [Function.iterate_succ_apply']
      exact (opacity_update_binary64 _ (by rw [iterate_opacityStep]; exact hstep) ih).1
  refine ⟨step n, ?_⟩
  rw [Function.iterate_succ_apply']
  exact (opacity_update_binary64 _ (by rw [iterate_opacityStep]; exact hstep) (step n)).2

/-- In binary64, for an effect that starts at opacity `1` with an opacity step
`>= 0` that is a double: if it is live before each of its first `n` updates,
its opacity after them is `<= 1` and `>= -opacityStep`. -/
theorem opacity_range_binary64 (e : Effect) (hstep : le (fin 0) e.opacityStep = true)
    (hD : ∀ d, e.opacityStep = fin d → round64 d = fin d) (ho : e.opacity = fin 1) (n : Nat)
    (hlive : ∀ k < n, le ((Effect.callUpdate binary64)^[k] e).opacity (fin 0) = false) :
    le ((Effect.callUpdate binary64)^[n] e).opacity (fin 1) = true ∧
      le (neg e.opacityStep) ((Effect.callUpdate binary64)^[n] e).opacity = true := by
  have h1 : round64 1 = fin 1 := by decide!
  have inv : ∀ k, ((Effect.callUpdate binary64)^[k] e).opacity = ninf ∨
      ∃ q, ((Effect.callUpdate binary64)^[k] e).opacity = fin q ∧ round64 q = fin q ∧
        q ≤ 1 := by
    intro k
    induction k with
    | zero => exact Or.inr ⟨1, ho, h1, le_refl 1⟩
    | succ k ih =>
      have hk := opacity_iterate_binary64 e hstep (Or.inr ⟨1, ho, h1⟩) k
      have hk1 := (opacity_iterate_binary64 e hstep (Or.inr ⟨1, ho, h1⟩) (k + 1)).1
      rcases hk1 with h | ⟨t, ht, htD⟩
      · exact Or.inl h
      · refine Or.inr ⟨t, ht, htD, ?_⟩
        have hle := hk.2
        rw [ht] at hle
        rcases ih with h | ⟨q, hq, -, hq1⟩
        · rw [h] at hle; simp [le] at hle
        · rw [hq] at hle
          have : t ≤ q := by simpa [le] using hle
          linarith
  constructor
  · rcases inv n with h | ⟨q, hq, -, hq1⟩
    · rw [h]; rfl
    · rw [hq]; simpa [le] using hq1
  · cases n with
    | zero =>
      rw [Function.iterate_zero, id, ho]
      cases hd : e.opacityStep with
      | fin d =>
        rw [hd] at hstep
        have hd0 : 0 ≤ d := by simpa [le] using hstep
        simp only [neg, le, decide_eq_true_eq]
        linarith
      | pinf => rfl
      | ninf => rw [hd] at hstep; simp [le] at hstep
      | nan => rw [hd] at hstep; simp [le] at hstep
    | succ m =>
      have hm := hlive m (Nat.lt_succ_self m)
      rw [Function.iterate_succ_apply', callUpdate_opacity, iterate_opacityStep]
      rcases inv m with h | ⟨q, hq, -, -⟩
      · rw [h] at hm; simp [le] at hm
      · rw [hq] at hm ⊢
        have hq0 : 0 < q := by simpa [le] using hm
        cases hd : e.opacityStep with
        | fin d =>
          have hsub : sub binary64 (fin q) (fin d) = round64 (q + -d) := rfl
          rw [hsub]
          have hmono := round64_mono (-d) (q + -d) (by linarith)
          rw [round64_neg, hD d hd] at hmono
          exact hmono
        | pinf => rfl
        | ninf => rw [hd] at hstep; simp [le] at hstep
        | nan => rw [hd] at hstep; simp [le] at hstep

/-- A positive double is a significand of at most 53 bits times a power of
two not below `2^-1074`; from `2^-1022` on the significand has 53 bits. -/
theorem double_repr (s : ℚ) (hs0 : 0 < s) (hs : round64 s = fin s) :
    ∃ (m : ℕ) (e : ℤ), s = (m : ℚ) * 2 ^ e ∧ 0 < m ∧ m ≤ 2 ^ 53 ∧ -1074 ≤ e ∧
      ((2 : ℚ) ^ (-1022 : ℤ) ≤ s → 2 ^ 52 ≤ m) := by
  obtain ⟨hv, -⟩ := round64_pos_eq s s hs0 hs
  have hn := natAbs_num_pos s hs0.ne'
  have hd := s.den_pos
  rw [magnitude_eq] at hv
  refine ⟨mantissa s.num.natAbs s.den, quantum s.num.natAbs s.den, hv, ?_,
    mantissa_le _ _ hn hd, quantum_ge _ _, ?_⟩
  · rcases Nat.eq_zero_or_pos (mantissa s.num.natAbs s.den) with h | h
    · rw [h] at hv
      simp at hv
      exact absurd hv hs0.ne'
    · exact h
  · intro hnorm
    have hr : ((s.num.natAbs : ℕ) : ℚ) / s.den = s := by
      rw [natAbs_div_den, abs_of_pos hs0]
    obtain ⟨l1, l2⟩ := ilog2_spec _ _ hn hd
    rw [hr] at l1 l2
    have hL : -1022 < ilog2 s.num.natAbs s.den + 1 :=
      (zpow_lt_zpow_iff_right₀ (by norm_num : (1 : ℚ) < 2)).mp (lt_of_le_of_lt hnorm l2)
    have hq : quantum s.num.natAbs s.den = ilog2 s.num.natAbs s.den - 52 := by
      unfold quantum
      rw [max_eq_left (by omega)]
    have hx : (2 : ℚ) ^ (52 : ℤ) ≤ s / 2 ^ quantum s.num.natAbs s.den := by
      rw [le_div_iff₀ (two_zpow_pos _), two_zpow_mul, hq]
      have : (52 : ℤ) + (ilog2 s.num.natAbs s.den - 52) = ilog2 s.num.natAbs s.den := by ring
      rw [this]
      exact l1
    have hspec := abs_le.mp (mantissa_spec s.num.natAbs s.den hd).1
    rw [hr] at hspec
    by_contra hcon
    have h1 : mantissa s.num.natAbs s.den + 1 ≤ 2 ^ 52 := by omega
    have h2 : ((mantissa s.num.natAbs s.den : ℕ) : ℚ) + 1 ≤ 2 ^ (52 : ℤ) := by
      exact_mod_cast h1
    linarith [hspec.1]

/-- A double times a power of two is a double, short of overflow. -/
theorem round64_scale (s : ℚ) (hs0 : 0 < s) (hs : round64 s = fin s) (j : ℕ)
    (hlt : s * 2 ^ j < 2 ^ (1024 : ℤ)) : round64 (s * 2 ^ j) = fin (s * 2 ^ j) := by
  obtain ⟨m, e, hrep, hm0, hm, he, -⟩ := double_repr s hs0 hs
  have hrw : s * 2 ^ j = (m : ℚ) * 2 ^ (e + j) := by
    rw [hrep, zpow_add₀ (by norm_num), zpow_natCast]
    ring
  rw [hrw] at hlt ⊢
  exact round64_grid_pos m (e + j) hm0 hm (by omega) hlt

/-- The rounding of a number that is at least a positive double is `> 0`. -/
theorem round64_pos_of_ge (q g : ℚ) (hg0 : 0 < g) (hg : round64 g = fin g) (h : g ≤ q) :
    lt (fin 0) (round64 q) = true := by
  have hmono := round64_mono g q h
  rw [hg] at hmono
  cases hr : round64 q with
  | fin t =>
    rw [hr] at hmono
    have : g ≤ t := by simpa [le] using hmono
    simp only [lt, decide_eq_true_eq]
    linarith
  | pinf => rfl
  | ninf => rw [hr] at hmono; simp [le] at hmono
  | nan => exact absurd hr (round64_ne_nan q)

/-- In binary64 a finite numerator `>= 0` over a denominator `> 0` is `>= 0`. -/
theorem div_fin_nonneg (p : ℚ) (hp : 0 ≤ p) (b : JSNum) (hb : lt (fin 0) b = true) :
    le (fin 0) (div binary64 (fin p) b) = true := by
  cases b with
  | fin q =>
    have hq : 0 < q := by simpa [lt] using hb
    simp only [div, if_neg hq.ne']
    have h := round64_mono 0 (p / q) (by positivity)
    rw [round64_zero] at h
    exact h
  | pinf => simp [div, le]
  | ninf => simp [lt] at hb
  | nan => simp [lt] at hb

/-- In binary64 a numerator `>= 0` over a finite denominator `> 0` is `>= 0`. -/
theorem div_nonneg_fin (a : JSNum) (ha : le (fin 0) a = true) (q : ℚ) (hq : 0 < q) :
    le (fin 0) (div binary64 a (fin q)) = true := by
  cases a with
  | fin p =>
    have hp : 0 ≤ p := by simpa [le] using ha
    exact div_fin_nonneg p hp (fin q) (by simpa [lt] using hq)
  | pinf => simp [div, hq.le, le]
  | ninf => simp [le] at ha
  | nan => simp [le] at ha

theorem round64_two_mul (s : ℚ) (hs0 : 0 < s) (hs : round64 s = fin s)
    (hhi : s < 2 ^ (1022 : ℤ)) : round64 (s * 2) = fin (s * 2) := by
  have h := round64_scale s hs0 hs 1 (by
    have : s * 2 ^ 1 < 2 ^ (1022 : ℤ) * 2 ^ (1 : ℤ) := by
      rw [pow_one, zpow_one]; linarith
    rw [two_zpow_mul] at this
    exact this.trans ((zpow_lt_zpow_iff_right₀ (by norm_num)).mpr (by norm_num)))
  rwa [pow_one] at h

theorem round64_four_mul (s : ℚ) (hs0 : 0 < s) (hs : round64 s = fin s)
    (hhi : s < 2 ^ (1022 : ℤ)) : round64 (s * 4) = fin (s * 4) := by
  have h := round64_scale s hs0 hs 2 (by
    have : s * 2 ^ 2 < 2 ^ (1022 : ℤ) * 2 ^ (2 : ℤ) := by
      have h4 : (2 : ℚ) ^ (2 : ℤ) = 2 ^ 2 := by norm_cast
      rw [h4]
      exact mul_lt_mul_of_pos_right hhi (by norm_num)
    rw [two_zpow_mul] at this
    exact this.trans_le ((zpow_le_zpow_iff_right₀ (by norm_num)).mpr (by norm_num)))
  have h4 : (2 : ℚ) ^ 2 = 4 := by norm_num
  rwa [h4] at h

/-- In binary64 the opacity step of a `Ripple` spawned at a positive double
speed below `2^1022` is `>= 0`. -/
theorem ripple_step_nonneg_binary64 (x y : JSNum) (color : Color) (s : ℚ) (hs0 : 0 < s)
    (hs : round64 s = fin s) (hhi : s < 2 ^ (1022 : ℤ)) :
    le (fin 0) (Ripple.new binary64 x y (fin s) color).opacityStep = true := by
  obtain ⟨-, l1, l2, -, -, l10, -, -, -, l9, -⟩ := lit_binary64_values
  have hstep : (Ripple.new binary64 x y (fin s) color).opacityStep
      = div binary64 (div binary64 (round64 (s / 10))
          (sub binary64 (round64 (s * 2)) (round64 (s * (8106479329266893 / 2 ^ 53)))))
          (fin 1) := by
    show div binary64 (div binary64 (div binary64 (fin s) (lit binary64 10))
      (sub binary64 (mul binary64 (fin s) (lit binary64 2))
        (mul binary64 (fin s) (lit binary64 (9 / 10))))) (lit binary64 1) = _
    rw [l1, l2, l10, l9]
    simp [div, mul, binary64]
  rw [hstep]
  obtain ⟨a, ha, ha0, -, -⟩ := round64_between (s / 10) s (by positivity) (by linarith) hs
  obtain ⟨mn, hmn, hmn0, hmns, -⟩ := round64_between (s * (8106479329266893 / 2 ^ 53)) s
    (by positivity) (by nlinarith) hs
  rw [ha, hmn, round64_two_mul s hs0 hs hhi]
  have hD : lt (fin 0) (sub binary64 (fin (s * 2)) (fin mn)) = true :=
    round64_pos_of_ge (s * 2 + -mn) s hs0 hs (by linarith)
  exact div_nonneg_fin _ (div_fin_nonneg a ha0 _ hD) 1 (by norm_num)

/-- In binary64 the opacity step of a `WaterRipple` spawned at a positive
double speed below `2^1022` is `>= 0`. -/
theorem waterRipple_step_nonneg_binary64 (x y : JSNum) (color : Color) (s : ℚ) (hs0 : 0 < s)
    (hs : round64 s = fin s) (hhi : s < 2 ^ (1022 : ℤ)) :
    le (fin 0) (WaterRipple.new binary64 x y (fin s) color).opacityStep = true := by
  obtain ⟨-, -, l2, -, -, -, l20, -, l32, -, l33⟩ := lit_binary64_values
  have hstep : (WaterRipple.new binary64 x y (fin s) color).opacityStep
      = div binary64 (div binary64 (fin (5944751508129055 / 2 ^ 54))
          (sub binary64 (round64 (s * 20)) (round64 (s * 2)))) (fin (3 / 2)) := by
    show div binary64 (div binary64 (lit binary64 (33 / 100))
      (sub binary64 (mul binary64 (fin s) (lit binary64 20))
        (mul binary64 (fin s) (lit binary64 2)))) (lit binary64 (3 / 2)) = _
    rw [l2, l20, l32, l33]
    rfl
  rw [hstep, round64_two_mul s hs0 hs hhi]
  have h4 := round64_four_mul s hs0 hs hhi
  have hmax := round64_mono (s * 4) (s * 20) (by linarith)
  rw [h4] at hmax
  have hD : lt (fin 0) (sub binary64 (round64 (s * 20)) (fin (s * 2))) = true := by
    cases hr : round64 (s * 20) with
    | fin M =>
      rw [hr] at hmax
      have hM : s * 4 ≤ M := by simpa [le] using hmax
      exact round64_pos_of_ge (M + -(s * 2)) (s * 2) (by linarith)
        (round64_two_mul s hs0 hs hhi) (by linarith)
    | pinf => rfl
    | ninf => rw [hr] at hmax; simp [le] at hmax
    | nan => exact absurd hr (round64_ne_nan _)
  exact div_nonneg_fin _ (div_fin_nonneg _ (by positivity) _ hD) (3 / 2) (by norm_num)

/-- In binary64 the opacity step of a `Flame` spawned at a normal double speed
(from `2^-1022` on) below `2^1022` is `>= 0`. -/
theorem flame_step_nonneg_binary64 (x y : JSNum) (color : Color) (s : ℚ)
    (hs : round64 s = fin s) (hlo : (2 : ℚ) ^ (-1022 : ℤ) ≤ s) (hhi : s < 2 ^ (1022 : ℤ)) :
    le (fin 0) (Flame.new binary64 x y (fin s) color).opacityStep = true := by
  have hs0 : 0 < s := lt_of_lt_of_le (two_zpow_pos _) hlo
  obtain ⟨-, -, l2, l4, l5, -, -, l52, -, -, -⟩ := lit_binary64_values
  have hstep : (Flame.new binary64 x y (fin s) color).opacityStep
      = div binary64 (div binary64 (round64 (s / 5))
          (sub binary64 (round64 (s * 4)) (round64 (s * (5 / 2))))) (fin 2) := by
    show div binary64 (div binary64 (div binary64 (fin s) (lit binary64 5))
      (sub binary64 (mul binary64 (fin s) (lit binary64 4))
        (mul binary64 (fin s) (lit binary64 (5 / 2))))) (lit binary64 2) = _
    rw [l2, l4, l5, l52]
    simp [div, mul, binary64]
  rw [hstep]
  have h4 := round64_four_mul s hs0 hs hhi
  obtain ⟨a, ha, ha0, -, -⟩ := round64_between (s / 5) s (by positivity) (by linarith) hs
  -- the double just below `4 * s`
  obtain ⟨m, e, hrep, hm0, hm, he, hnorm⟩ := double_repr s hs0 hs
  have hm52 := hnorm hlo
  have hmq : (2 : ℚ) ^ 52 ≤ m := by exact_mod_cast hm52
  have h4s : s * 4 < 2 ^ (1024 : ℤ) := by
    have : s * 4 < 2 ^ (1022 : ℤ) * 2 ^ (2 : ℤ) := by
      have h4 : (2 : ℚ) ^ (2 : ℤ) = 4 := by norm_num
      rw [h4]
      exact mul_lt_mul_of_pos_right hhi (by norm_num)
    rwa [two_zpow_mul] at this
  have hpow : (2 : ℚ) ^ (e + 2) = 2 ^ e * 4 := by
    rw [zpow_add₀ (by norm_num)]
    norm_num
  have hpe := two_zpow_pos e
  have hcast : ((m - 1 : ℕ) : ℚ) = (m : ℚ) - 1 := by
    rw [Nat.cast_sub hm0]
    simp
  have hgval : ((m - 1 : ℕ) : ℚ) * 2 ^ (e + 2) = s * 4 - 2 ^ e * 4 := by
    rw [hcast, hpow, hrep]
    ring
  have hg : round64 (((m - 1 : ℕ) : ℚ) * 2 ^ (e + 2)) = fin (((m - 1 : ℕ) : ℚ) * 2 ^ (e + 2)) :=
    round64_grid_pos (m - 1) (e + 2) (by omega) (by omega) (by omega)
      (by rw [hgval]; linarith)
  have hle : s * (5 / 2) ≤ ((m - 1 : ℕ) : ℚ) * 2 ^ (e + 2) := by
    rw [hgval, hrep]
    have : (8 : ℚ) ≤ 3 * m := by
      have : (2 : ℚ) ^ 52 ≥ 8 := by norm_num
      linarith
    nlinarith
  obtain ⟨z, hz, -, hzle, -⟩ := round64_between (s * (5 / 2)) _ (by positivity) hle hg
  rw [h4, hz, ha]
  have hq1 : round64 ((1 : ℕ) * (2 : ℚ) ^ (e + 2)) = fin ((1 : ℕ) * (2 : ℚ) ^ (e + 2)) :=
    round64_grid_pos 1 (e + 2) (by norm_num) (by norm_num) (by omega) (by
      rw [Nat.cast_one, one_mul, hpow]
      have : 2 ^ e * 4 ≤ s * 4 := by
        rw [hrep]
        have : (1 : ℚ) ≤ m := by exact_mod_cast hm0
        nlinarith
      linarith)
  rw [Nat.cast_one, one_mul] at hq1
  have hD : lt (fin 0) (sub binary64 (fin (s * 4)) (fin z)) = true :=
    round64_pos_of_ge (s * 4 + -z) _ (two_zpow_pos (e + 2)) hq1 (by
      rw [hgval] at hzle
      rw [hpow]
      linarith)
  exact div_nonneg_fin _ (div_fin_nonneg a ha0 _ hD) 2 (by norm_num)

/-- In binary64 the opacity step fixed by every constructor at a normal double
speed (from `2^-1022` on) below `2^1022` is `>= 0`. -/
theorem create_step_nonneg_binary64 (cls : Cls) (x y : JSNum) (color : Color) (s : ℚ)
    (hs : round64 s = fin s) (hlo : (2 : ℚ) ^ (-1022 : ℤ) ≤ s) (hhi : s < 2 ^ (1022 : ℤ)) :
    le (fin 0) (Effect.create binary64 cls x y (fin s) color).opacityStep = true := by
  have hs0 : 0 < s := lt_of_lt_of_le (two_zpow_pos _) hlo
  cases cls
  · exact ripple_step_nonneg_binary64 x y color s hs0 hs hhi
  · exact flame_step_nonneg_binary64 x y color s hs hlo hhi
  · exact waterRipple_step_nonneg_binary64 x y color s hs0 hs hhi

/-! ## Lifetimes in binary64: the rounding of the constructor quotients

The opacity step of a `Ripple` is a rounded quotient close to `1/11`, that of a
`Flame` one close to `1/15`.  The number of updates an effect lives depends on
the side of the quotient the rounded step falls on, so the error of every
operation of the constructor is followed on the grid of the speed: a speed `s`
in the binade `[2^E, 2^(E+1))` is a whole number `k` of quanta `g = 2^(E-52)`. -/

/-- The rounding of a positive `q < 2^(e+1)` with `-1022 <= e <= 1022`: a
significand `n` times the quantum `2^Q`, where `n` is within `1/2` of `q / 2^Q`
and `Q <= e - 52`, with equality when `2^e <= q`. -/
theorem round64_pos_spec (q : ℚ) (e : ℤ) (hq0 : 0 < q) (hq : q < 2 ^ (e + 1))
    (he : -1022 ≤ e) (he2 : e ≤ 1022) :
    ∃ (n : ℕ) (Q : ℤ), round64 q = fin ((n : ℚ) * 2 ^ Q) ∧ |(n : ℚ) - q / 2 ^ Q| ≤ 1 / 2 ∧
      Q ≤ e - 52 ∧ ((2 : ℚ) ^ e ≤ q → Q = e - 52) := by
  have hn := natAbs_num_pos q hq0.ne'
  have hd := q.den_pos
  have hr : ((q.num.natAbs : ℕ) : ℚ) / q.den = q := by
    rw [natAbs_div_den, abs_of_pos hq0]
  obtain ⟨l1, l2⟩ := ilog2_spec _ _ hn hd
  rw [hr] at l1 l2
  have hil : ilog2 q.num.natAbs q.den < e + 1 :=
    (zpow_lt_zpow_iff_right₀ (by norm_num : (1 : ℚ) < 2)).mp (lt_of_le_of_lt l1 hq)
  have hQ : quantum q.num.natAbs q.den ≤ e - 52 := by
    unfold quantum
    omega
  have hspec := (mantissa_spec q.num.natAbs q.den hd).1
  rw [hr] at hspec
  have hQpos := two_zpow_pos (quantum q.num.natAbs q.den)
  have hpow : (2 : ℚ) ^ quantum q.num.natAbs q.den ≤ 2 ^ (e - 52) :=
    zpow_le_zpow_right₀ (by norm_num) hQ
  have hsplit : (2 : ℚ) ^ (e + 1) = 2 ^ (e - 52) * 2 ^ (53 : ℤ) := by
    rw [two_zpow_mul]
    congr 1
    ring
  have h53 : (2 : ℚ) ^ (53 : ℤ) = 9007199254740992 := by norm_num
  have hmagle : magnitude q ≤ q + 2 ^ (e - 52) / 2 := by
    rw [magnitude_eq]
    have h1 := (abs_le.mp hspec).2
    have h2 : (mantissa q.num.natAbs q.den : ℚ) ≤ q / 2 ^ quantum q.num.natAbs q.den + 1 / 2 := by
      linarith
    calc (mantissa q.num.natAbs q.den : ℚ) * 2 ^ quantum q.num.natAbs q.den
        ≤ (q / 2 ^ quantum q.num.natAbs q.den + 1 / 2) * 2 ^ quantum q.num.natAbs q.den :=
          mul_le_mul_of_nonneg_right h2 hQpos.le
      _ = q + 2 ^ quantum q.num.natAbs q.den / 2 := by
          field_simp
          ring
      _ ≤ q + 2 ^ (e - 52) / 2 := by linarith
  have hno : overflows q = false := by
    by_contra h
    have h1 : overflows q = true := by simpa using h
    have h2 := (overflows_iff q hq0.ne').mp h1
    have h3 : (2 : ℚ) ^ (e + 1) ≤ 2 ^ (1023 : ℤ) :=
      zpow_le_zpow_right₀ (by norm_num) (by omega)
    have h4 : (2 : ℚ) ^ (1024 : ℤ) = 2 ^ (1023 : ℤ) * 2 := by
      rw [show (1024 : ℤ) = 1023 + 1 by norm_num, zpow_add₀ (by norm_num)]
      norm_num
    have h5 := two_zpow_pos (e - 52)
    have h6 := two_zpow_pos (1023 : ℤ)
    rw [hsplit, h53] at h3
    linarith
  refine ⟨mantissa q.num.natAbs q.den, quantum q.num.natAbs q.den, ?_, hspec, hQ, ?_⟩
  · unfold round64
    rw [if_neg hq0.ne', if_pos hq0, hno, magnitude_eq]
    simp
  · intro hlo
    have h1 : e < ilog2 q.num.natAbs q.den + 1 :=
      (zpow_lt_zpow_iff_right₀ (by norm_num : (1 : ℚ) < 2)).mp (lt_of_le_of_lt hlo l2)
    unfold quantum
    omega

/-- The rounding error of binary64 below `2^53` quanta `g = 2^(e-52)`: at most
half a quantum. -/
theorem round64_error (q g : ℚ) (e : ℤ) (hg : g = 2 ^ (e - 52)) (he : -1022 ≤ e)
    (he2 : e ≤ 1022) (hq : |q| < 9007199254740992 * g) :
    ∃ v, round64 q = fin v ∧ |v - q| ≤ g / 2 := by
  have hg0 : 0 < g := by rw [hg]; exact two_zpow_pos _
  have hsplit : (2 : ℚ) ^ (e + 1) = 9007199254740992 * g := by
    rw [hg, show e + 1 = (53 : ℤ) + (e - 52) by ring, ← two_zpow_mul]
    norm_num
  have key : ∀ p : ℚ, 0 < p → p < 9007199254740992 * g →
      ∃ v, round64 p = fin v ∧ |v - p| ≤ g / 2 := by
    intro p hp0 hp
    obtain ⟨n, Q, hv, hspec, hQ, -⟩ := round64_pos_spec p e hp0 (by rw [hsplit]; exact hp) he he2
    refine ⟨_, hv, ?_⟩
    have hQpos := two_zpow_pos Q
    have hpow : (2 : ℚ) ^ Q ≤ g := by
      rw [hg]
      exact zpow_le_zpow_right₀ (by norm_num) hQ
    have hrw : (n : ℚ) * 2 ^ Q - p = ((n : ℚ) - p / 2 ^ Q) * 2 ^ Q := by
      field_simp
    rw [hrw, abs_mul, abs_of_pos hQpos]
    calc |(n : ℚ) - p / 2 ^ Q| * 2 ^ Q ≤ 1 / 2 * 2 ^ Q :=
          mul_le_mul_of_nonneg_right hspec hQpos.le
      _ ≤ g / 2 := by linarith
  rcases lt_trichotomy q 0 with h | h | h
  · obtain ⟨v, hv, hvq⟩ := key (-q) (by linarith) (by rwa [abs_of_neg h] at hq)
    refine ⟨-v, ?_, ?_⟩
    · have := round64_neg (-q)
      rw [neg_neg, hv] at this
      exact this
    · rw [show -v - q = -(v - -q) by ring, abs_neg]
      exact hvq
  · subst h
    exact ⟨0, round64_zero, by simp; linarith⟩
  · exact key q h (by rwa [abs_of_pos h] at hq)

/-- The rounding of binary64 inside a binade: for `q` between `2^52` and `2^53`
quanta `g = 2^(e-52)`, a whole number `n` of quanta within half a quantum of
`q`. -/
theorem round64_binade (q g : ℚ) (e : ℤ) (hg : g = 2 ^ (e - 52)) (he : -1022 ≤ e)
    (he2 : e ≤ 1022) (hlo : 4503599627370496 * g ≤ q) (hhi : q < 9007199254740992 * g) :
    ∃ n : ℕ, round64 q = fin ((n : ℚ) * g) ∧ |(n : ℚ) * g - q| ≤ g / 2 := by
  have hg0 : 0 < g := by rw [hg]; exact two_zpow_pos _
  have hsplit : (2 : ℚ) ^ (e + 1) = 9007199254740992 * g := by
    rw [hg, show e + 1 = (53 : ℤ) + (e - 52) by ring, ← two_zpow_mul]
    norm_num
  have hsplit2 : (2 : ℚ) ^ e = 4503599627370496 * g := by
    rw [hg, show e = (52 : ℤ) + (e - 52) by ring, ← two_zpow_mul]
    norm_num
  obtain ⟨n, Q, hv, hspec, -, hQ⟩ := round64_pos_spec q e (by linarith)
    (by rw [hsplit]; exact hhi) he he2
  have hQe := hQ (by rw [hsplit2]; exact hlo)
  rw [hQe, ← hg] at hv hspec
  refine ⟨n, hv, ?_⟩
  have hrw : (n : ℚ) * g - q = ((n : ℚ) - q / g) * g := by
    field_simp
  rw [hrw, abs_mul, abs_of_pos hg0]
  calc |(n : ℚ) - q / g| * g ≤ 1 / 2 * g := mul_le_mul_of_nonneg_right hspec hg0.le
    _ = g / 2 := by ring


/-- The quantum `j` binades away from `g = 2^(E-52)`. -/
theorem grid_shift (E j : ℤ) : (2 : ℚ) ^ (E + j - 52) = 2 ^ (E - 52) * 2 ^ j := by
  rw [two_zpow_mul]
  congr 1
  ring

/-- An integer below an integer bound, read off a comparison of multiples of a
positive `g`. -/
theorem int_lt_of_mul_lt (z c : ℤ) (g : ℚ) (hg : 0 < g) (h : (z : ℚ) * g < (c : ℚ) * g) :
    z < c := by
  exact_mod_cast lt_of_mul_lt_mul_right h hg.le

/-- A positive normal double `s` below `2^1019`: a whole number `k` of quanta
`g = 2^(E-52)`, between `2^52` and `2^53` of them. -/
theorem speed_grid (s : ℚ) (hs : round64 s = fin s) (hlo : (2 : ℚ) ^ (-1018 : ℤ) ≤ s)
    (hhi : s < 2 ^ (1019 : ℤ)) :
    ∃ (E : ℤ) (g : ℚ) (k : ℕ), g = 2 ^ (E - 52) ∧ -1018 ≤ E ∧ E ≤ 1018 ∧ s = (k : ℚ) * g ∧
      4503599627370496 * g ≤ s ∧ s < 9007199254740992 * g := by
  have hs0 : 0 < s := lt_of_lt_of_le (two_zpow_pos _) hlo
  have hn := natAbs_num_pos s hs0.ne'
  have hd := s.den_pos
  have hr : ((s.num.natAbs : ℕ) : ℚ) / s.den = s := by
    rw [natAbs_div_den, abs_of_pos hs0]
  obtain ⟨l1, l2⟩ := ilog2_spec _ _ hn hd
  rw [hr] at l1 l2
  have h1 : (-1018 : ℤ) < ilog2 s.num.natAbs s.den + 1 :=
    (zpow_lt_zpow_iff_right₀ (by norm_num : (1 : ℚ) < 2)).mp (lt_of_le_of_lt hlo l2)
  have h2 : ilog2 s.num.natAbs s.den < 1019 :=
    (zpow_lt_zpow_iff_right₀ (by norm_num : (1 : ℚ) < 2)).mp (lt_of_le_of_lt l1 hhi)
  have e1 : (2 : ℚ) ^ (ilog2 s.num.natAbs s.den + 1)
      = 9007199254740992 * 2 ^ (ilog2 s.num.natAbs s.den - 52) := by
    rw [show ilog2 s.num.natAbs s.den + 1 = (53 : ℤ) + (ilog2 s.num.natAbs s.den - 52) by ring,
      ← two_zpow_mul]
    norm_num
  have e2 : (2 : ℚ) ^ (ilog2 s.num.natAbs s.den)
      = 4503599627370496 * 2 ^ (ilog2 s.num.natAbs s.den - 52) := by
    rw [show (2 : ℚ) ^ (ilog2 s.num.natAbs s.den)
        = 2 ^ ((52 : ℤ) + (ilog2 s.num.natAbs s.den - 52)) by congr 1; ring, ← two_zpow_mul]
    norm_num
  rw [e1] at l2
  rw [e2] at l1
  obtain ⟨k, hv, -⟩ := round64_binade s _ (ilog2 s.num.natAbs s.den) rfl (by omega) (by omega)
    l1 l2
  rw [hs] at hv
  exact ⟨_, _, k, rfl, by omega, by omega, JSNum.fin.inj hv, l1, l2⟩

/-- The animation speed `speed / 10` of a `Ripple` in binary64, for a speed
`s` of `k` quanta `g`: a whole number of sixteenths of `g` within `g / 32` of
`s / 10` when `s / 10` is below `2^49 g`, and a whole number of eighths of `g`
within `g / 20` of it otherwise. -/
theorem tenth_binary64 (s g : ℚ) (E : ℤ) (k : ℕ) (hg : g = 2 ^ (E - 52)) (hE : -1018 ≤ E)
    (hE2 : E ≤ 1018) (hk : s = (k : ℚ) * g) (hlo : 4503599627370496 * g ≤ s)
    (hhi : s < 9007199254740992 * g) :
    ∃ (A : ℚ) (a : ℕ), round64 (s / 10) = fin A ∧
      ((s < 5629499534213120 * g ∧ A = (a : ℚ) * (g / 16) ∧ |A - s / 10| ≤ g / 32) ∨
       (5629499534213120 * g ≤ s ∧ A = (a : ℚ) * (g / 8) ∧ |A - s / 10| ≤ g / 20)) := by
  have hg0 : 0 < g := by rw [hg]; exact two_zpow_pos _
  by_cases h : s < 5629499534213120 * g
  · have hgA : g / 16 = 2 ^ (E + (-4) - 52) := by
      rw [grid_shift, ← hg]
      norm_num
      ring
    obtain ⟨a, hv, herr⟩ := round64_binade (s / 10) (g / 16) (E + (-4)) hgA (by omega)
      (by omega) (by linarith) (by linarith)
    refine ⟨_, a, hv, Or.inl ⟨h, rfl, ?_⟩⟩
    rw [show g / 32 = g / 16 / 2 by ring]
    exact herr
  · push_neg at h
    have hgA : g / 8 = 2 ^ (E + (-3) - 52) := by
      rw [grid_shift, ← hg]
      norm_num
      ring
    obtain ⟨a, hv, herr⟩ := round64_binade (s / 10) (g / 8) (E + (-3)) hgA (by omega)
      (by omega) (by linarith) (by linarith)
    refine ⟨_, a, hv, Or.inr ⟨h, rfl, ?_⟩⟩
    rw [hk] at herr ⊢
    obtain ⟨h1, h2⟩ := abs_le.mp herr
    have i1 : 5 * (a : ℤ) - 4 * (k : ℤ) < 3 :=
      int_lt_of_mul_lt _ 3 g hg0 (by push_cast; linarith)
    have i2 : -3 < 5 * (a : ℤ) - 4 * (k : ℤ) := by
      have := int_lt_of_mul_lt (4 * (k : ℤ) - 5 * (a : ℤ)) 3 g hg0 (by push_cast; linarith)
      omega
    have i3 : 5 * (a : ℤ) - 4 * (k : ℤ) ≤ 2 := by omega
    have i4 : -2 ≤ 5 * (a : ℤ) - 4 * (k : ℤ) := by omega
    have q1 : 5 * (a : ℚ) - 4 * (k : ℚ) ≤ 2 := by exact_mod_cast i3
    have q2 : (-2 : ℚ) ≤ 5 * (a : ℚ) - 4 * (k : ℚ) := by exact_mod_cast i4
    have q1g := mul_le_mul_of_nonneg_right q1 hg0.le
    have q2g := mul_le_mul_of_nonneg_right q2 hg0.le
    rw [abs_le]
    constructor <;> linarith

/-- The `minSize` of a `Ripple` in binary64, for a speed `s` of `k` quanta `g`:
the double nearest to `s * 0.9` (`0.9` as a double), a whole number of halves
of `g` within `g / 4`, or a whole number of `g` within `g / 2`. -/
theorem minSize_binary64 (s g : ℚ) (E : ℤ) (hg : g = 2 ^ (E - 52)) (hE : -1018 ≤ E)
    (hE2 : E ≤ 1018) (hlo : 4503599627370496 * g ≤ s) (hhi : s < 9007199254740992 * g) :
    ∃ (M : ℚ) (m : ℕ), round64 (s * (8106479329266893 / 2 ^ 53)) = fin M ∧
      ((s * (8106479329266893 / 2 ^ 53) < 4503599627370496 * g ∧ M = (m : ℚ) * (g / 2) ∧
          |M - s * (8106479329266893 / 2 ^ 53)| ≤ g / 4) ∨
       (4503599627370496 * g ≤ s * (8106479329266893 / 2 ^ 53) ∧ M = (m : ℚ) * g ∧
          |M - s * (8106479329266893 / 2 ^ 53)| ≤ g / 2)) := by
  have hg0 : 0 < g := by rw [hg]; exact two_zpow_pos _
  by_cases h : s * (8106479329266893 / 2 ^ 53) < 4503599627370496 * g
  · have hgA : g / 2 = 2 ^ (E + (-1) - 52) := by
      rw [grid_shift, ← hg]
      norm_num
      ring
    obtain ⟨m, hv, herr⟩ := round64_binade (s * (8106479329266893 / 2 ^ 53)) (g / 2) (E + (-1))
      hgA (by omega) (by omega) (by linarith) (by linarith)
    refine ⟨_, m, hv, Or.inl ⟨h, rfl, ?_⟩⟩
    rw [show g / 4 = g / 2 / 2 by ring]
    exact herr
  · push_neg at h
    obtain ⟨m, hv, herr⟩ := round64_binade (s * (8106479329266893 / 2 ^ 53)) g E hg (by omega)
      (by omega) h (by linarith)
    exact ⟨_, m, hv, Or.inr ⟨h, rfl, herr⟩⟩

/-- The quotient behind the opacity step of a `Ripple` in binary64, for a speed
`s` of `k` quanta `g`: the animation speed `A`, the `minSize` `M` and the
denominator `D = size - minSize` are finite and close to `s / 10`, `0.9 s` and
`1.1 s`, and `A / D` lies above the midpoint below `(2^56 - 9) / (11 * 2^56)`
and not above `(2^56 + 46) / (11 * 2^56)`. -/
theorem ripple_quotient (s g : ℚ) (E : ℤ) (k : ℕ) (hg : g = 2 ^ (E - 52)) (hE : -1018 ≤ E)
    (hE2 : E ≤ 1018) (hk : s = (k : ℚ) * g) (hlo : 4503599627370496 * g ≤ s)
    (hhi : s < 9007199254740992 * g) :
    ∃ A M D : ℚ, round64 (s / 10) = fin A ∧
      round64 (s * (8106479329266893 / 2 ^ 53)) = fin M ∧
      round64 (s * 2 + -M) = fin D ∧
      |A - s / 10| ≤ g / 16 ∧ |M - s * (9 / 10)| ≤ g ∧ |D - s * (11 / 10)| ≤ 2 * g ∧
      144115188075855843 * D < 1585267068834414592 * A ∧
      72057594037927936 * A ≤ 6550690367084362 * D := by
  have hg0 : 0 < g := by rw [hg]; exact two_zpow_pos _
  obtain ⟨A, a, hA, hAc⟩ := tenth_binary64 s g E k hg hE hE2 hk hlo hhi
  obtain ⟨M, m, hM, hMc⟩ := minSize_binary64 s g E hg hE hE2 hlo hhi
  have hg2 : g * 2 = 2 ^ (E + 1 - 52) := by
    rw [grid_shift, ← hg]
    norm_num
  rcases hAc with ⟨hA1, hAg, hAe⟩ | ⟨hA2, hAg, hAe⟩ <;>
    rcases hMc with ⟨hM1, hMg, hMe⟩ | ⟨hM2, hMg, hMe⟩ <;>
    obtain ⟨hAe1, hAe2⟩ := abs_le.mp hAe <;>
    obtain ⟨hMe1, hMe2⟩ := abs_le.mp hMe
  · -- `s < 1.25 * 2^52 g`, `minSize` on the half grid
    have hD : s * 2 + -M < 9007199254740992 * g := by linarith
    obtain ⟨dn, hDv, hDerr⟩ := round64_binade (s * 2 + -M) g E hg (by omega) (by omega)
      (by linarith) hD
    obtain ⟨hDe1, hDe2⟩ := abs_le.mp hDerr
    have i1 : 16 * (dn : ℤ) - 11 * (a : ℤ) < 16 :=
      int_lt_of_mul_lt _ 16 g hg0 (by push_cast; rw [hAg] at hAe1; linarith)
    have i2 : 16 * (dn : ℤ) - 11 * (a : ℤ) ≤ 15 := by omega
    have q1 : 16 * (dn : ℚ) - 11 * (a : ℚ) ≤ 15 := by exact_mod_cast i2
    have q1g := mul_le_mul_of_nonneg_right q1 hg0.le
    refine ⟨A, M, _, hA, hM, hDv, ?_, ?_, ?_, ?_, ?_⟩
    · rw [abs_le]; constructor <;> linarith
    · rw [abs_le]; constructor <;> linarith
    · rw [abs_le]; constructor <;> linarith
    · rw [hAg]; linarith
    · linarith
  · -- `s < 1.25 * 2^52 g`, `minSize` on the grid of `s`
    have hD : s * 2 + -M < 9007199254740992 * g := by linarith
    obtain ⟨dn, hDv, hDerr⟩ := round64_binade (s * 2 + -M) g E hg (by omega) (by omega)
      (by linarith) hD
    obtain ⟨hDe1, hDe2⟩ := abs_le.mp hDerr
    rw [hk, hMg] at hDe1 hDe2
    have i1 : (dn : ℤ) - (2 * (k : ℤ) - (m : ℤ)) < 1 :=
      int_lt_of_mul_lt _ 1 g hg0 (by push_cast; linarith)
    have i2 : (2 * (k : ℤ) - (m : ℤ)) - (dn : ℤ) < 1 :=
      int_lt_of_mul_lt _ 1 g hg0 (by push_cast; linarith)
    have i3 : (dn : ℤ) = 2 * (k : ℤ) - (m : ℤ) := by omega
    have q1 : (dn : ℚ) = 2 * (k : ℚ) - (m : ℚ) := by exact_mod_cast i3
    have hDx : (dn : ℚ) * g = s * 2 + -M := by rw [q1, hk, hMg]; ring
    rw [hDx] at hDv
    refine ⟨A, M, _, hA, hM, hDv, ?_, ?_, ?_, ?_, ?_⟩
    · rw [abs_le]; constructor <;> linarith
    · rw [abs_le]; constructor <;> linarith
    · rw [abs_le]; constructor <;> linarith
    · linarith
    · linarith
  · exfalso
    linarith
  · by_cases hD : s * 2 + -M < 9007199254740992 * g
    · obtain ⟨dn, hDv, hDerr⟩ := round64_binade (s * 2 + -M) g E hg (by omega) (by omega)
        (by linarith) hD
      obtain ⟨hDe1, hDe2⟩ := abs_le.mp hDerr
      rw [hk, hMg] at hDe1 hDe2
      have i1 : (dn : ℤ) - (2 * (k : ℤ) - (m : ℤ)) < 1 :=
        int_lt_of_mul_lt _ 1 g hg0 (by push_cast; linarith)
      have i2 : (2 * (k : ℤ) - (m : ℤ)) - (dn : ℤ) < 1 :=
        int_lt_of_mul_lt _ 1 g hg0 (by push_cast; linarith)
      have i3 : (dn : ℤ) = 2 * (k : ℤ) - (m : ℤ) := by omega
      have q1 : (dn : ℚ) = 2 * (k : ℚ) - (m : ℚ) := by exact_mod_cast i3
      have hDx : (dn : ℚ) * g = s * 2 + -M := by rw [q1, hk, hMg]; ring
      rw [hDx] at hDv
      refine ⟨A, M, _, hA, hM, hDv, ?_, ?_, ?_, ?_, ?_⟩
      · rw [abs_le]; constructor <;> linarith
      · rw [abs_le]; constructor <;> linarith
      · rw [abs_le]; constructor <;> linarith
      · linarith
      · linarith
    · push_neg at hD
      obtain ⟨dn, hDv, hDerr⟩ := round64_binade (s * 2 + -M) (g * 2) (E + 1) hg2 (by omega)
        (by omega) (by linarith) (by linarith)
      obtain ⟨hDe1, hDe2⟩ := abs_le.mp hDerr
      have i1 : 16 * (dn : ℤ) - 11 * (a : ℤ) < 15 :=
        int_lt_of_mul_lt _ 15 g hg0 (by push_cast; rw [hAg] at hAe1; linarith)
      have i2 : 16 * (dn : ℤ) - 11 * (a : ℤ) ≤ 14 := by omega
      have q1 : 16 * (dn : ℚ) - 11 * (a : ℚ) ≤ 14 := by exact_mod_cast i2
      have q1g := mul_le_mul_of_nonneg_right q1 hg0.le
      refine ⟨A, M, _, hA, hM, hDv, ?_, ?_, ?_, ?_, ?_⟩
      · rw [abs_le]; constructor <;> linarith
      · rw [abs_le]; constructor <;> linarith
      · rw [abs_le]; constructor <;> linarith
      · rw [hAg]; linarith
      · linarith

/-- The opacity after `n` updates, as the iterated subtraction of the step. -/
theorem iterate_opacity_eq (r : Rounding) (e : Effect) (n : Nat) :
    ((Effect.callUpdate r)^[n] e).opacity = (fun o => sub r o e.opacityStep)^[n] e.opacity := by
  induction n with
  | zero => rfl
  | succ n ih =>
    rw [Function.iterate_succ_apply', Function.iterate_succ_apply', callUpdate_opacity,
      iterate_opacityStep, ih]

/-- The comparison `<=` of JavaScript is transitive. -/
theorem le_trans_js (a b c : JSNum) (h1 : le a b = true) (h2 : le b c = true) :
    le a c = true := by
  cases a <;> cases b <;> cases c <;> simp [le] at h1 h2 ⊢
  exact h1.trans h2

/-- A number `<=` a number that is `<= 0` is `<= 0`; a number `>=` a number
that is `> 0` is not `<= 0`. -/
theorem not_le_zero_of_ge (a b : JSNum) (h1 : le a b = true) (h2 : lt (fin 0) a = true) :
    le b (fin 0) = false := by
  cases a <;> cases b <;> simp [le, lt] at h1 h2 ⊢
  linarith

/-- In binary64, subtracting a larger step from a smaller value gives a smaller
value. -/
theorem sub_step_mono (o1 o2 : JSNum) (d1 d2 : ℚ) (ho : le o1 o2 = true) (hd : d2 ≤ d1) :
    le (sub binary64 o1 (fin d1)) (sub binary64 o2 (fin d2)) = true := by
  cases o1 with
  | fin a =>
    cases o2 with
    | fin b =>
      have hab : a ≤ b := by simpa [le] using ho
      exact round64_mono (a + -d1) (b + -d2) (by linarith)
    | pinf =>
      show le (round64 (a + -d1)) pinf = true
      cases hr : round64 (a + -d1) with
      | nan => exact absurd hr (round64_ne_nan _)
      | _ => rfl
    | ninf => simp [le] at ho
    | nan => simp [le] at ho
  | pinf =>
    cases o2 with
    | pinf => rfl
    | _ => simp [le] at ho
  | ninf =>
    cases o2 with
    | fin b =>
      show le ninf (round64 (b + -d2)) = true
      cases hr : round64 (b + -d2) with
      | nan => exact absurd hr (round64_ne_nan _)
      | _ => rfl
    | pinf => rfl
    | ninf => rfl
    | nan => simp [le] at ho
  | nan => simp [le] at ho

/-- In binary64 the opacity after `n` updates does not increase when the step
grows. -/
theorem sub_iterate_mono (d1 d2 : ℚ) (hd : d2 ≤ d1) (n : Nat) (o1 o2 : JSNum)
    (ho : le o1 o2 = true) :
    le ((fun o => sub binary64 o (fin d1))^[n] o1) ((fun o => sub binary64 o (fin d2))^[n] o2)
      = true := by
  induction n with
  | zero => exact ho
  | succ n ih =>
    rw [Function.iterate_succ_apply', Function.iterate_succ_apply']
    exact sub_step_mono _ _ d1 d2 ih hd

/-- In binary64, an effect of opacity `1` whose opacity step lies between the
doubles `dlo` and `dhi` is live before its update `n + 1` when the step `dhi`
leaves a positive opacity after `n` updates, and not live after `m` updates
when the step `dlo` leaves an opacity `<= 0` after `m`. -/
theorem lifetime_of_step_bounds (e : Effect) (d dlo dhi : ℚ) (hd : e.opacityStep = fin d)
    (ho : e.opacity = fin 1) (h1 : dlo ≤ d) (h2 : d ≤ dhi) (N : Nat)
    (hlive : ∀ n, n ≤ N →
      lt (fin 0) ((fun o => sub binary64 o (fin dhi))^[n] (fin 1)) = true)
    (hdead : le ((fun o => sub binary64 o (fin dlo))^[N + 1] (fin 1)) (fin 0) = true) :
    (∀ n, n ≤ N → le ((Effect.callUpdate binary64)^[n] e).opacity (fin 0) = false) ∧
    le ((Effect.callUpdate binary64)^[N + 1] e).opacity (fin 0) = true := by
  constructor
  · intro n hn
    rw [iterate_opacity_eq, hd, ho]
    exact not_le_zero_of_ge _ _ (sub_iterate_mono dhi d h2 n (fin 1) (fin 1) (by simp [le]))
      (hlive n hn)
  · rw [iterate_opacity_eq, hd, ho]
    exact le_trans_js _ _ _ (sub_iterate_mono d dlo h1 (N + 1) (fin 1) (fin 1) (by simp [le]))
      hdead

/-- The opacity steps at the ends of the range of a `Ripple` step: the larger
leaves a positive opacity after up to 10 updates, the smaller an opacity `<= 0`
after 11. -/
theorem ripple_step_ends :
    (∀ n, n ≤ 10 → lt (fin 0)
      ((fun o => sub binary64 o (fin (6550690367084362 / 2 ^ 56)))^[n] (fin 1)) = true) ∧
    le ((fun o => sub binary64 o (fin (6550690367084357 / 2 ^ 56)))^[10 + 1] (fin 1)) (fin 0)
      = true := by
  constructor
  · decide!
  · decide!

/-- The opacity steps at the ends of the range of a `Flame` step: the larger
leaves a positive opacity after up to 15 updates, the smaller an opacity `<= 0`
after 16. -/
theorem flame_step_ends :
    (∀ n, n ≤ 15 → lt (fin 0)
      ((fun o => sub binary64 o (fin (4803839602528530 / 2 ^ 56)))^[n] (fin 1)) = true) ∧
    le ((fun o => sub binary64 o (fin (4803839602528525 / 2 ^ 56)))^[15 + 1] (fin 1)) (fin 0)
      = true := by
  constructor
  · decide!
  · decide!

/-- The rounding of a quotient in the binade of `1/16`: not below the double
`nl / 2^56` when the quotient lies above the midpoint under it. -/
theorem round64_sixteenth (q : ℚ) (nl : ℕ) (hlo : 1 / 16 ≤ q) (hhi : q < 1 / 8)
    (hmid : ((nl : ℚ) - 1 / 2) / 2 ^ 56 < q) :
    ∃ d, round64 q = fin d ∧ (nl : ℚ) / 2 ^ 56 ≤ d := by
  have hg : (1 : ℚ) / 2 ^ 56 = 2 ^ ((-4 : ℤ) - 52) := by norm_num
  obtain ⟨n, hv, herr⟩ := round64_binade q (1 / 2 ^ 56) (-4) hg (by norm_num) (by norm_num)
    (by norm_num; linarith) (by norm_num; linarith)
  refine ⟨_, hv, ?_⟩
  obtain ⟨h1, h2⟩ := abs_le.mp herr
  have i1 : (nl : ℤ) - 1 < (n : ℤ) :=
    int_lt_of_mul_lt _ _ (1 / 2 ^ 56) (by norm_num) (by push_cast; linarith)
  have i2 : (nl : ℤ) ≤ (n : ℤ) := by omega
  have q1 : (nl : ℚ) ≤ (n : ℚ) := by exact_mod_cast i2
  have := mul_le_mul_of_nonneg_right q1 (by norm_num : (0 : ℚ) ≤ 1 / 2 ^ 56)
  linarith

/-- The rounding of a quotient in the binade of `1/8`: not above the double
`nh / 2^55` when the quotient lies below the midpoint over it. -/
theorem round64_eighth (q : ℚ) (nh : ℕ) (hlo : 1 / 8 ≤ q) (hhi : q < 1 / 4)
    (hmid : q < ((nh : ℚ) + 1 / 2) / 2 ^ 55) :
    ∃ (n : ℕ), round64 q = fin ((n : ℚ) / 2 ^ 55) ∧ n ≤ nh ∧ 2 ^ 52 ≤ n := by
  have hg : (1 : ℚ) / 2 ^ 55 = 2 ^ ((-3 : ℤ) - 52) := by norm_num
  obtain ⟨n, hv, herr⟩ := round64_binade q (1 / 2 ^ 55) (-3) hg (by norm_num) (by norm_num)
    (by norm_num; linarith) (by norm_num; linarith)
  rw [show (n : ℚ) * (1 / 2 ^ 55) = (n : ℚ) / 2 ^ 55 by ring] at hv
  refine ⟨n, hv, ?_, ?_⟩
  · obtain ⟨h1, h2⟩ := abs_le.mp herr
    have i1 : (n : ℤ) < (nh : ℤ) + 1 :=
      int_lt_of_mul_lt _ _ (1 / 2 ^ 55) (by norm_num) (by push_cast; linarith)
    omega
  · obtain ⟨h1, h2⟩ := abs_le.mp herr
    have i1 : ((2 ^ 52 - 1 : ℕ) : ℤ) < (n : ℤ) :=
      int_lt_of_mul_lt _ _ (1 / 2 ^ 55) (by norm_num) (by push_cast; linarith)
    omega

/-- The fields a `Ripple` is constructed with in binary64 at a normal double
speed `s` between `2^-1018` and `2^1019`, with `g` the quantum of `s`: size
`2 s`, a `minSize` within `g` of `0.9 s`, an animation speed within `g / 16` of
`s / 10`, opacity `1`, and an opacity step that is a double between
`(2^56 - 9) / (11 * 2^56)` and `(2^56 + 46) / (11 * 2^56)`. -/
theorem ripple_new_grid (x y : JSNum) (color : Color) (s : ℚ) (hs : round64 s = fin s)
    (hlo : (2 : ℚ) ^ (-1018 : ℤ) ≤ s) (hhi : s < 2 ^ (1019 : ℤ)) :
    ∃ (E : ℤ) (g A M d : ℚ), g = 2 ^ (E - 52) ∧ -1018 ≤ E ∧ E ≤ 1018 ∧
      4503599627370496 * g ≤ s ∧ s < 9007199254740992 * g ∧
      (Ripple.new binary64 x y (fin s) color).size = fin (s * 2) ∧
      (Ripple.new binary64 x y (fin s) color).minSize = fin M ∧
      (Ripple.new binary64 x y (fin s) color).animationSpeed = fin A ∧
      (Ripple.new binary64 x y (fin s) color).opacityStep = fin d ∧
      (Ripple.new binary64 x y (fin s) color).opacity = fin 1 ∧
      |A - s / 10| ≤ g / 16 ∧ |M - s * (9 / 10)| ≤ g ∧ round64 M = fin M ∧
      6550690367084357 / 2 ^ 56 ≤ d ∧ d ≤ 6550690367084362 / 2 ^ 56 := by
  have hs0 : 0 < s := lt_of_lt_of_le (two_zpow_pos _) hlo
  obtain ⟨E, g, k, hg, hE, hE2, hk, hlo', hhi'⟩ := speed_grid s hs hlo hhi
  have hg0 : 0 < g := by rw [hg]; exact two_zpow_pos _
  obtain ⟨A, M, D, hA, hM, hD, hAe, hMe, hDe, hT, hU⟩ :=
    ripple_quotient s g E k hg hE hE2 hk hlo' hhi'
  obtain ⟨-, l1, l2, -, -, l10, -, -, -, l9, -⟩ := lit_binary64_values
  have h2s : round64 (s * 2) = fin (s * 2) :=
    round64_two_mul s hs0 hs (hhi.trans (zpow_lt_zpow_right₀ (by norm_num) (by norm_num)))
  obtain ⟨hDe1, hDe2⟩ := abs_le.mp hDe
  obtain ⟨hAe1, hAe2⟩ := abs_le.mp hAe
  have hD0 : 0 < D := by linarith
  obtain ⟨d, hd, hdl⟩ := round64_sixteenth (A / D) 6550690367084357
    (by rw [le_div_iff₀ hD0]; linarith) (by rw [div_lt_iff₀ hD0]; linarith)
    (by rw [lt_div_iff₀ hD0]; norm_num; linarith)
  have hdu : d ≤ 6550690367084362 / 2 ^ 56 := by
    have hmono := round64_mono (A / D) (6550690367084362 / 2 ^ 56)
      (by rw [div_le_iff₀ hD0]; linarith)
    have hU64 : round64 (6550690367084362 / 2 ^ 56) = fin (6550690367084362 / 2 ^ 56) := by
      decide!
    rw [hd, hU64] at hmono
    simpa [le] using hmono
  refine ⟨E, g, A, M, d, hg, hE, hE2, hlo', hhi', ?_, ?_, ?_, ?_, ?_, hAe, hMe,
    round64_idem _ _ hM, hdl, hdu⟩
  · show mul binary64 (fin s) (lit binary64 2) = _
    rw [l2]
    exact h2s
  · show mul binary64 (fin s) (lit binary64 (9 / 10)) = _
    rw [l9]
    exact hM
  · show div binary64 (fin s) (lit binary64 10) = _
    rw [l10]
    simp only [div]
    rw [if_neg (by norm_num)]
    exact hA
  · show div binary64 (div binary64 (div binary64 (fin s) (lit binary64 10))
      (sub binary64 (mul binary64 (fin s) (lit binary64 2))
        (mul binary64 (fin s) (lit binary64 (9 / 10))))) (lit binary64 1) = _
    rw [l1, l2, l10, l9]
    have e1 : div binary64 (fin s) (fin 10) = fin A := by
      simp only [div]
      rw [if_neg (by norm_num)]
      exact hA
    have e2 : mul binary64 (fin s) (fin 2) = fin (s * 2) := h2s
    have e3 : mul binary64 (fin s) (fin (8106479329266893 / 2 ^ 53)) = fin M := hM
    have e4 : sub binary64 (fin (s * 2)) (fin M) = fin D := hD
    have e5 : div binary64 (fin A) (fin D) = fin d := by
      simp only [div]
      rw [if_neg hD0.ne']
      exact hd
    have e6 : div binary64 (fin d) (fin 1) = fin d := by
      simp only [div]
      rw [if_neg (by norm_num), div_one]
      exact round64_idem _ _ hd
    rw [e1, e2, e3, e4, e5, e6]
  · exact lit_binary64_values.2.1

/-- A positive whole number `z <= 2^53` of quanta `g = 2^e` is a double. -/
theorem round64_int_grid (z : ℤ) (g : ℚ) (e : ℤ) (hg : g = 2 ^ e) (he : -1074 ≤ e)
    (he2 : e ≤ 970) (hz0 : 0 < z) (hz : z ≤ 2 ^ 53) :
    round64 ((z : ℚ) * g) = fin ((z : ℚ) * g) := by
  lift z to ℕ using hz0.le
  have hz0n : 0 < z := by exact_mod_cast hz0
  have hzn : z ≤ 2 ^ 53 := by exact_mod_cast hz
  rw [hg]
  have hq : (z : ℚ) ≤ 2 ^ (53 : ℤ) := by exact_mod_cast hzn
  have h1 : (z : ℚ) * 2 ^ e ≤ 2 ^ (53 : ℤ) * 2 ^ (970 : ℤ) :=
    mul_le_mul hq (zpow_le_zpow_right₀ (by norm_num) he2) (two_zpow_pos e).le
      (two_zpow_pos _).le
  rw [two_zpow_mul] at h1
  have h2 : (2 : ℚ) ^ ((53 : ℤ) + 970) < 2 ^ (1024 : ℤ) :=
    zpow_lt_zpow_right₀ (by norm_num) (by norm_num)
  exact_mod_cast round64_grid_pos z e hz0n hzn he (lt_of_le_of_lt h1 h2)

/-- The quotient behind the opacity step of a `Flame` in binary64, for a speed
`s` of `k` quanta `g`: the animation speed `A` and the size `S` are finite and
close to `s / 5` and `2.5 s`, the denominator `maxSize - size` is computed
without error, and `A / D` lies below the midpoint above
`(2^56 + 14) / (15 * 2^55)` and not below `(2^56 - 61) / (15 * 2^55)`. -/
theorem flame_quotient (s g : ℚ) (E : ℤ) (k : ℕ) (hg : g = 2 ^ (E - 52)) (hE : -1018 ≤ E)
    (hE2 : E ≤ 1018) (hk : s = (k : ℚ) * g) (hlo : 4503599627370496 * g ≤ s)
    (hhi : s < 9007199254740992 * g) :
    ∃ A S : ℚ, round64 (s / 5) = fin A ∧ round64 (s * (5 / 2)) = fin S ∧
      round64 (s * 4 + -S) = fin (s * 4 + -S) ∧
      |A - s / 5| ≤ g / 8 ∧ |S - s * (5 / 2)| ≤ 2 * g ∧
      72057594037927936 * A < 9607679205057061 * (s * 4 + -S) ∧
      4803839602528525 * (s * 4 + -S) ≤ 36028797018963968 * A := by
  have hg0 : 0 < g := by rw [hg]; exact two_zpow_pos _
  have hgA : g / 4 = 2 ^ (E + (-2) - 52) := by
    rw [grid_shift, ← hg]
    norm_num
    ring
  obtain ⟨A, hA, hAe⟩ := round64_error (s / 5) (g / 4) (E + (-2)) hgA (by omega) (by omega)
    (by rw [abs_of_pos (by linarith)]; linarith)
  rw [show g / 4 / 2 = g / 8 by ring] at hAe
  obtain ⟨hAe1, hAe2⟩ := abs_le.mp hAe
  have hg2 : g * 2 = 2 ^ (E + 1 - 52) := by
    rw [grid_shift, ← hg]
    norm_num
  have hg4 : g * 4 = 2 ^ (E + 2 - 52) := by
    rw [grid_shift, ← hg]
    norm_num
  have hg2' : g * 2 = 2 ^ (E - 51) := by
    rw [hg2]
    congr 1
    ring
  have hg4' : g * 4 = 2 ^ (E - 50) := by
    rw [hg4]
    congr 1
    ring
  by_cases hS : s * (5 / 2) < 18014398509481984 * g
  · obtain ⟨m, hSv, hSerr⟩ := round64_binade (s * (5 / 2)) (g * 2) (E + 1) hg2 (by omega)
      (by omega) (by linarith) (by linarith)
    obtain ⟨hSe1, hSe2⟩ := abs_le.mp hSerr
    have hX : s * 4 + -((m : ℚ) * (g * 2)) = ((2 * (k : ℤ) - (m : ℤ) : ℤ) : ℚ) * (g * 2) := by
      rw [hk]
      push_cast
      ring
    have i1 : (0 : ℤ) < 2 * (k : ℤ) - (m : ℤ) :=
      int_lt_of_mul_lt 0 _ (g * 2) (by linarith) (by rw [← hX]; push_cast; linarith)
    have i2 : 2 * (k : ℤ) - (m : ℤ) < 2 ^ 53 :=
      int_lt_of_mul_lt _ _ (g * 2) (by linarith) (by rw [← hX]; push_cast; linarith)
    refine ⟨A, _, hA, hSv, ?_, hAe, ?_, ?_, ?_⟩
    · rw [hX]
      exact round64_int_grid _ _ _ hg2' (by omega) (by omega) i1 i2.le
    · rw [abs_le]; constructor <;> linarith
    · linarith
    · linarith
  · push_neg at hS
    obtain ⟨m, hSv, hSerr⟩ := round64_binade (s * (5 / 2)) (g * 4) (E + 2) hg4 (by omega)
      (by omega) (by linarith) (by linarith)
    obtain ⟨hSe1, hSe2⟩ := abs_le.mp hSerr
    have hX : s * 4 + -((m : ℚ) * (g * 4)) = (((k : ℤ) - (m : ℤ) : ℤ) : ℚ) * (g * 4) := by
      rw [hk]
      push_cast
      ring
    have i1 : (0 : ℤ) < (k : ℤ) - (m : ℤ) :=
      int_lt_of_mul_lt 0 _ (g * 4) (by linarith) (by rw [← hX]; push_cast; linarith)
    have i2 : (k : ℤ) - (m : ℤ) < 2 ^ 53 :=
      int_lt_of_mul_lt _ _ (g * 4) (by linarith) (by rw [← hX]; push_cast; linarith)
    refine ⟨A, _, hA, hSv, ?_, hAe, ?_, ?_, ?_⟩
    · rw [hX]
      exact round64_int_grid _ _ _ hg4' (by omega) (by omega) i1 i2.le
    · rw [abs_le]; constructor <;> linarith
    · linarith
    · linarith

/-- The fields a `Flame` is constructed with in binary64 at a normal double
speed `s` between `2^-1018` and `2^1019`, with `g` the quantum of `s`: a size
within `2 g` of `2.5 s`, `maxSize = 4 s`, an animation speed within `g / 8` of
`s / 5`, opacity `1`, and an opacity step that is a double between
`(2^56 - 61) / (15 * 2^56)` and `(2^56 + 14) / (15 * 2^56)`. -/
theorem flame_new_grid (x y : JSNum) (color : Color) (s : ℚ) (hs : round64 s = fin s)
    (hlo : (2 : ℚ) ^ (-1018 : ℤ) ≤ s) (hhi : s < 2 ^ (1019 : ℤ)) :
    ∃ (E : ℤ) (g A S d : ℚ), g = 2 ^ (E - 52) ∧ -1018 ≤ E ∧ E ≤ 1018 ∧
      4503599627370496 * g ≤ s ∧ s < 9007199254740992 * g ∧
      (Flame.new binary64 x y (fin s) color).size = fin S ∧
      (Flame.new binary64 x y (fin s) color).maxSize = fin (s * 4) ∧
      (Flame.new binary64 x y (fin s) color).animationSpeed = fin A ∧
      (Flame.new binary64 x y (fin s) color).opacityStep = fin d ∧
      (Flame.new binary64 x y (fin s) color).opacity = fin 1 ∧
      |A - s / 5| ≤ g / 8 ∧ |S - s * (5 / 2)| ≤ 2 * g ∧
      4803839602528525 / 2 ^ 56 ≤ d ∧ d ≤ 4803839602528530 / 2 ^ 56 := by
  have hs0 : 0 < s := lt_of_lt_of_le (two_zpow_pos _) hlo
  obtain ⟨E, g, k, hg, hE, hE2, hk, hlo', hhi'⟩ := speed_grid s hs hlo hhi
  have hg0 : 0 < g := by rw [hg]; exact two_zpow_pos _
  obtain ⟨A, S, hA, hS, hD, hAe, hSe, hT, hL⟩ :=
    flame_quotient s g E k hg hE hE2 hk hlo' hhi'
  obtain ⟨-, -, l2, l4, l5, -, -, l52, -, -, -⟩ := lit_binary64_values
  have h4s : round64 (s * 4) = fin (s * 4) :=
    round64_four_mul s hs0 hs (hhi.trans (zpow_lt_zpow_right₀ (by norm_num) (by norm_num)))
  obtain ⟨hSe1, hSe2⟩ := abs_le.mp hSe
  obtain ⟨hAe1, hAe2⟩ := abs_le.mp hAe
  have hD0 : 0 < s * 4 + -S := by linarith
  obtain ⟨n, hn, hnh, hn52⟩ := round64_eighth (A / (s * 4 + -S)) 4803839602528530
    (by rw [le_div_iff₀ hD0]; linarith) (by rw [div_lt_iff₀ hD0]; linarith)
    (by rw [div_lt_iff₀ hD0]; norm_num; linarith)
  have hnl : (4803839602528525 : ℚ) ≤ n := by
    have hmono := round64_mono (4803839602528525 / 2 ^ 55) (A / (s * 4 + -S))
      (by rw [le_div_iff₀ hD0]; linarith)
    have hL64 : round64 (4803839602528525 / 2 ^ 55) = fin (4803839602528525 / 2 ^ 55) := by
      decide!
    rw [hn, hL64] at hmono
    have h1 : (4803839602528525 : ℚ) / 2 ^ 55 ≤ (n : ℚ) / 2 ^ 55 := by simpa [le] using hmono
    have h2 := (div_le_div_iff_of_pos_right (by norm_num : (0 : ℚ) < 2 ^ 55)).mp h1
    exact h2
  have hnq : (n : ℚ) ≤ 4803839602528530 := by exact_mod_cast hnh
  have hhalf : round64 ((n : ℚ) / 2 ^ 55 / 2) = fin ((n : ℚ) / 2 ^ 56) := by
    have h := round64_grid_pos n (-56) (by omega) (by omega) (by norm_num) (by
      have h1 : (n : ℚ) * 2 ^ (-56 : ℤ) ≤ 4803839602528530 * 2 ^ (-56 : ℤ) :=
        mul_le_mul_of_nonneg_right hnq (two_zpow_pos _).le
      have h2 : (4803839602528530 : ℚ) * 2 ^ (-56 : ℤ) < 1 := by norm_num
      have h3 : (1 : ℚ) ≤ 2 ^ (1024 : ℤ) := one_le_zpow₀ (by norm_num) (by norm_num)
      linarith)
    have e1 : (n : ℚ) * 2 ^ (-56 : ℤ) = (n : ℚ) / 2 ^ 56 := by
      rw [zpow_neg, div_eq_mul_inv]
      norm_cast
    have e2 : (n : ℚ) / 2 ^ 55 / 2 = (n : ℚ) / 2 ^ 56 := by
      rw [div_div]
      norm_num
    rw [e2, ← e1]
    exact h
  refine ⟨E, g, A, S, (n : ℚ) / 2 ^ 56, hg, hE, hE2, hlo', hhi', ?_, ?_, ?_, ?_, ?_, hAe, hSe,
    ?_, ?_⟩
  · show mul binary64 (fin s) (lit binary64 (5 / 2)) = _
    rw [l52]
    exact hS
  · show mul binary64 (fin s) (lit binary64 4) = _
    rw [l4]
    exact h4s
  · show div binary64 (fin s) (lit binary64 5) = _
    rw [l5]
    simp only [div]
    rw [if_neg (by norm_num)]
    exact hA
  · show div binary64 (div binary64 (div binary64 (fin s) (lit binary64 5))
      (sub binary64 (mul binary64 (fin s) (lit binary64 4))
        (mul binary64 (fin s) (lit binary64 (5 / 2))))) (lit binary64 2) = _
    rw [l2, l4, l5, l52]
    have e1 : div binary64 (fin s) (fin 5) = fin A := by
      simp only [div]
      rw [if_neg (by norm_num)]
      exact hA
    have e2 : mul binary64 (fin s) (fin 4) = fin (s * 4) := h4s
    have e3 : mul binary64 (fin s) (fin (5 / 2)) = fin S := hS
    have e4 : sub binary64 (fin (s * 4)) (fin S) = fin (s * 4 + -S) := hD
    have e5 : div binary64 (fin A) (fin (s * 4 + -S)) = fin ((n : ℚ) / 2 ^ 55) := by
      simp only [div]
      rw [if_neg hD0.ne']
      exact hn
    have e6 : div binary64 (fin ((n : ℚ) / 2 ^ 55)) (fin 2) = fin ((n : ℚ) / 2 ^ 56) := by
      simp only [div]
      rw [if_neg (by norm_num)]
      exact hhalf
    rw [e1, e2, e3, e4, e5, e6]
  · exact lit_binary64_values.2.1
  · exact (div_le_div_iff_of_pos_right (by norm_num : (0 : ℚ) < 2 ^ 56)).mpr hnl
  · exact (div_le_div_iff_of_pos_right (by norm_num : (0 : ℚ) < 2 ^ 56)).mpr hnq

/-- The size of a `Ripple` in binary64 after `n` updates, when sizes and the
animation speed `A` stay below `2^53` quanta `G = 2^(e-52)`: never below
`minSize`, and at most the larger of `minSize` and the initial size less `n`
times `A - G / 2`. -/
theorem ripple_size_iterate_binary64 (e : Effect) (hc : e.cls = .Ripple) (X : ℤ)
    (G A M z0 : ℚ) (hG : G = 2 ^ (X - 52)) (hX : -1022 ≤ X) (hX2 : X ≤ 1022)
    (ha : e.animationSpeed = fin A) (hm : e.minSize = fin M) (hs : e.size = fin z0)
    (hA0 : G / 2 ≤ A) (hA1 : A < 9007199254740992 * G) (hM0 : 0 ≤ M) (hMz : M ≤ z0)
    (hz0 : z0 < 9007199254740992 * G) (n : Nat) :
    ∃ z, ((Effect.callUpdate binary64)^[n] e).size = fin z ∧ M ≤ z ∧
      z ≤ max M (z0 - n * (A - G / 2)) := by
  have hG0 : 0 < G := by rw [hG]; exact two_zpow_pos _
  induction n with
  | zero => exact ⟨z0, hs, hMz, by simp⟩
  | succ n ih =>
    obtain ⟨z, hz, hMz', hzle⟩ := ih
    have hn0 : (0 : ℚ) ≤ n := Nat.cast_nonneg n
    have hprod : 0 ≤ (n : ℚ) * (A - G / 2) := mul_nonneg hn0 (by linarith)
    have hzz0 : z ≤ z0 := by
      rcases le_max_iff.mp hzle with h | h <;> linarith
    obtain ⟨t, ht, hte⟩ := round64_error (z + -A) G X hG hX hX2 (by
      rw [abs_lt]
      constructor <;> linarith)
    obtain ⟨ht1, ht2⟩ := abs_le.mp hte
    rw [Function.iterate_succ_apply', callUpdate_size_ripple _ _ (by rw [iterate_cls]; exact hc),
      iterate_animationSpeed, iterate_minSize, hz, ha, hm]
    have hsub : sub binary64 (fin z) (fin A) = fin t := ht
    rw [hsub]
    by_cases hlt : t < M
    · refine ⟨M, by simp [lt, hlt], le_refl _, le_max_left _ _⟩
    · push_neg at hlt
      refine ⟨t, by simp [lt, not_lt.mpr hlt], hlt, ?_⟩
      rw [le_max_iff]
      rcases le_max_iff.mp hzle with h | h
      · left; linarith
      · right
        push_cast
        linarith

/-- The size of a `Flame` or `WaterRipple` in binary64 after `n <= N` updates,
when the sizes stay below `2^53` quanta `G = 2^(e-52)`: the initial size plus
`n` times the animation speed `A`, up to `G / 2` per update. -/
theorem grow_size_iterate_binary64 (e : Effect) (hc : e.cls ≠ .Ripple) (X : ℤ)
    (G A z0 : ℚ) (hG : G = 2 ^ (X - 52)) (hX : -1022 ≤ X) (hX2 : X ≤ 1022)
    (ha : e.animationSpeed = fin A) (hs : e.size = fin z0)
    (hA0 : G / 2 ≤ A) (hz00 : 0 ≤ z0) (N : Nat)
    (hbound : z0 + N * (A + G / 2) + A < 9007199254740992 * G) (n : Nat) (hn : n ≤ N) :
    ∃ z, ((Effect.callUpdate binary64)^[n] e).size = fin z ∧
      z0 + n * (A - G / 2) ≤ z ∧ z ≤ z0 + n * (A + G / 2) := by
  have hG0 : 0 < G := by rw [hG]; exact two_zpow_pos _
  induction n with
  | zero => exact ⟨z0, hs, by simp, by simp⟩
  | succ n ih =>
    obtain ⟨z, hz, hz1, hz2⟩ := ih (by omega)
    have hn0 : (0 : ℚ) ≤ n := Nat.cast_nonneg n
    have hnN : (n : ℚ) ≤ N := by exact_mod_cast (by omega : n ≤ N)
    have hprod : 0 ≤ (n : ℚ) * (A - G / 2) := mul_nonneg hn0 (by linarith)
    have hprod2 : (n : ℚ) * (A + G / 2) ≤ N * (A + G / 2) :=
      mul_le_mul_of_nonneg_right hnN (by linarith)
    obtain ⟨t, ht, hte⟩ := round64_error (z + A) G X hG hX hX2 (by
      rw [abs_lt]
      constructor <;> linarith)
    obtain ⟨ht1, ht2⟩ := abs_le.mp hte
    rw [Function.iterate_succ_apply', callUpdate_size_grow _ _ (by rw [iterate_cls]; exact hc),
      iterate_animationSpeed, hz, ha]
    have hadd : add binary64 (fin z) (fin A) = fin t := ht
    rw [hadd]
    refine ⟨t, rfl, ?_, ?_⟩
    · push_cast
      linarith
    · push_cast
      linarith

/-- The lifetime of a `Ripple` in binary64, at every normal double speed `s`
between `2^-1018` and `2^1019`: the opacity step is within `2^-53` of `1/11`,
the opacity is not `<= 0` after up to 10 updates and is `<= 0` after 11, and
the size after 11 updates is not below `minSize` and exceeds it by at most
`s / 2^48`. -/
theorem ripple_lifetime_binary64 (x y : JSNum) (color : Color) (s : ℚ)
    (hs : round64 s = fin s) (hlo : (2 : ℚ) ^ (-1018 : ℤ) ≤ s) (hhi : s < 2 ^ (1019 : ℤ)) :
    (∃ d, (Ripple.new binary64 x y (fin s) color).opacityStep = fin d ∧
      |d - 1 / 11| ≤ 1 / 2 ^ 53) ∧
    (∀ n, n ≤ 10 → le ((Effect.callUpdate binary64)^[n]
      (Ripple.new binary64 x y (fin s) color)).opacity (fin 0) = false) ∧
    le ((Effect.callUpdate binary64)^[11]
      (Ripple.new binary64 x y (fin s) color)).opacity (fin 0) = true ∧
    (∃ z mn, ((Effect.callUpdate binary64)^[11]
        (Ripple.new binary64 x y (fin s) color)).size = fin z ∧
      (Ripple.new binary64 x y (fin s) color).minSize = fin mn ∧
      mn ≤ z ∧ z ≤ mn + s / 2 ^ 48) := by
  obtain ⟨E, g, A, M, d, hg, hE, hE2, hlo', hhi', hsize, hmin, hanim, hstep, hop, hAe, hMe,
    -, hdl, hdu⟩ := ripple_new_grid x y color s hs hlo hhi
  have hg0 : 0 < g := by rw [hg]; exact two_zpow_pos _
  obtain ⟨hAe1, hAe2⟩ := abs_le.mp hAe
  obtain ⟨hMe1, hMe2⟩ := abs_le.mp hMe
  obtain ⟨hlive, hdead⟩ := lifetime_of_step_bounds _ d _ _ hstep hop hdl hdu 10
    ripple_step_ends.1 ripple_step_ends.2
  refine ⟨⟨d, hstep, ?_⟩, hlive, hdead, ?_⟩
  · rw [abs_le]
    constructor
    · have : (6550690367084357 : ℚ) / 2 ^ 56 - 1 / 11 ≥ -(1 / 2 ^ 53) := by norm_num
      linarith
    · have : (6550690367084362 : ℚ) / 2 ^ 56 - 1 / 11 ≤ 1 / 2 ^ 53 := by norm_num
      linarith
  · have hG : g * 2 = 2 ^ (E + 1 - 52) := by
      rw [grid_shift, ← hg]
      norm_num
    obtain ⟨z, hz, hz1, hz2⟩ := ripple_size_iterate_binary64
      (Ripple.new binary64 x y (fin s) color) (Ripple_new_cls x y color binary64 (fin s))
      (E + 1) (g * 2) A M (s * 2) hG (by omega) (by omega) hanim hmin hsize
      (by linarith) (by linarith) (by linarith) (by linarith) (by linarith) 11
    refine ⟨z, M, hz, hmin, hz1, ?_⟩
    have h48 : s / 2 ^ 48 ≥ 16 * g := by
      rw [ge_iff_le, le_div_iff₀ (by norm_num)]
      linarith
    rcases le_max_iff.mp hz2 with h | h
    · linarith
    · push_cast at h
      linarith

/-- The lifetime of a `Flame` in binary64, at every normal double speed `s`
between `2^-1018` and `2^1019`: the opacity step is within `2^-53` of `1/15`,
the opacity is not `<= 0` after up to 15 updates and is `<= 0` after 16, and
the size after 16 updates is within `s / 2^45` of `5.7 s`, beyond
`maxSize = 4 s`. -/
theorem flame_lifetime_binary64 (x y : JSNum) (color : Color) (s : ℚ)
    (hs : round64 s = fin s) (hlo : (2 : ℚ) ^ (-1018 : ℤ) ≤ s) (hhi : s < 2 ^ (1019 : ℤ)) :
    (∃ d, (Flame.new binary64 x y (fin s) color).opacityStep = fin d ∧
      |d - 1 / 15| ≤ 1 / 2 ^ 53) ∧
    (∀ n, n ≤ 15 → le ((Effect.callUpdate binary64)^[n]
      (Flame.new binary64 x y (fin s) color)).opacity (fin 0) = false) ∧
    le ((Effect.callUpdate binary64)^[16]
      (Flame.new binary64 x y (fin s) color)).opacity (fin 0) = true ∧
    (∃ z, ((Effect.callUpdate binary64)^[16]
        (Flame.new binary64 x y (fin s) color)).size = fin z ∧
      (Flame.new binary64 x y (fin s) color).maxSize = fin (s * 4) ∧
      s * 4 < z ∧ |z - 57 / 10 * s| ≤ s / 2 ^ 45) := by
  obtain ⟨E, g, A, S, d, hg, hE, hE2, hlo', hhi', hsize, hmax, hanim, hstep, hop, hAe, hSe,
    hdl, hdu⟩ := flame_new_grid x y color s hs hlo hhi
  have hg0 : 0 < g := by rw [hg]; exact two_zpow_pos _
  obtain ⟨hAe1, hAe2⟩ := abs_le.mp hAe
  obtain ⟨hSe1, hSe2⟩ := abs_le.mp hSe
  obtain ⟨hlive, hdead⟩ := lifetime_of_step_bounds _ d _ _ hstep hop hdl hdu 15
    flame_step_ends.1 flame_step_ends.2
  refine ⟨⟨d, hstep, ?_⟩, hlive, hdead, ?_⟩
  · rw [abs_le]
    constructor
    · have : (4803839602528525 : ℚ) / 2 ^ 56 - 1 / 15 ≥ -(1 / 2 ^ 53) := by norm_num
      linarith
    · have : (4803839602528530 : ℚ) / 2 ^ 56 - 1 / 15 ≤ 1 / 2 ^ 53 := by norm_num
      linarith
  · have hG : g * 8 = 2 ^ (E + 3 - 52) := by
      rw [grid_shift, ← hg]
      norm_num
    obtain ⟨z, hz, hz1, hz2⟩ := grow_size_iterate_binary64
      (Flame.new binary64 x y (fin s) color)
      (by rw [Flame_new_cls x y color binary64 (fin s)]; decide)
      (E + 3) (g * 8) A S hG (by omega) (by omega) hanim hsize
      (by linarith) (by linarith) 16 (by push_cast; linarith) 16 (le_refl _)
    push_cast at hz1 hz2
    have h45 : s / 2 ^ 45 ≥ 128 * g := by
      rw [ge_iff_le, le_div_iff₀ (by norm_num)]
      linarith
    refine ⟨z, hz, hmax, by linarith, ?_⟩
    rw [abs_le]
    constructor <;> linarith

/-! ## Opacity is non-increasing (C4) -/

/-- C4, as stated, fails at speed `0`: the opacity step of a `Ripple` spawned
at speed `0` is `0 / 0 = NaN` under both roundings, so it is not `>= 0`, and
the opacity after the first `update()` is `NaN`, which is not `<=` the opacity
`1` before it.  The same holds for a `Flame`. -/
theorem opacity_nonincreasing_fails_at_speed_zero :
    ((spawnAt exact .Ripple 0).opacityStep = nan ∧
      le (lit exact 0) (spawnAt exact .Ripple 0).opacityStep = false ∧
      le (spawnAtAfter exact .Ripple 0 1).opacity (spawnAtAfter exact .Ripple 0 0).opacity
        = false ∧
      (spawnAt exact .Flame 0).opacityStep = nan ∧
      le (spawnAtAfter exact .Flame 0 1).opacity (spawnAtAfter exact .Flame 0 0).opacity
        = false) ∧
    ((spawnAt binary64 .Ripple 0).opacityStep = nan ∧
      le (lit binary64 0) (spawnAt binary64 .Ripple 0).opacityStep = false ∧
      le (spawnAtAfter binary64 .Ripple 0 1).opacity (spawnAtAfter binary64 .Ripple 0 0).opacity
        = false ∧
      (spawnAt binary64 .Flame 0).opacityStep = nan ∧
      le (spawnAtAfter binary64 .Flame 0 1).opacity (spawnAtAfter binary64 .Flame 0 0).opacity
        = false) := by
  decide!

/-- An effect with opacity `1` and opacity step `+Infinity` has opacity
`-Infinity` after every positive number of updates. -/
theorem iterate_opacity_pinf (r : Rounding) (e : Effect) (ho : e.opacity = fin 1)
    (hd : e.opacityStep = pinf) (n : Nat) :
    ((Effect.callUpdate r)^[n + 1] e).opacity = ninf := by
  induction n with
  | zero =>
    rw [Function.iterate_succ_apply', callUpdate_opacity, iterate_opacityStep, hd]
    simp only [Function.iterate_zero, id, ho]
    rfl
  | succ n ih =>
    rw [Function.iterate_succ_apply', callUpdate_opacity, ih, iterate_opacityStep, hd]
    rfl

/-- The opacity step of a `WaterRipple` spawned at speed `0` is `+Infinity`. -/
theorem WaterRipple_new_opacityStep_zero (x y : JSNum) (color : Color) :
    (WaterRipple.new exact x y (fin 0) color).opacityStep = pinf := by
  have h : div exact (div exact (lit exact (33 / 100))
      (sub exact (mul exact (fin 0) (lit exact 20)) (mul exact (fin 0) (lit exact 2))))
      (lit exact (3 / 2)) = pinf := by decide!
  exact h

/-- The opacity of every effect starts at `1`, in binary64. -/
theorem create_opacity_binary64 (cls : Cls) (x y speed : JSNum) (color : Color) :
    (Effect.create binary64 cls x y speed color).opacity = fin 1 := by
  cases cls <;> exact lit_binary64_values.2.1

/-- C4, amended to the speeds at which it holds.  In exact arithmetic: for
every class, finite speed `s > 0` and number `n` of earlier updates, the
opacity step fixed at construction is positive and the opacity after the next
`update()` is `<=` the opacity before it; a `WaterRipple` spawned at speed `0`
has the opacity step `+Infinity`, also `>= 0`, and its opacity does not
increase either.  In binary64: when `s` is a normal double (from `2^-1022` on)
below `2^1022`, the opacity step of every class is `>= 0` and the opacity after
the next `update()` is `<=` the opacity before it. -/
theorem opacity_nonincreasing (cls : Cls) (x y : JSNum) (color : Color) (s : ℚ) (hs : 0 < s)
    (n : Nat) :
    (lt (fin 0) (Effect.create exact cls x y (fin s) color).opacityStep = true ∧
      le ((Effect.callUpdate exact)^[n + 1]
            (Effect.create exact cls x y (fin s) color)).opacity
          ((Effect.callUpdate exact)^[n]
            (Effect.create exact cls x y (fin s) color)).opacity = true) ∧
    (le (fin 0) (WaterRipple.new exact x y (fin 0) color).opacityStep = true ∧
      le ((Effect.callUpdate exact)^[n + 1] (WaterRipple.new exact x y (fin 0) color)).opacity
          ((Effect.callUpdate exact)^[n] (WaterRipple.new exact x y (fin 0) color)).opacity
        = true) ∧
    (round64 s = fin s → (2 : ℚ) ^ (-1022 : ℤ) ≤ s → s < 2 ^ (1022 : ℤ) →
      le (fin 0) (Effect.create binary64 cls x y (fin s) color).opacityStep = true ∧
      le ((Effect.callUpdate binary64)^[n + 1]
            (Effect.create binary64 cls x y (fin s) color)).opacity
          ((Effect.callUpdate binary64)^[n]
            (Effect.create binary64 cls x y (fin s) color)).opacity = true) := by
  refine ⟨?_, ?_, ?_⟩
  · obtain ⟨ho, d, hd, hstep⟩ := create_opacity_exact cls x y color s hs
    rw [iterate_opacity_exact _ 1 d ho hstep, iterate_opacity_exact _ 1 d ho hstep, hstep]
    refine ⟨by simpa using hd, ?_⟩
    simp only [le_fin, decide_eq_true_eq]
    push_cast
    linarith
  · have hstep := WaterRipple_new_opacityStep_zero x y color
    have hinf := iterate_opacity_pinf exact (WaterRipple.new exact x y (fin 0) color) rfl hstep
    refine ⟨by rw [hstep]; rfl, ?_⟩
    rw [hinf n]
    cases n with
    | zero => rfl
    | succ m =>
      rw [hinf m]
      rfl
  · intro hD hlo hhi
    have hstep := create_step_nonneg_binary64 cls x y color s hD hlo hhi
    exact ⟨hstep, (opacity_iterate_binary64 _ hstep
      (Or.inr ⟨1, create_opacity_binary64 cls x y (fin s) color, by decide!⟩) n).2⟩

/-- C4 at a concrete input: a `WaterRipple` spawned at speed `1/2`, fourth
update, in exact arithmetic and in binary64. -/
theorem opacity_nonincreasing_witness :
    (0 : ℚ) < 1 / 2 ∧
    lt (fin 0)
        (Effect.create exact .WaterRipple (fin 3) (fin 4) (fin (1 / 2)) sampleColor).opacityStep
      = true ∧
    le ((Effect.callUpdate exact)^[3 + 1]
          (Effect.create exact .WaterRipple (fin 3) (fin 4) (fin (1 / 2)) sampleColor)).opacity
        ((Effect.callUpdate exact)^[3]
          (Effect.create exact .WaterRipple (fin 3) (fin 4) (fin (1 / 2)) sampleColor)).opacity
      = true ∧
    le ((Effect.callUpdate binary64)^[3 + 1]
          (Effect.create binary64 .WaterRipple (fin 3) (fin 4) (fin (1 / 2)) sampleColor)).opacity
        ((Effect.callUpdate binary64)^[3]
          (Effect.create binary64 .WaterRipple (fin 3) (fin 4) (fin (1 / 2))
            sampleColor)).opacity
      = true :=
  have h := opacity_nonincreasing .WaterRipple (fin 3) (fin 4) sampleColor (1 / 2)
    (by norm_num) 3
  have hlo : (2 : ℚ) ^ (-1022 : ℤ) ≤ 1 / 2 := by
    rw [show (1 / 2 : ℚ) = 2 ^ (-1 : ℤ) by norm_num]
    exact zpow_le_zpow_right₀ (by norm_num) (by norm_num)
  have hhi : (1 / 2 : ℚ) < 2 ^ (1022 : ℤ) :=
    lt_of_lt_of_le (by norm_num : (1 / 2 : ℚ) < 2 ^ (0 : ℤ))
      (zpow_le_zpow_right₀ (by norm_num) (by norm_num))
  ⟨by norm_num, h.1.1, h.1.2, (h.2.2 (by decide!) hlo hhi).2⟩

/-! ## Range of the opacity (C6) -/

/-- C6, as stated, fails for `WaterRipple`: spawned at speed `1` it is live
(opacity not `<= 0`) before each of its first 82 updates, and the 82nd update,
after which it is drawn and removed, leaves its opacity below `0` (`-1/450` in
exact arithmetic), outside `[0, 1]`.  Under both roundings.  In binary64 the
same happens to a `Ripple` spawned at speed `1`: live before each of its 11
updates, it has opacity `-9 * 2^-55` after the 11th. -/
theorem opacity_range_fails_for_waterRipple :
    ((∀ k < 82, le (spawnAtAfter exact .WaterRipple 1 k).opacity (lit exact 0) = false) ∧
      (spawnAtAfter exact .WaterRipple 1 82).opacity = fin (-1 / 450) ∧
      le (lit exact 0) (spawnAtAfter exact .WaterRipple 1 82).opacity = false) ∧
    ((∀ k < 82, le (spawnAtAfter binary64 .WaterRipple 1 k).opacity (lit binary64 0) = false) ∧
      le (lit binary64 0) (spawnAtAfter binary64 .WaterRipple 1 82).opacity = false) ∧
    ((∀ k < 11, le (spawnAtAfter binary64 .Ripple 1 k).opacity (lit binary64 0) = false) ∧
      (spawnAtAfter binary64 .Ripple 1 11).opacity = fin (-9 / 2 ^ 55) ∧
      le (lit binary64 0) (spawnAtAfter binary64 .Ripple 1 11).opacity = false) := by
  decide!

/-- C6, amended.  An effect that is live (opacity not `<= 0`) before each of
its first `n` updates has after them an opacity `<= 1` and `>= -opacityStep`,
and before each of them an opacity in `(0, 1]`: in exact arithmetic for every
class and finite speed `s > 0`, and in binary64, where liveness is that of the
binary64 run, for every class and every speed that is a normal double (from
`2^-1022` on) below `2^1022`.  The value after the last update of a live
effect may be negative. -/
theorem opacity_range (cls : Cls) (x y : JSNum) (color : Color) (s : ℚ) (hs : 0 < s)
    (n : Nat) :
    ((∀ k < n, le ((Effect.callUpdate exact)^[k]
        (Effect.create exact cls x y (fin s) color)).opacity (fin 0) = false) →
      le ((Effect.callUpdate exact)^[n] (Effect.create exact cls x y (fin s) color)).opacity
        (fin 1) = true ∧
      le (neg (Effect.create exact cls x y (fin s) color).opacityStep)
        ((Effect.callUpdate exact)^[n] (Effect.create exact cls x y (fin s) color)).opacity
        = true ∧
      ∀ k < n,
        lt (fin 0) ((Effect.callUpdate exact)^[k]
          (Effect.create exact cls x y (fin s) color)).opacity = true ∧
        le ((Effect.callUpdate exact)^[k]
          (Effect.create exact cls x y (fin s) color)).opacity (fin 1) = true) ∧
    (round64 s = fin s → (2 : ℚ) ^ (-1022 : ℤ) ≤ s → s < 2 ^ (1022 : ℤ) →
      (∀ k < n, le ((Effect.callUpdate binary64)^[k]
        (Effect.create binary64 cls x y (fin s) color)).opacity (fin 0) = false) →
      le ((Effect.callUpdate binary64)^[n]
          (Effect.create binary64 cls x y (fin s) color)).opacity (fin 1) = true ∧
      le (neg (Effect.create binary64 cls x y (fin s) color).opacityStep)
          ((Effect.callUpdate binary64)^[n]
            (Effect.create binary64 cls x y (fin s) color)).opacity = true ∧
      ∀ k < n,
        lt (fin 0) ((Effect.callUpdate binary64)^[k]
          (Effect.create binary64 cls x y (fin s) color)).opacity = true ∧
        le ((Effect.callUpdate binary64)^[k]
          (Effect.create binary64 cls x y (fin s) color)).opacity (fin 1) = true) := by
  constructor
  · intro hlive
    obtain ⟨ho, d, hd, hstep⟩ := create_opacity_exact cls x y color s hs
    have hop : ∀ k : Nat, ((Effect.callUpdate exact)^[k]
        (Effect.create exact cls x y (fin s) color)).opacity = fin (1 - k * d) :=
      fun k => iterate_opacity_exact _ 1 d ho hstep k
    have hnd : ∀ k : Nat, (0 : ℚ) ≤ k * d := fun k => by positivity
    simp only [hop, hstep, le_fin, lt_fin, neg, decide_eq_true_eq, decide_eq_false_iff_not,
      not_le] at hlive ⊢
    refine ⟨by linarith [hnd n], ?_, fun k hk => ⟨hlive k hk, by linarith [hnd k]⟩⟩
    cases n with
    | zero => simp; linarith
    | succ m =>
      have := hlive m (Nat.lt_succ_self m)
      push_cast
      linarith
  · intro hD hlo hhi hliveB
    have hstep := create_step_nonneg_binary64 cls x y color s hD hlo hhi
    have hgrid : ∀ d, (Effect.create binary64 cls x y (fin s) color).opacityStep = fin d →
        round64 d = fin d :=
      fun d hd => create_opacityStep_binary64 cls x y (fin s) color d hd
    have hone := create_opacity_binary64 cls x y (fin s) color
    obtain ⟨h1, h2⟩ := opacity_range_binary64 _ hstep hgrid hone n hliveB
    refine ⟨h1, h2, fun k hk => ?_⟩
    have hk1 := (opacity_range_binary64 _ hstep hgrid hone k
      (fun j hj => hliveB j (lt_trans hj hk))).1
    have hk0 := hliveB k hk
    refine ⟨?_, hk1⟩
    cases ho : ((Effect.callUpdate binary64)^[k]
        (Effect.create binary64 cls x y (fin s) color)).opacity with
    | fin q =>
      rw [ho] at hk0
      have : ¬ q ≤ 0 := by simpa [le] using hk0
      simp only [lt, decide_eq_true_eq]
      exact not_le.mp this
    | pinf => rw [ho] at hk1; simp [le] at hk1
    | ninf => rw [ho] at hk0; simp [le] at hk0
    | nan => rw [ho] at hk1; simp [le] at hk1

/-- C6 at a concrete input: the `Flame` spawned at speed `1`.  In exact
arithmetic it is live before each of its 15 updates; in binary64 it is live
before each of its 16 updates, and the 16th leaves an opacity `<= 1` and
`>= -opacityStep`. -/
theorem opacity_range_witness :
    (0 : ℚ) < 1 ∧
    le (neg (Effect.create exact .Flame (fin 0) (fin 0) (fin 1) sampleColor).opacityStep)
      ((Effect.callUpdate exact)^[15]
        (Effect.create exact .Flame (fin 0) (fin 0) (fin 1) sampleColor)).opacity = true ∧
    (∀ k < 16, le ((Effect.callUpdate binary64)^[k]
      (Effect.create binary64 .Flame (fin 0) (fin 0) (fin 1) sampleColor)).opacity (fin 0)
        = false) ∧
    le ((Effect.callUpdate binary64)^[16]
      (Effect.create binary64 .Flame (fin 0) (fin 0) (fin 1) sampleColor)).opacity (fin 1)
        = true ∧
    le (neg (Effect.create binary64 .Flame (fin 0) (fin 0) (fin 1) sampleColor).opacityStep)
      ((Effect.callUpdate binary64)^[16]
        (Effect.create binary64 .Flame (fin 0) (fin 0) (fin 1) sampleColor)).opacity
        = true ∧
    lt (fin 0) ((Effect.callUpdate binary64)^[15]
      (Effect.create binary64 .Flame (fin 0) (fin 0) (fin 1) sampleColor)).opacity = true :=
  have hlive : ∀ k < 15, le ((Effect.callUpdate exact)^[k]
      (Effect.create exact .Flame (fin 0) (fin 0) (fin 1) sampleColor)).opacity (fin 0)
        = false := by decide!
  have hliveB : ∀ k < 16, le ((Effect.callUpdate binary64)^[k]
      (Effect.create binary64 .Flame (fin 0) (fin 0) (fin 1) sampleColor)).opacity (fin 0)
        = false := by decide!
  have hlo : (2 : ℚ) ^ (-1022 : ℤ) ≤ 1 := by
    rw [show (1 : ℚ) = 2 ^ (0 : ℤ) by norm_num]
    exact zpow_le_zpow_right₀ (by norm_num) (by norm_num)
  have hhi : (1 : ℚ) < 2 ^ (1022 : ℤ) :=
    lt_of_lt_of_le (by norm_num : (1 : ℚ) < 2 ^ (1 : ℤ))
      (zpow_le_zpow_right₀ (by norm_num) (by norm_num))
  have h15 := (opacity_range .Flame (fin 0) (fin 0) sampleColor 1 (by norm_num) 15).1 hlive
  have h16 := (opacity_range .Flame (fin 0) (fin 0) sampleColor 1 (by norm_num) 16).2
    (by decide!) hlo hhi hliveB
  ⟨by norm_num, h15.2.1, hliveB, h16.1, h16.2.1, (h16.2.2 15 (by norm_num)).1⟩

/-! ## Lifetimes of `Ripple` and `Flame` (C10) -/

/-- The `Ripple` half of the lifetime statement, exact arithmetic. -/
theorem ripple_lifetime_exact (x y : JSNum) (color : Color) (s : ℚ) (hs : 0 < s) :
    (Ripple.new exact x y (fin s) color).opacityStep = fin (1 / 11) ∧
      (∀ n < 11, le ((Effect.callUpdate exact)^[n]
        (Ripple.new exact x y (fin s) color)).opacity (fin 0) = false) ∧
      le ((Effect.callUpdate exact)^[11] (Ripple.new exact x y (fin s) color)).opacity (fin 0)
        = true ∧
      ((Effect.callUpdate exact)^[11] (Ripple.new exact x y (fin s) color)).size
        = (Ripple.new exact x y (fin s) color).minSize := by
  have hR := Ripple_new_opacityStep x y color s hs.ne'
  have hRo : ∀ n : Nat, ((Effect.callUpdate exact)^[n]
      (Ripple.new exact x y (fin s) color)).opacity = fin (1 - n * (1 / 11)) :=
    fun n => iterate_opacity_exact _ 1 _ (Ripple_new_opacity x y color s) hR n
  have hRs := iterate_size_ripple_exact (Ripple.new exact x y (fin s) color) (s * 2)
    (s * (9 / 10)) (s / 10) (Ripple_new_cls x y color exact (fin s))
    (Ripple_new_size x y color s) (Ripple_new_minSize x y color s)
    (Ripple_new_animationSpeed x y color s) (by linarith) (by positivity) 11
  refine ⟨hR, ?_, ?_, ?_⟩
  · intro n hn
    rw [hRo, le_fin, decide_eq_false_iff_not, not_le]
    have : (n : ℚ) ≤ 10 := by exact_mod_cast Nat.lt_succ_iff.mp hn
    linarith
  · rw [hRo, le_fin, decide_eq_true_eq]
    norm_num
  · rw [hRs, Ripple_new_minSize, max_eq_right]
    push_cast
    linarith

/-- The `Flame` half of the lifetime statement, exact arithmetic. -/
theorem flame_lifetime_exact (x y : JSNum) (color : Color) (s : ℚ) (hs : 0 < s) :
    (Flame.new exact x y (fin s) color).opacityStep = fin (1 / 15) ∧
      (∀ n < 15, le ((Effect.callUpdate exact)^[n]
        (Flame.new exact x y (fin s) color)).opacity (fin 0) = false) ∧
      le ((Effect.callUpdate exact)^[15] (Flame.new exact x y (fin s) color)).opacity (fin 0)
        = true ∧
      ((Effect.callUpdate exact)^[15] (Flame.new exact x y (fin s) color)).size
        = fin (11 / 2 * s) ∧
      (Flame.new exact x y (fin s) color).maxSize = fin (4 * s) ∧
      lt (Flame.new exact x y (fin s) color).maxSize
        ((Effect.callUpdate exact)^[15] (Flame.new exact x y (fin s) color)).size = true := by
  have hF := Flame_new_opacityStep x y color s hs.ne'
  have hFo : ∀ n : Nat, ((Effect.callUpdate exact)^[n]
      (Flame.new exact x y (fin s) color)).opacity = fin (1 - n * (1 / 15)) :=
    fun n => iterate_opacity_exact _ 1 _ (Flame_new_opacity x y color s) hF n
  have hc : (Flame.new exact x y (fin s) color).cls ≠ .Ripple := by
    rw [Flame_new_cls]
    decide
  have hFs := iterate_size_grow_exact (Flame.new exact x y (fin s) color) (s * (5 / 2))
    (s / 5) hc (Flame_new_size x y color s) (Flame_new_animationSpeed x y color s) 15
  have h15 : s * (5 / 2) + ((15 : ℕ) : ℚ) * (s / 5) = 11 / 2 * s := by
    push_cast
    ring
  rw [h15] at hFs
  refine ⟨hF, ?_, ?_, hFs, ?_, ?_⟩
  · intro n hn
    rw [hFo, le_fin, decide_eq_false_iff_not, not_le]
    have : (n : ℚ) ≤ 14 := by exact_mod_cast Nat.lt_succ_iff.mp hn
    linarith
  · rw [hFo, le_fin, decide_eq_true_eq]
    norm_num
  · rw [Flame_new_maxSize, mul_comm]
  · rw [hFs, Flame_new_maxSize, lt_fin, decide_eq_true_eq]
    linarith

/-- C10, as stated, fails in the binary64 arithmetic the code runs in: the
opacity step of a `Flame` spawned at speed `1` is the double nearest `1/15`,
not `1/15`; after 15 updates its opacity is `7 * 2^-55 > 0`, so it is still
live, and it is the 16th update that brings the opacity to `<= 0`.  A `Ripple`
spawned at speed `3` does retire at its 11th update, but its size is then not
its `minSize`. -/
theorem lifetime_fails_in_binary64 :
    (spawnAt binary64 .Flame 1).opacityStep ≠ fin (1 / 15) ∧
    (spawnAtAfter binary64 .Flame 1 15).opacity = fin (7 / 2 ^ 55) ∧
    le (spawnAtAfter binary64 .Flame 1 15).opacity (lit binary64 0) = false ∧
    le (spawnAtAfter binary64 .Flame 1 16).opacity (lit binary64 0) = true ∧
    le (spawnAtAfter binary64 .Ripple 3 11).opacity (lit binary64 0) = true ∧
    (spawnAtAfter binary64 .Ripple 3 11).size ≠ (spawnAt binary64 .Ripple 3).minSize := by
  decide!

/-- C10, amended to the arithmetic the code runs in.  In binary64, for every
speed `s` that is a normal double between `2^-1018` and `2^1019`, the lifetimes
do not depend on the speed.  A `Ripple` has an opacity step within `2^-53` of
`1/11`; its opacity is not `<= 0` after up to 10 updates and is `<= 0` after
the 11th, when its size is not below its `minSize` and exceeds it by at most
`s / 2^48`.  A `Flame` has an opacity step within `2^-53` of `1/15`; its
opacity is not `<= 0` after up to 15 updates and is `<= 0` after the 16th, when
its size is within `s / 2^45` of `5.7 * s`, above its `maxSize = 4 * s`.  (In
exact arithmetic the counts are 11 and 15: `ripple_lifetime_exact`,
`flame_lifetime_exact`.) -/
theorem lifetime_binary64 (x y : JSNum) (color : Color) (s : ℚ) (hs : round64 s = fin s)
    (hlo : (2 : ℚ) ^ (-1018 : ℤ) ≤ s) (hhi : s < 2 ^ (1019 : ℤ)) :
    ((∃ d, (Ripple.new binary64 x y (fin s) color).opacityStep = fin d ∧
        |d - 1 / 11| ≤ 1 / 2 ^ 53) ∧
      (∀ n, n ≤ 10 → le ((Effect.callUpdate binary64)^[n]
        (Ripple.new binary64 x y (fin s) color)).opacity (fin 0) = false) ∧
      le ((Effect.callUpdate binary64)^[11]
        (Ripple.new binary64 x y (fin s) color)).opacity (fin 0) = true ∧
      (∃ z mn, ((Effect.callUpdate binary64)^[11]
          (Ripple.new binary64 x y (fin s) color)).size = fin z ∧
        (Ripple.new binary64 x y (fin s) color).minSize = fin mn ∧
        mn ≤ z ∧ z ≤ mn + s / 2 ^ 48)) ∧
    ((∃ d, (Flame.new binary64 x y (fin s) color).opacityStep = fin d ∧
        |d - 1 / 15| ≤ 1 / 2 ^ 53) ∧
      (∀ n, n ≤ 15 → le ((Effect.callUpdate binary64)^[n]
        (Flame.new binary64 x y (fin s) color)).opacity (fin 0) = false) ∧
      le ((Effect.callUpdate binary64)^[16]
        (Flame.new binary64 x y (fin s) color)).opacity (fin 0) = true ∧
      (∃ z, ((Effect.callUpdate binary64)^[16]
          (Flame.new binary64 x y (fin s) color)).size = fin z ∧
        (Flame.new binary64 x y (fin s) color).maxSize = fin (s * 4) ∧
        s * 4 < z ∧ |z - 57 / 10 * s| ≤ s / 2 ^ 45)) :=
  ⟨ripple_lifetime_binary64 x y color s hs hlo hhi,
    flame_lifetime_binary64 x y color s hs hlo hhi⟩

/-- C10 at a concrete input: speed `3` in binary64, where the `Ripple` is gone
after its 11th update and the `Flame`, still live after its 15th, after its
16th. -/
theorem lifetime_binary64_witness :
    round64 3 = fin 3 ∧ (2 : ℚ) ^ (-1018 : ℤ) ≤ 3 ∧ (3 : ℚ) < 2 ^ (1019 : ℤ) ∧
    le ((Effect.callUpdate binary64)^[11]
      (Ripple.new binary64 (fin 0) (fin 0) (fin 3) sampleColor)).opacity (fin 0) = true ∧
    le ((Effect.callUpdate binary64)^[15]
      (Flame.new binary64 (fin 0) (fin 0) (fin 3) sampleColor)).opacity (fin 0) = false ∧
    le ((Effect.callUpdate binary64)^[16]
      (Flame.new binary64 (fin 0) (fin 0) (fin 3) sampleColor)).opacity (fin 0) = true :=
  have h3 : round64 3 = fin 3 := by decide!
  have hlo : (2 : ℚ) ^ (-1018 : ℤ) ≤ 3 :=
    le_trans (zpow_le_zpow_right₀ (by norm_num) (by norm_num : (-1018 : ℤ) ≤ 0))
      (by norm_num)
  have hhi : (3 : ℚ) < 2 ^ (1019 : ℤ) :=
    lt_of_lt_of_le (by norm_num : (3 : ℚ) < 2 ^ (2 : ℤ))
      (zpow_le_zpow_right₀ (by norm_num) (by norm_num))
  have h := lifetime_binary64 (fin 0) (fin 0) sampleColor 3 h3 hlo hhi
  ⟨h3, hlo, hhi, h.1.2.2.1, h.2.2.1 15 (le_refl 15), h.2.2.2.1⟩

/-! ## Monotone sizes (C5) -/

/-- An effect of a growing class with size `0` and animation speed `0` keeps
size `0`, under every rounding that leaves `0` alone. -/
theorem iterate_size_zero (r : Rounding) (hr : r 0 = fin 0) (e : Effect)
    (hc : e.cls ≠ .Ripple) (ha : e.size = fin 0) (hv : e.animationSpeed = fin 0) (n : Nat) :
    ((Effect.callUpdate r)^[n] e).size = fin 0 := by
  induction n with
  | zero => simpa using ha
  | succ n ih =>
    rw [Function.iterate_succ_apply', callUpdate_size_grow _ _ (by rw [iterate_cls]; exact hc),
      ih, iterate_animationSpeed, hv]
    simp [add, hr]

/-- For a positive step `v` the sizes `a + n * v` exceed every bound. -/
theorem exists_size_above (a v : ℚ) (hv : 0 < v) (B : ℚ) : ∃ m : Nat, B < a + m * v := by
  obtain ⟨m, hm⟩ := exists_nat_gt ((B - a) / v)
  refine ⟨m, ?_⟩
  rw [div_lt_iff₀ hv] at hm
  linarith

/-- C5, as stated, fails for `Flame` at speed `0`: its size is `0` after every
number of updates, so it is bounded above.  Under both roundings. -/
theorem flame_size_bounded_at_speed_zero :
    (¬ ∃ n, lt (fin 0) (spawnAtAfter exact .Flame 0 n).size = true) ∧
    (¬ ∃ n, lt (fin 0) (spawnAtAfter binary64 .Flame 0 n).size = true) := by
  have h1 : ∀ n, (spawnAtAfter exact .Flame 0 n).size = fin 0 :=
    iterate_size_zero exact rfl _ (by decide) (by decide!) (by decide!)
  have h2 : ∀ n, (spawnAtAfter binary64 .Flame 0 n).size = fin 0 :=
    iterate_size_zero binary64 (by decide!) _ (by decide) (by decide!) (by decide!)
  constructor
  · rintro ⟨n, hn⟩
    rw [h1 n] at hn
    simp at hn
  · rintro ⟨n, hn⟩
    rw [h2 n] at hn
    simp at hn

/-- C5, amended.  In exact arithmetic: for every finite speed `s >= 0` and
number `n` of updates, the size of a `Ripple` does not increase at the next
update and is never below its `minSize = 0.9 * s`; the size of a `Flame` is
`2.5 * s + n * (s / 5)`, never clamped at `maxSize`, does not decrease, and
exceeds every bound when `s > 0`; the size of a `WaterRipple` is
`2 * s + n * 0.33`, does not decrease, and exceeds every bound.  In binary64:
when `s` is a double, the size of a `Ripple` does not increase at the next
update and is never below its `minSize`, and the sizes of a `Flame` and of a
`WaterRipple` do not decrease. -/
theorem size_monotone (x y : JSNum) (color : Color) (s : ℚ) (hs : 0 ≤ s) (n : Nat) :
    (le ((Effect.callUpdate exact)^[n + 1] (Ripple.new exact x y (fin s) color)).size
        ((Effect.callUpdate exact)^[n] (Ripple.new exact x y (fin s) color)).size = true ∧
      (Ripple.new exact x y (fin s) color).minSize = fin (9 / 10 * s) ∧
      le (Ripple.new exact x y (fin s) color).minSize
        ((Effect.callUpdate exact)^[n] (Ripple.new exact x y (fin s) color)).size = true) ∧
    (le ((Effect.callUpdate exact)^[n] (Flame.new exact x y (fin s) color)).size
        ((Effect.callUpdate exact)^[n + 1] (Flame.new exact x y (fin s) color)).size = true ∧
      ((Effect.callUpdate exact)^[n] (Flame.new exact x y (fin s) color)).size
        = fin (5 / 2 * s + n * (s / 5)) ∧
      (0 < s → ∀ B : ℚ, ∃ m, lt (fin B)
        ((Effect.callUpdate exact)^[m] (Flame.new exact x y (fin s) color)).size = true)) ∧
    (le ((Effect.callUpdate exact)^[n] (WaterRipple.new exact x y (fin s) color)).size
        ((Effect.callUpdate exact)^[n + 1] (WaterRipple.new exact x y (fin s) color)).size
        = true ∧
      ((Effect.callUpdate exact)^[n] (WaterRipple.new exact x y (fin s) color)).size
        = fin (2 * s + n * (33 / 100)) ∧
      (∀ B : ℚ, ∃ m, lt (fin B)
        ((Effect.callUpdate exact)^[m] (WaterRipple.new exact x y (fin s) color)).size
        = true)) ∧
    (round64 s = fin s →
      (le ((Effect.callUpdate binary64)^[n + 1] (Ripple.new binary64 x y (fin s) color)).size
          ((Effect.callUpdate binary64)^[n] (Ripple.new binary64 x y (fin s) color)).size
          = true ∧
        le (Ripple.new binary64 x y (fin s) color).minSize
          ((Effect.callUpdate binary64)^[n] (Ripple.new binary64 x y (fin s) color)).size
          = true) ∧
      le ((Effect.callUpdate binary64)^[n] (Flame.new binary64 x y (fin s) color)).size
        ((Effect.callUpdate binary64)^[n + 1] (Flame.new binary64 x y (fin s) color)).size
        = true ∧
      le ((Effect.callUpdate binary64)^[n] (WaterRipple.new binary64 x y (fin s) color)).size
        ((Effect.callUpdate binary64)^[n + 1]
          (WaterRipple.new binary64 x y (fin s) color)).size = true) := by
  have hRs := iterate_size_ripple_exact (Ripple.new exact x y (fin s) color) (s * 2)
    (s * (9 / 10)) (s / 10) (Ripple_new_cls x y color exact (fin s))
    (Ripple_new_size x y color s) (Ripple_new_minSize x y color s)
    (Ripple_new_animationSpeed x y color s) (by linarith) (by positivity)
  have hcF : (Flame.new exact x y (fin s) color).cls ≠ .Ripple := by
    rw [Flame_new_cls]
    decide
  have hFs := iterate_size_grow_exact (Flame.new exact x y (fin s) color) (s * (5 / 2))
    (s / 5) hcF (Flame_new_size x y color s) (Flame_new_animationSpeed x y color s)
  have hcW : (WaterRipple.new exact x y (fin s) color).cls ≠ .Ripple := by
    rw [WaterRipple_new_cls]
    decide
  have hWs := iterate_size_grow_exact (WaterRipple.new exact x y (fin s) color) (s * 2)
    (33 / 100) hcW (WaterRipple_new_size x y color s)
    (WaterRipple_new_animationSpeed x y color s)
  refine ⟨⟨?_, ?_, ?_⟩, ⟨?_, ?_, ?_⟩, ⟨?_, ?_, ?_⟩, ?_⟩
  rotate_right
  · intro hD
    obtain ⟨⟨a, ha, ha0⟩, ⟨mn, hmn, hmnD⟩, hsz, hle⟩ := ripple_new_binary64 x y color s hs hD
    have hR := ripple_iterate_binary64 _ (Ripple_new_cls x y color binary64 (fin s)) a mn ha ha0
      hmn hmnD hsz hle n
    obtain ⟨⟨aF, haF, haF0⟩, hszF⟩ := flame_new_binary64 x y color s hs hD
    obtain ⟨⟨aW, haW, haW0⟩, hszW⟩ := waterRipple_new_binary64 x y color s hs
    refine ⟨⟨hR.2.2, hR.2.1⟩, ?_, ?_⟩
    · exact grow_iterate_binary64 _
        (by rw [Flame_new_cls x y color binary64 (fin s)]; decide) aF haF haF0 hszF n
    · exact grow_iterate_binary64 _
        (by rw [WaterRipple_new_cls x y color binary64 (fin s)]; decide) aW haW haW0 hszW n
  · rw [hRs, hRs, le_fin, decide_eq_true_eq]
    apply max_le_max_right
    push_cast
    nlinarith
  · rw [Ripple_new_minSize, mul_comm]
  · rw [hRs, Ripple_new_minSize, le_fin, decide_eq_true_eq]
    exact le_max_right _ _
  · rw [hFs, hFs, le_fin, decide_eq_true_eq]
    push_cast
    nlinarith
  · rw [hFs, mul_comm s]
  · intro hs0 B
    obtain ⟨m, hm⟩ := exists_size_above (s * (5 / 2)) (s / 5) (by positivity) B
    exact ⟨m, by rw [hFs, lt_fin, decide_eq_true_eq]; exact hm⟩
  · rw [hWs, hWs, le_fin, decide_eq_true_eq]
    push_cast
    nlinarith
  · rw [hWs, mul_comm s]
  · intro B
    obtain ⟨m, hm⟩ := exists_size_above (s * 2) (33 / 100) (by norm_num) B
    exact ⟨m, by rw [hWs, lt_fin, decide_eq_true_eq]; exact hm⟩

/-- C5 at a concrete input: speed `0`, where the `Ripple` and the `Flame` keep
size `0` and the `WaterRipple` grows, in exact arithmetic and in binary64. -/
theorem size_monotone_witness :
    (0 : ℚ) ≤ 0 ∧
    le (Ripple.new exact (fin 0) (fin 0) (fin 0) sampleColor).minSize
      ((Effect.callUpdate exact)^[2] (Ripple.new exact (fin 0) (fin 0) (fin 0) sampleColor)).size
      = true ∧
    ((Effect.callUpdate exact)^[2] (Flame.new exact (fin 0) (fin 0) (fin 0) sampleColor)).size
      = fin (5 / 2 * 0 + (2 : ℕ) * (0 / 5)) ∧
    ((Effect.callUpdate exact)^[2]
      (WaterRipple.new exact (fin 0) (fin 0) (fin 0) sampleColor)).size
      = fin (2 * 0 + (2 : ℕ) * (33 / 100)) ∧
    le ((Effect.callUpdate binary64)^[2]
        (WaterRipple.new binary64 (fin 0) (fin 0) (fin 0) sampleColor)).size
      ((Effect.callUpdate binary64)^[2 + 1]
        (WaterRipple.new binary64 (fin 0) (fin 0) (fin 0) sampleColor)).size = true :=
  ⟨le_refl 0,
    (size_monotone (fin 0) (fin 0) sampleColor 0 (le_refl 0) 2).1.2.2,
    (size_monotone (fin 0) (fin 0) sampleColor 0 (le_refl 0) 2).2.1.2.1,
    (size_monotone (fin 0) (fin 0) sampleColor 0 (le_refl 0) 2).2.2.1.2.1,
    ((size_monotone (fin 0) (fin 0) sampleColor 0 (le_refl 0) 2).2.2.2 round64_zero).2.2⟩

/-! ## The spawn batch (C9) -/

/-- C9: under every rounding, for every state, pointer position, speed and
random palette indices, `canvasMouseMove` puts ten new entries in front of
each of the three arrays and leaves the earlier entries behind them, unchanged
and in order; the entry spawned in iteration `i` (at index `9 - i`) has the
colour `interpolateColor(colors[k], colors[(k + 1) % 6], i / 10)` for the index
`k` drawn in that iteration, the same colour in the three arrays. -/
theorem canvasMouseMove_spawns_ten (r : Rounding) (currentX currentY speed : JSNum)
    (random : Nat → ColorIndex) (s : AppState) :
    (canvasMouseMove r currentX currentY speed random s).ripples
      = ((List.range 10).reverse.map fun i =>
          Ripple.new r currentX currentY speed
            (interpolateColor r (colors.get (random i))
              (colors.get ⟨((random i).val + 1) % 6, Nat.mod_lt _ (by decide)⟩)
              (div r (lit r i) (lit r 10)))) ++ s.ripples ∧
    (canvasMouseMove r currentX currentY speed random s).flames
      = ((List.range 10).reverse.map fun i =>
          Flame.new r currentX currentY speed
            (interpolateColor r (colors.get (random i))
              (colors.get ⟨((random i).val + 1) % 6, Nat.mod_lt _ (by decide)⟩)
              (div r (lit r i) (lit r 10)))) ++ s.flames ∧
    (canvasMouseMove r currentX currentY speed random s).waterRipples
      = ((List.range 10).reverse.map fun i =>
          WaterRipple.new r currentX currentY speed
            (interpolateColor r (colors.get (random i))
              (colors.get ⟨((random i).val + 1) % 6, Nat.mod_lt _ (by decide)⟩)
              (div r (lit r i) (lit r 10)))) ++ s.waterRipples ∧
    (canvasMouseMove r currentX currentY speed random s).ripples.length
      = s.ripples.length + 10 ∧
    (canvasMouseMove r currentX currentY speed random s).flames.length
      = s.flames.length + 10 ∧
    (canvasMouseMove r currentX currentY speed random s).waterRipples.length
      = s.waterRipples.length + 10 := by
  have h : canvasMouseMove r currentX currentY speed random s
      = spawnStep r currentX currentY speed random
          (spawnStep r currentX currentY speed random
            (spawnStep r currentX currentY speed random
              (spawnStep r currentX currentY speed random
                (spawnStep r currentX currentY speed random
                  (spawnStep r currentX currentY speed random
                    (spawnStep r currentX currentY speed random
                      (spawnStep r currentX currentY speed random
                        (spawnStep r currentX currentY speed random
                          (spawnStep r currentX currentY speed random s 0) 1) 2) 3) 4) 5) 6) 7)
            8) 9 := rfl
  rw [h]
  refine ⟨rfl, rfl, rfl, ?_, ?_, ?_⟩ <;> simp [spawnStep]

/-! ## The frame loop against its reference (C1) -/

/-- C1 fails on the code.  Ten frames after one pointer move at speed `1` the
array `ripples` holds ten live ripples, all of which reach opacity `<= 0` at
their next update: the reference step (update all, keep the live ones) leaves
the array empty.  The loop of `animateEffects` removes the ripple at index `0`,
which moves the next one to index `0`, and goes on at index `1`: the ripples at
the odd indices are neither updated nor drawn nor removed, and five of the ten
stay in the array with the state they had.  Under both roundings. -/
theorem forEach_skips_after_removal :
    ((framesAfterMove exact 1 10).ripples.length = 10 ∧
      tickReference exact (framesAfterMove exact 1 10).ripples = [] ∧
      (forEach (effectCallback exact) ((framesAfterMove exact 1 10).ripples, [])).1
        = (List.range 10).filterMap (fun i =>
            if i % 2 = 1 then (framesAfterMove exact 1 10).ripples.get? i else none) ∧
      (forEach (effectCallback exact) ((framesAfterMove exact 1 10).ripples, [])).2.length
        = 5 ∧
      (animateEffects exact (framesAfterMove exact 1 10)).ripples.length = 5) ∧
    ((framesAfterMove binary64 1 10).ripples.length = 10 ∧
      tickReference binary64 (framesAfterMove binary64 1 10).ripples = [] ∧
      (forEach (effectCallback binary64) ((framesAfterMove binary64 1 10).ripples, [])).1
        = (List.range 10).filterMap (fun i =>
            if i % 2 = 1 then (framesAfterMove binary64 1 10).ripples.get? i else none) ∧
      (forEach (effectCallback binary64) ((framesAfterMove binary64 1 10).ripples, [])).2.length
        = 5 ∧
      (animateEffects binary64 (framesAfterMove binary64 1 10)).ripples.length = 5) := by
  decide!

/-! ## A `Ripple` spawned at speed `0` (C3) -/

/-- An effect whose opacity step is `NaN` has opacity `NaN` after every
positive number of updates. -/
theorem iterate_opacity_nan (r : Rounding) (e : Effect) (h : e.opacityStep = nan) (n : Nat) :
    ((Effect.callUpdate r)^[n + 1] e).opacity = nan := by
  rw [Function.iterate_succ_apply', callUpdate_opacity, iterate_opacityStep, h, sub_nan_right]

/-- C3, as stated, fails on the code: for a `Ripple` spawned at speed `0` the
denominator `size - minSize` of the opacity step is `0` and the step is
`0 / 0 = NaN`; after the first `update()` the opacity is `NaN`, which is not
`<= 0`, and the frame loop keeps the ripple: three frames after a pointer move
at speed `0` all ten ripples are still in the array.  Under both roundings. -/
theorem ripple_at_speed_zero_not_retired :
    (sub exact (spawnAt exact .Ripple 0).size (spawnAt exact .Ripple 0).minSize = fin 0 ∧
      (spawnAt exact .Ripple 0).opacityStep = nan ∧
      (spawnAtAfter exact .Ripple 0 1).opacity = nan ∧
      le (spawnAtAfter exact .Ripple 0 1).opacity (lit exact 0) = false ∧
      (framesAfterMove exact 0 3).ripples.length = 10) ∧
    (sub binary64 (spawnAt binary64 .Ripple 0).size (spawnAt binary64 .Ripple 0).minSize
        = fin 0 ∧
      (spawnAt binary64 .Ripple 0).opacityStep = nan ∧
      (spawnAtAfter binary64 .Ripple 0 1).opacity = nan ∧
      le (spawnAtAfter binary64 .Ripple 0 1).opacity (lit binary64 0) = false ∧
      (framesAfterMove binary64 0 3).ripples.length = 10) := by
  decide!

/-- C3, amended to what the code does: under both roundings, for every
position and colour, a `Ripple` spawned at speed `0` has size `0` and minSize
`0`, its opacity step is `NaN` (the division `0 / 0` is not guarded), and after
every positive number of updates its opacity is `NaN`, which is not `<= 0`: the
test that removes an effect never succeeds for it. -/
theorem ripple_at_speed_zero (x y : JSNum) (color : Color) (n : Nat) :
    ((Ripple.new exact x y (fin 0) color).size = fin 0 ∧
      (Ripple.new exact x y (fin 0) color).minSize = fin 0 ∧
      (Ripple.new exact x y (fin 0) color).opacityStep = nan ∧
      ((Effect.callUpdate exact)^[n + 1] (Ripple.new exact x y (fin 0) color)).opacity = nan ∧
      le ((Effect.callUpdate exact)^[n + 1] (Ripple.new exact x y (fin 0) color)).opacity
        (lit exact 0) = false) ∧
    ((Ripple.new binary64 x y (fin 0) color).size = fin 0 ∧
      (Ripple.new binary64 x y (fin 0) color).minSize = fin 0 ∧
      (Ripple.new binary64 x y (fin 0) color).opacityStep = nan ∧
      ((Effect.callUpdate binary64)^[n + 1] (Ripple.new binary64 x y (fin 0) color)).opacity
        = nan ∧
      le ((Effect.callUpdate binary64)^[n + 1] (Ripple.new binary64 x y (fin 0) color)).opacity
        (lit binary64 0) = false) := by
  have key : ∀ r : Rounding,
      mul r (fin 0) (lit r 2) = fin 0 →
      mul r (fin 0) (lit r (9 / 10)) = fin 0 →
      div r (div r (div r (fin 0) (lit r 10))
        (sub r (mul r (fin 0) (lit r 2)) (mul r (fin 0) (lit r (9 / 10))))) (lit r 1) = nan →
      (Ripple.new r x y (fin 0) color).size = fin 0 ∧
      (Ripple.new r x y (fin 0) color).minSize = fin 0 ∧
      (Ripple.new r x y (fin 0) color).opacityStep = nan ∧
      ((Effect.callUpdate r)^[n + 1] (Ripple.new r x y (fin 0) color)).opacity = nan ∧
      le ((Effect.callUpdate r)^[n + 1] (Ripple.new r x y (fin 0) color)).opacity (lit r 0)
        = false := by
    intro r h1 h2 h3
    have hstep : (Ripple.new r x y (fin 0) color).opacityStep = nan := h3
    refine ⟨h1, h2, hstep, iterate_opacity_nan r _ hstep n, ?_⟩
    rw [iterate_opacity_nan r _ hstep n, le_nan_left]
  exact ⟨key exact (by decide!) (by decide!) (by decide!),
    key binary64 (by decide!) (by decide!) (by decide!)⟩

/-! ## Live effects in the registry (C2) -/

theorem eraseIdx_set_self (l : List Effect) (k : Nat) (x : Effect) :
    (l.set k x).eraseIdx k = l.eraseIdx k := by
  induction l generalizing k with
  | nil => rfl
  | cons a t ih =>
    cases k with
    | zero => rfl
    | succ k => simp [ih]

theorem drop_succ_eraseIdx_suffix (l : List Effect) (k : Nat) :
    (l.eraseIdx k).drop (k + 1) <:+ l.drop k := by
  induction l generalizing k with
  | nil => simp
  | cons a t ih =>
    cases k with
    | zero =>
      simp only [List.eraseIdx_cons_zero, List.drop_zero]
      exact (List.drop_suffix 1 t).trans (List.suffix_cons a t)
    | succ k => simpa using ih k

/-- What the callback of the frame loop does at an index holding `effect`:
it draws the updated effect and either removes it or leaves it in its slot. -/
theorem effectCallback_eq (r : Rounding) (effect : Effect) (k : Nat)
    (st : List Effect × List DrawCmd) :
    effectCallback r effect k st
      = (if le (effect.callUpdate r).opacity (lit r 0) = true then st.1.eraseIdx k
          else st.1.set k (effect.callUpdate r),
        st.2 ++ [(effect.callUpdate r).callDraw r]) := by
  unfold effectCallback
  by_cases h : le (effect.callUpdate r).opacity (lit r 0) = true
  · simp [h, eraseIdx_set_self]
  · simp [h]

/-- The invariant of the frame loop on one array: every member is live, the
part of the array from the current index on is a part of the array the loop
started with, and every drawing command added so far draws the update of a
member of that array. -/
theorem forEachLoop_invariant (r : Rounding) (orig : List Effect) (canvas0 : List DrawCmd)
    (n : Nat) : ∀ (k : Nat) (st : List Effect × List DrawCmd),
    (∀ e ∈ st.1, le e.opacity (lit r 0) = false) →
    st.1.drop k <:+ orig →
    (∀ c ∈ st.2, c ∈ canvas0 ∨ ∃ e ∈ orig, c = (e.callUpdate r).callDraw r) →
    (∀ e ∈ (forEachLoop (effectCallback r) n k st).1, le e.opacity (lit r 0) = false) ∧
    (∀ c ∈ (forEachLoop (effectCallback r) n k st).2,
      c ∈ canvas0 ∨ ∃ e ∈ orig, c = (e.callUpdate r).callDraw r) := by
  induction n with
  | zero =>
    intro k st h1 _ h3
    exact ⟨h1, h3⟩
  | succ n ih =>
    intro k st h1 h2 h3
    unfold forEachLoop
    cases hget : st.1.get? k with
    | none =>
      simp only
      exact ih (k + 1) st h1
        ((List.drop_suffix_drop_left st.1 (Nat.le_succ k)).trans h2) h3
    | some effect =>
      simp only
      have hk : k < st.1.length := by
        rw [List.get?_eq_getElem?] at hget
        exact (List.getElem?_eq_some_iff.mp hget).1
      have hmem : effect ∈ orig := by
        apply h2.subset
        rw [List.get?_eq_getElem?] at hget
        obtain ⟨hk', hval⟩ := List.getElem?_eq_some_iff.mp hget
        rw [List.drop_eq_getElem_cons hk', hval]
        exact List.mem_cons_self _ _
      rw [effectCallback_eq]
      apply ih (k + 1)
      · intro e he
        by_cases hdead : le (effect.callUpdate r).opacity (lit r 0) = true
        · rw [if_pos hdead] at he
          exact h1 e (List.mem_of_mem_eraseIdx he)
        · rw [if_neg hdead] at he
          rcases List.mem_or_eq_of_mem_set he with h | h
          · exact h1 e h
          · rw [h]
            simpa using hdead
      · by_cases hdead : le (effect.callUpdate r).opacity (lit r 0) = true
        · rw [if_pos hdead]
          exact (drop_succ_eraseIdx_suffix st.1 k).trans h2
        · rw [if_neg hdead]
          rw [List.drop_set_of_lt _ _ (Nat.lt_succ_self k)]
          exact (List.drop_suffix_drop_left st.1 (Nat.le_succ k)).trans h2
      · intro c hc
        rcases List.mem_append.mp hc with h | h
        · exact h3 c h
        · right
          exact ⟨effect, hmem, by simpa using h⟩

/-- One run of the frame loop on an array of live effects leaves only live
effects, and draws only updates of members of that array. -/
theorem forEach_live (r : Rounding) (array : List Effect) (canvas : List DrawCmd)
    (h : ∀ e ∈ array, le e.opacity (lit r 0) = false) :
    (∀ e ∈ (forEach (effectCallback r) (array, canvas)).1, le e.opacity (lit r 0) = false) ∧
    (∀ c ∈ (forEach (effectCallback r) (array, canvas)).2,
      c ∈ canvas ∨ ∃ e ∈ array, c = (e.callUpdate r).callDraw r) :=
  forEachLoop_invariant r array canvas array.length 0 (array, canvas) h
    (by simp) (fun c hc => Or.inl hc)

theorem animateEffects_ripples (r : Rounding) (s : AppState) :
    (animateEffects r s).ripples = (forEach (effectCallback r) (s.ripples, [])).1 := rfl

theorem animateEffects_flames (r : Rounding) (s : AppState) :
    (animateEffects r s).flames
      = (forEach (effectCallback r)
          (s.flames, (forEach (effectCallback r) (s.ripples, [])).2)).1 := rfl

theorem animateEffects_waterRipples (r : Rounding) (s : AppState) :
    (animateEffects r s).waterRipples
      = (forEach (effectCallback r)
          (s.waterRipples,
            (forEach (effectCallback r)
              (s.flames, (forEach (effectCallback r) (s.ripples, [])).2)).2)).1 := rfl

theorem animateEffects_canvas (r : Rounding) (s : AppState) :
    (animateEffects r s).canvas
      = (forEach (effectCallback r)
          (s.waterRipples,
            (forEach (effectCallback r)
              (s.flames, (forEach (effectCallback r) (s.ripples, [])).2)).2)).2
        ++ [.image (animateEffects r s).buffer] := rfl

/-- A frame keeps the three arrays live and draws only updates of their
members. -/
theorem animateEffects_live (r : Rounding) (s : AppState)
    (h : ∀ e ∈ s.ripples ++ s.flames ++ s.waterRipples, le e.opacity (lit r 0) = false) :
    (∀ e ∈ (animateEffects r s).ripples ++ (animateEffects r s).flames
        ++ (animateEffects r s).waterRipples, le e.opacity (lit r 0) = false) ∧
    (∀ c ∈ (animateEffects r s).canvas,
      (∃ buffer, c = .image buffer) ∨
      ∃ e ∈ s.ripples ++ s.flames ++ s.waterRipples,
        le e.opacity (lit r 0) = false ∧ c = (e.callUpdate r).callDraw r) := by
  have hR := forEach_live r s.ripples [] (fun e he => h e (by simp [he]))
  have hF := forEach_live r s.flames (forEach (effectCallback r) (s.ripples, [])).2
    (fun e he => h e (by simp [he]))
  have hW := forEach_live r s.waterRipples
    (forEach (effectCallback r) (s.flames, (forEach (effectCallback r) (s.ripples, [])).2)).2
    (fun e he => h e (by simp [he]))
  constructor
  · intro e he
    rw [animateEffects_ripples, animateEffects_flames, animateEffects_waterRipples] at he
    rcases List.mem_append.mp he with he | he
    · rcases List.mem_append.mp he with he | he
      · exact hR.1 e he
      · exact hF.1 e he
    · exact hW.1 e he
  · intro c hc
    rw [animateEffects_canvas] at hc
    rcases List.mem_append.mp hc with hc | hc
    · right
      rcases hW.2 c hc with hc | ⟨e, he, rfl⟩
      · rcases hF.2 c hc with hc | ⟨e, he, rfl⟩
        · rcases hR.2 c hc with hc | ⟨e, he, rfl⟩
          · simp at hc
          · exact ⟨e, by simp [he], h e (by simp [he]), rfl⟩
        · exact ⟨e, by simp [he], h e (by simp [he]), rfl⟩
      · exact ⟨e, by simp [he], h e (by simp [he]), rfl⟩
    · left
      exact ⟨_, by simpa using hc⟩

/-- One iteration of the spawn loop keeps the three arrays live. -/
theorem spawnStep_live (r : Rounding) (h10 : le (lit r 1) (lit r 0) = false)
    (currentX currentY speed : JSNum) (random : Nat → ColorIndex) (s : AppState) (i : Nat)
    (h : ∀ e ∈ s.ripples ++ s.flames ++ s.waterRipples, le e.opacity (lit r 0) = false) :
    ∀ e ∈ (spawnStep r currentX currentY speed random s i).ripples
        ++ (spawnStep r currentX currentY speed random s i).flames
        ++ (spawnStep r currentX currentY speed random s i).waterRipples,
      le e.opacity (lit r 0) = false := by
  intro e he
  simp only [spawnStep, List.mem_append, List.mem_cons] at he
  rcases he with ((rfl | he) | (rfl | he)) | (rfl | he)
  · exact h10
  · exact h e (by simp [he])
  · exact h10
  · exact h e (by simp [he])
  · exact h10
  · exact h e (by simp [he])

/-- A pointer move keeps the three arrays live. -/
theorem canvasMouseMove_live (r : Rounding) (h10 : le (lit r 1) (lit r 0) = false)
    (currentX currentY speed : JSNum) (random : Nat → ColorIndex) (s : AppState)
    (h : ∀ e ∈ s.ripples ++ s.flames ++ s.waterRipples, le e.opacity (lit r 0) = false) :
    ∀ e ∈ (canvasMouseMove r currentX currentY speed random s).ripples
        ++ (canvasMouseMove r currentX currentY speed random s).flames
        ++ (canvasMouseMove r currentX currentY speed random s).waterRipples,
      le e.opacity (lit r 0) = false := by
  unfold canvasMouseMove
  generalize List.range 10 = l
  induction l generalizing s with
  | nil => exact h
  | cons i t ih =>
    rw [List.foldl_cons]
    exact ih _ (spawnStep_live r h10 currentX currentY speed random s i h)

/-- Every reachable state holds live effects only. -/
theorem reachable_live (r : Rounding) (h10 : le (lit r 1) (lit r 0) = false)
    (width height : JSNum) (s : AppState) (hs : Reachable r width height s) :
    ∀ e ∈ s.ripples ++ s.flames ++ s.waterRipples, le e.opacity (lit r 0) = false := by
  induction hs with
  | init =>
    intro e he
    simp [AppState.init] at he
  | move currentX currentY speed random _ _ ih =>
    exact canvasMouseMove_live r h10 currentX currentY speed random _ ih
  | frame _ ih => exact (animateEffects_live r _ ih).1

/-- C2: under both roundings, in every state reachable from the three empty
arrays by pointer moves at a speed `>= 0` and animation frames, no array holds
an effect whose opacity is `<= 0`; the same holds after one more frame, and
every effect that this frame updates and draws was in an array, with opacity
not `<= 0`, when the frame started.  So an effect is removed in the frame in
which its opacity reaches `<= 0`, and is never updated or drawn after it. -/
theorem registry_effects_live (r : Rounding) (hr : r = exact ∨ r = binary64)
    (width height : JSNum) (s : AppState) (hs : Reachable r width height s) :
    (∀ e ∈ s.ripples ++ s.flames ++ s.waterRipples, le e.opacity (lit r 0) = false) ∧
    (∀ e ∈ (animateEffects r s).ripples ++ (animateEffects r s).flames
        ++ (animateEffects r s).waterRipples, le e.opacity (lit r 0) = false) ∧
    (∀ c ∈ (animateEffects r s).canvas,
      (∃ buffer, c = .image buffer) ∨
      ∃ e ∈ s.ripples ++ s.flames ++ s.waterRipples,
        le e.opacity (lit r 0) = false ∧ c = (e.callUpdate r).callDraw r) := by
  have h10 : le (lit r 1) (lit r 0) = false := by
    rcases hr with rfl | rfl <;> decide!
  have h := reachable_live r h10 width height s hs
  exact ⟨h, animateEffects_live r s h⟩

/-- C2 at a concrete input: binary64 arithmetic, the state twelve frames after
a pointer move at speed `1`, where five ripples have been removed. -/
theorem registry_effects_live_witness :
    (∀ e ∈ (framesAfterMove binary64 1 12).ripples ++ (framesAfterMove binary64 1 12).flames
        ++ (framesAfterMove binary64 1 12).waterRipples,
      le e.opacity (lit binary64 0) = false) ∧
    (framesAfterMove binary64 1 12).ripples.length = 2 :=
  have hreach : ∀ n, Reachable binary64 (fin 300) (fin 150) (framesAfterMove binary64 1 n) := by
    intro n
    induction n with
    | zero =>
      unfold framesAfterMove
      rw [Function.iterate_zero_apply]
      exact Reachable.move (fin 0) (fin 0) (fin 1) _ Reachable.init (by decide!)
    | succ n ih =>
      unfold framesAfterMove at ih ⊢
      rw [Function.iterate_succ_apply']
      exact Reachable.frame ih
  ⟨(registry_effects_live binary64 (Or.inr rfl) (fin 300) (fin 150) _ (hreach 12)).1,
    by decide!⟩

/-! ## The reflective line (C7) -/

/-- For operands that are not `NaN`, `a > b` is the negation of `a <= b`. -/
theorem gt_eq_not_le (a b : JSNum) (ha : a ≠ nan) (hb : b ≠ nan) : gt a b = !le a b := by
  cases a <;> cases b <;> simp_all [gt, lt, le, ← not_le]

/-- C7: for every finite offset, speed, width and height, under every rounding
that never yields `NaN` (exact arithmetic and binary64 are such), `update()`
sets the offset to `offset + speed` when `offset + speed <= width + height` and
to `-width` otherwise, and leaves angle, speed, width and height unchanged. -/
theorem reflectiveLine_update (r : Rounding) (hr : ∀ q, r q ≠ nan) (angle : JSNum)
    (offset speed width height : ℚ) :
    (ReflectiveLineEffect.update r ⟨angle, fin speed, fin offset, fin width, fin height⟩).offset
      = (if le (add r (fin offset) (fin speed)) (add r (fin width) (fin height)) = true
          then add r (fin offset) (fin speed) else neg (fin width)) ∧
    (ReflectiveLineEffect.update r ⟨angle, fin speed, fin offset, fin width, fin height⟩).angle
      = angle ∧
    (ReflectiveLineEffect.update r ⟨angle, fin speed, fin offset, fin width, fin height⟩).speed
      = fin speed ∧
    (ReflectiveLineEffect.update r ⟨angle, fin speed, fin offset, fin width, fin height⟩).width
      = fin width ∧
    (ReflectiveLineEffect.update r ⟨angle, fin speed, fin offset, fin width, fin height⟩).height
      = fin height := by
  have hgt := gt_eq_not_le (add r (fin offset) (fin speed)) (add r (fin width) (fin height))
    (hr _) (hr _)
  unfold ReflectiveLineEffect.update
  simp only [hgt]
  by_cases h : le (add r (fin offset) (fin speed)) (add r (fin width) (fin height)) = true
  · simp [h]
  · simp [h]

/-- C7 at concrete inputs, binary64 arithmetic, a 300 by 150 canvas and speed
`1`: from offset `449` the update gives `450`, from offset `450` it gives
`-300`. -/
theorem reflectiveLine_update_witness :
    (∀ q, binary64 q ≠ nan) ∧
    (ReflectiveLineEffect.update binary64
      ⟨fin (-45), fin 1, fin 449, fin 300, fin 150⟩).offset = fin 450 ∧
    (ReflectiveLineEffect.update binary64
      ⟨fin (-45), fin 1, fin 450, fin 300, fin 150⟩).offset = fin (-300) :=
  ⟨round64_ne_nan,
    (reflectiveLine_update binary64 round64_ne_nan (fin (-45)) 449 1 300 150).1.trans
      (by decide!),
    (reflectiveLine_update binary64 round64_ne_nan (fin (-45)) 450 1 300 150).1.trans
      (by decide!)⟩

/-! ## Colour interpolation at the end points (C8) -/

/-- C8, as stated, fails in the binary64 arithmetic the code runs in: with
every channel of `colorA` equal to `0.5` and every channel of `colorB` equal to
`0.1`, `interpolateColor(colorA, colorB, 1)` is not `colorB`: the difference
`0.1 - 0.5` is rounded, and each channel comes out as `0.09999999999999998`,
one unit in the last place below `0.1`. -/
theorem interpolateColor_one_fails_in_binary64 :
    interpolateColor binary64
        ⟨lit binary64 (1 / 2), lit binary64 (1 / 2), lit binary64 (1 / 2)⟩
        ⟨lit binary64 (1 / 10), lit binary64 (1 / 10), lit binary64 (1 / 10)⟩ (lit binary64 1)
      ≠ ⟨lit binary64 (1 / 10), lit binary64 (1 / 10), lit binary64 (1 / 10)⟩ ∧
    lit binary64 (1 / 10) = fin (3602879701896397 / 2 ^ 55) ∧
    (interpolateColor binary64
        ⟨lit binary64 (1 / 2), lit binary64 (1 / 2), lit binary64 (1 / 2)⟩
        ⟨lit binary64 (1 / 10), lit binary64 (1 / 10), lit binary64 (1 / 10)⟩
        (lit binary64 1)).hue
      = fin (900719925474099 / 2 ^ 53) := by
  decide!

/-- One channel at factor `0`: the first end point, when it is a number of the
arithmetic and the difference does not overflow. -/
theorem interpolateChannel_zero (r : Rounding) (hz : r 0 = fin 0) (a b : ℚ)
    (ha : r a = fin a) (hd : ∃ d, r (b - a) = fin d) :
    interpolateChannel r (fin a) (fin b) (fin 0) = fin a := by
  obtain ⟨d, hd⟩ := hd
  simp [interpolateChannel, sub, neg, add, mul, ← sub_eq_add_neg, hd, hz, ha]

/-- One channel at factor `1`: the second end point, when it is a number of
the arithmetic and the difference is computed without rounding. -/
theorem interpolateChannel_one (r : Rounding) (a b : ℚ)
    (hb : r b = fin b) (hd : r (b - a) = fin (b - a)) :
    interpolateChannel r (fin a) (fin b) (fin 1) = fin b := by
  simp [interpolateChannel, sub, neg, add, mul, ← sub_eq_add_neg, hd, hb]

/-- C8, amended: for colours with finite channels, under a rounding `r` that
leaves `0` and the channels of `colorA` alone and does not overflow on the
channel differences, `interpolateColor(colorA, colorB, 0)` is `colorA`; if `r`
also leaves the channels of `colorB` alone and computes each difference
`colorB.c - colorA.c` without rounding, `interpolateColor(colorA, colorB, 1)`
is `colorB`.  In exact arithmetic both hold for all finite colours. -/
theorem interpolateColor_endpoints (r : Rounding) (hz : r 0 = fin 0)
    (h1 s1 l1 h2 s2 l2 : ℚ)
    (hA : r h1 = fin h1 ∧ r s1 = fin s1 ∧ r l1 = fin l1)
    (hD : (∃ d, r (h2 - h1) = fin d) ∧ (∃ d, r (s2 - s1) = fin d) ∧
      (∃ d, r (l2 - l1) = fin d)) :
    interpolateColor r ⟨fin h1, fin s1, fin l1⟩ ⟨fin h2, fin s2, fin l2⟩ (fin 0)
      = ⟨fin h1, fin s1, fin l1⟩ ∧
    ((r h2 = fin h2 ∧ r s2 = fin s2 ∧ r l2 = fin l2) →
      (r (h2 - h1) = fin (h2 - h1) ∧ r (s2 - s1) = fin (s2 - s1) ∧
        r (l2 - l1) = fin (l2 - l1)) →
      interpolateColor r ⟨fin h1, fin s1, fin l1⟩ ⟨fin h2, fin s2, fin l2⟩ (fin 1)
        = ⟨fin h2, fin s2, fin l2⟩) ∧
    interpolateColor exact ⟨fin h1, fin s1, fin l1⟩ ⟨fin h2, fin s2, fin l2⟩ (fin 0)
      = ⟨fin h1, fin s1, fin l1⟩ ∧
    interpolateColor exact ⟨fin h1, fin s1, fin l1⟩ ⟨fin h2, fin s2, fin l2⟩ (fin 1)
      = ⟨fin h2, fin s2, fin l2⟩ := by
  refine ⟨?_, ?_, ?_, ?_⟩
  · simp only [interpolateColor]
    rw [interpolateChannel_zero r hz h1 h2 hA.1 hD.1,
      interpolateChannel_zero r hz s1 s2 hA.2.1 hD.2.1,
      interpolateChannel_zero r hz l1 l2 hA.2.2 hD.2.2]
  · intro hB hE
    simp only [interpolateColor]
    rw [interpolateChannel_one r h1 h2 hB.1 hE.1, interpolateChannel_one r s1 s2 hB.2.1 hE.2.1,
      interpolateChannel_one r l1 l2 hB.2.2 hE.2.2]
  · simp only [interpolateColor]
    rw [interpolateChannel_zero exact rfl h1 h2 rfl ⟨_, rfl⟩,
      interpolateChannel_zero exact rfl s1 s2 rfl ⟨_, rfl⟩,
      interpolateChannel_zero exact rfl l1 l2 rfl ⟨_, rfl⟩]
  · simp only [interpolateColor]
    rw [interpolateChannel_one exact h1 h2 rfl rfl, interpolateChannel_one exact s1 s2 rfl rfl,
      interpolateChannel_one exact l1 l2 rfl rfl]

/-- C8 at a concrete input: binary64 arithmetic, the palette entries red and
yellow, for which both end points are exact. -/
theorem interpolateColor_endpoints_witness :
    binary64 0 = fin 0 ∧
    interpolateColor binary64 ⟨fin 0, fin 100, fin 50⟩ ⟨fin 60, fin 100, fin 50⟩ (fin 0)
      = ⟨fin 0, fin 100, fin 50⟩ ∧
    interpolateColor binary64 ⟨fin 0, fin 100, fin 50⟩ ⟨fin 60, fin 100, fin 50⟩ (fin 1)
      = ⟨fin 60, fin 100, fin 50⟩ :=
  have h := interpolateColor_endpoints binary64 (by decide!) 0 100 50 60 100 50
    (by decide!) ⟨⟨60, by decide!⟩, ⟨0, by decide!⟩, ⟨0, by decide!⟩⟩
  ⟨by decide!, h.1, h.2.1 (by decide!) (by decide!)⟩

end CursorTrail
